import Mathlib

/-!
# WasmFS path resolution (`system/lib/wasmfs/paths.cpp`)

A shallow embedding of `getParsedPath`, `getDir` and `splitPath`, together with
the part of the file model (`file.h`, `wasmfs.h`) that they rely on, and the
properties of the specification that concern them.

Conventions of the embedding.

* A `std::shared_ptr<File>` is an `Option Handle`: `none` is `nullptr`, and two
  pointers are equal exactly when their handles are (reference identity).
* The directory tree is a heap `files : Handle → File`.
* `long& err` and the sequence of lock operations and entry lookups performed
  by a call are threaded through the functions as a `CallState`.
* An iterator into a `std::vector<std::string>` is a position together with
  the elements of the vector from that position on.
-/

namespace wasmfs

/-- Identity of a `File` object, the target of a `std::shared_ptr<File>`. -/
abbrev Handle := Nat

/-- Modelled from the spec: the `File` entity of `file.h`, which is not among
the sources.  A file is a RegularFile or a Directory; a Directory owns a
mapping from names to files. -/
inductive File where
  | RegularFile : File
  | Directory (entries : String → Option Handle) : File

/-- The runtime kind test behind `dynCast<Directory>()`. -/
def File.isDirectory : File → Bool
  | .RegularFile => false
  | .Directory _ => true

/-- Modelled from the spec: the global `wasmFS` object of `wasmfs.h`.  The
root and the current working directory are `std::shared_ptr<Directory>`, so
both designate Directories. -/
structure WasmFS where
  files : Handle → File
  rootDirectory : Handle
  cwd : Handle
  root_isDirectory : (files rootDirectory).isDirectory = true
  cwd_isDirectory : (files cwd).isDirectory = true

/-- The constants of `<errno.h>` used by `paths.cpp`.  The header is not among
the sources, so their values are parameters of the development. -/
structure Errno where
  ENOENT : Int
  ENOTDIR : Int
  EINVAL : Int

/-- What a call does to the directories besides computing its result. -/
inductive Event where
  | acquire (dir : Handle) : Event
  | getEntry (dir : Handle) (name : String) : Event
  | release (dir : Handle) : Event
  deriving DecidableEq, Repr

/-- The caller-visible state threaded through a call: the `long& err`
out-parameter and the events performed so far, oldest first. -/
structure CallState where
  err : Int
  events : List Event
  deriving DecidableEq, Repr

/-- The assignment `err = code`. -/
def CallState.setErr (st : CallState) (code : Int) : CallState :=
  { st with err := code }

/-- Append events to the log. -/
def CallState.record (st : CallState) (evs : List Event) : CallState :=
  { st with events := st.events ++ evs }

/-- Modelled from the spec: `file->dynCast<Directory>()` of `file.h`, which
yields the same pointer when the file is a Directory and `nullptr`
otherwise. -/
def dynCastDirectory (fs : WasmFS) (file : Handle) : Option Handle :=
  if (fs.files file).isDirectory then some file else none

/-- Modelled from the spec: `Directory::Handle::getEntry(name)` of `file.h`,
the entry of a directory's mapping under `name`, `nullptr` when there is
none. -/
def getEntry (fs : WasmFS) (dir : Handle) (name : String) : Option Handle :=
  match fs.files dir with
  | .Directory entries => entries name
  | .RegularFile => none

/-- Events of the full expression `dir->locked().getEntry(name)`: the
temporary lock is taken, the entry is read and the lock is dropped. -/
def lockedLookup (dir : Handle) (name : String) : List Event :=
  [.acquire dir, .getEntry dir name, .release dir]

/-- The struct `ParsedPath` of `paths.h`: the lock held on the parent
(`std::optional<Directory::Handle>`, here the locked directory) and the
child pointer. -/
structure ParsedPath where
  parent : Option Handle
  child : Option Handle
  deriving DecidableEq, Repr

/-- The loop of `getParsedPath` followed by the final lookup.  The iterator
`pathPart` is at `name`, and `rest` are the parts after it, so
`pathPart != pathParts.end() - 1` holds exactly when `rest` is non-empty. -/
def getParsedPathLoop (E : Errno) (fs : WasmFS) (forbiddenAncestor : Option Handle) :
    Handle → String → List String → CallState → ParsedPath × CallState
  | curr, name, [], st =>
    -- Lock the parent once.
    let st := st.record [.acquire curr, .getEntry curr name]
    let child := getEntry fs curr name
    (⟨some curr, child⟩, st)
  | curr, name, next :: rest, st =>
    let entry := getEntry fs curr name
    let st := st.record (lockedLookup curr name)
    if forbiddenAncestor ≠ none ∧ entry = forbiddenAncestor then
      (⟨none, none⟩, st.setErr (-E.EINVAL))
    else
      match entry with
      | none => (⟨none, none⟩, st.setErr (-E.ENOENT))
      | some file =>
        match dynCastDirectory fs file with
        | none => (⟨none, none⟩, st.setErr (-E.ENOTDIR))
        | some dir => getParsedPathLoop E fs forbiddenAncestor dir next rest st

/-- The function `getParsedPath` of `paths.cpp`. -/
def getParsedPath (E : Errno) (fs : WasmFS) (pathParts : List String) (st : CallState)
    (forbiddenAncestor : Option Handle) : ParsedPath × CallState :=
  match pathParts with
  | [] => (⟨none, none⟩, st.setErr (-E.ENOENT))
  | first :: rest =>
    if first = "/" then
      match rest with
      | [] => (⟨some fs.rootDirectory, some fs.rootDirectory⟩, st.record [.acquire fs.rootDirectory])
      | name :: rest => getParsedPathLoop E fs forbiddenAncestor fs.rootDirectory name rest st
    else
      getParsedPathLoop E fs forbiddenAncestor fs.cwd first rest st

/-- The loop of `getDir` and the code after it.  The iterator `it` is the
position `it` together with `rest`, the elements of the vector from that
position on; `endIt` is the position of `end`.  The result `none` stands for
undefined behaviour: dereferencing an iterator at or past the end of the
vector. -/
def getDirLoop (E : Errno) (fs : WasmFS) (forbiddenAncestor : Option Handle) (endIt : Nat)
    (rest : List String) (it : Nat) (curr : Handle) (st : CallState) :
    Option (Option Handle × CallState) :=
  if it = endIt then
    match dynCastDirectory fs curr with
    | none => some (none, st.setErr (-E.ENOTDIR))
    | some currDirectory => some (some currDirectory, st)
  else
    match dynCastDirectory fs curr with
    | none => some (none, st.setErr (-E.ENOTDIR))
    | some directory =>
      match rest with
      | [] => none
      | name :: rest =>
        let entry := getEntry fs directory name
        let st := st.record (lockedLookup directory name)
        if forbiddenAncestor ≠ none ∧ entry = forbiddenAncestor then
          some (none, st.setErr (-E.EINVAL))
        else
          match entry with
          | none => some (none, st.setErr (-E.ENOENT))
          | some file => getDirLoop E fs forbiddenAncestor endIt rest (it + 1) file st

/-- The function `getDir` of `paths.cpp`, called with the iterators at
positions `begin` and `endIt` of the vector `pathParts`. -/
def getDir (E : Errno) (fs : WasmFS) (pathParts : List String) (begin endIt : Nat)
    (st : CallState) (forbiddenAncestor : Option Handle) :
    Option (Option Handle × CallState) :=
  match pathParts.drop begin with
  | [] => none
  | first :: rest =>
    if first = "/" then
      getDirLoop E fs forbiddenAncestor endIt rest (begin + 1) fs.rootDirectory st
    else
      getDirLoop E fs forbiddenAncestor endIt (first :: rest) begin fs.cwd st

/-! ## Vocabulary of the specification -/

/-- The directory reached from `dir` when the segments of `segs` successively
name entries that are Directories; `none` when some segment has no entry or
names an entry that is not a Directory. -/
def descend (fs : WasmFS) : Handle → List String → Option Handle
  | dir, [] => some dir
  | dir, name :: rest =>
    match getEntry fs dir name with
    | none => none
    | some file => if (fs.files file).isDirectory then descend fs file rest else none

/-- The entries that the segments of `segs` successively name from `dir`, up
to and including the first one that is not a Directory. -/
def chain (fs : WasmFS) : Handle → List String → List Handle
  | _, [] => []
  | dir, name :: rest =>
    match getEntry fs dir name with
    | none => []
    | some file => file :: (if (fs.files file).isDirectory then chain fs file rest else [])

/-- The events of the temporary-lock lookups made while the segments of `segs`
are followed from `dir` through Directories. -/
def walkEvents (fs : WasmFS) : Handle → List String → List Event
  | _, [] => []
  | dir, name :: rest =>
    lockedLookup dir name ++
      (match getEntry fs dir name with
       | none => []
       | some file => if (fs.files file).isDirectory then walkEvents fs file rest else [])

/-- The names passed to `getEntry` in a log of events, in order. -/
def lookedUp : List Event → List String
  | [] => []
  | .getEntry _ name :: evs => name :: lookedUp evs
  | _ :: evs => lookedUp evs

/-- The directory a walk over `pathParts` starts from: the root when the
first element is the marker `"/"`, the current working directory otherwise. -/
def startDirectory (fs : WasmFS) (pathParts : List String) : Handle :=
  if pathParts.head? = some "/" then fs.rootDirectory else fs.cwd

/-- The segments of `pathParts` proper: everything but a leading marker. -/
def segments (pathParts : List String) : List String :=
  if pathParts.head? = some "/" then pathParts.tail else pathParts

/-- The elements of the iterator range `[begin, endIt)` of the vector
`pathParts`. -/
def rangeOf (pathParts : List String) (begin endIt : Nat) : List String :=
  (pathParts.take endIt).drop begin

/-- The directory locks held after an event, given those held before it. -/
def Event.apply (held : List Handle) : Event → List Handle
  | .acquire dir => dir :: held
  | .getEntry _ _ => held
  | .release dir => held.erase dir

/-- The directory locks held after a sequence of events, given those held
before it. -/
def heldAfter (held : List Handle) (evs : List Event) : List Handle :=
  evs.foldl Event.apply held

/-- At every moment of a sequence of events that starts with no lock held, at
most one directory lock is held. -/
def atMostOneHeld (evs : List Event) : Prop :=
  ∀ k, (heldAfter [] (evs.take k)).length ≤ 1

/-- The values of `<errno.h>` on Emscripten, used for concrete examples. -/
def emscriptenErrno : Errno := ⟨44, 54, 28⟩

/-- A small tree for concrete examples: the root `0` holds the directory
`a` (handle `1`) and the regular file `f` (handle `3`); `a` holds the
directory `b` (handle `2`), which is the current working directory and holds
the regular file `g` (handle `4`). -/
def sampleFS : WasmFS where
  files := fun h =>
    if h = 0 then .Directory (fun n => if n = "a" then some 1 else if n = "f" then some 3 else none)
    else if h = 1 then .Directory (fun n => if n = "b" then some 2 else none)
    else if h = 2 then .Directory (fun n => if n = "g" then some 4 else none)
    else .RegularFile
  rootDirectory := 0
  cwd := 2
  root_isDirectory := rfl
  cwd_isDirectory := rfl

/-! ## `splitPath` -/

/-- Modelled from the C standard: `strtok(s, sep)` of `<string.h>`, whose
implementation is not among the sources.  A `char*` is the list of characters
from its position up to the terminator, `none` the null pointer.  `strtok`
keeps its position in one static variable, shared by all the threads of the
program: `p` is what that static holds when the call is made (`none` also
when it points at a terminator), whichever thread stored it, and the result
is the token returned together with what the static holds afterwards.
Leading separators are skipped; the token runs up to the next separator,
which is overwritten with the terminator and stepped over. -/
def strtok (s : Option (List Char)) (sep : List Char) (p : Option (List Char)) :
    Option (List Char) × Option (List Char) :=
  match (match s with | some s => some s | none => p) with
  | none => (none, none)
  | some s =>
    match s.dropWhile (fun c => decide (c ∈ sep)) with
    | [] => (none, none)
    | c :: cs =>
      match (c :: cs).dropWhile (fun c => !decide (c ∈ sep)) with
      | [] => (some ((c :: cs).takeWhile (fun c => !decide (c ∈ sep))), none)
      | _ :: p => (some ((c :: cs).takeWhile (fun c => !decide (c ∈ sep))), some p)

/-- The `while (current != NULL)` loop of `splitPath` in a call during which
no other thread calls `strtok`, so that the static of `strtok` holds at each
call what the previous call of the loop left in it, `p`; the calls of several
threads are in `Concurrent.step`.  The first argument bounds the number of
iterations; the bound is never reached when it exceeds the length of the
string (see `splitPathLoop_eq`). -/
def splitPathLoop : Nat → Option (List Char) → Option (List Char) → List String → List String
  | 0, _, _, pathParts => pathParts
  | _ + 1, none, _, pathParts => pathParts
  | fuel + 1, some current, p, pathParts =>
    splitPathLoop fuel (strtok none ['/'] p).1 (strtok none ['/'] p).2
      (pathParts ++ [String.mk current])

/-- The function `splitPath` of `paths.cpp` in a call during which no other
thread calls `strtok`; `pathname` holds the characters of the C string before
its terminator.  The first call of `strtok` has the array as argument and
does not read the static, so the result does not depend on what the static
held before. -/
def splitPath (pathname : String) : List String :=
  let newPathName := pathname.data
  let pathParts : List String := if newPathName.head? = some '/' then ["/"] else []
  splitPathLoop (newPathName.length + 1)
    (strtok (some newPathName) ['/'] none).1 (strtok (some newPathName) ['/'] none).2 pathParts

/-- The maximal non-empty runs of characters other than `'/'` of a string, in
left-to-right order. -/
def runs (s : List Char) : List (List Char) :=
  (s.splitOn '/').filter (fun r => r ≠ [])

/-- The result the specification gives for `splitPath`: the marker `"/"` if
and only if the input begins with `'/'`, followed by the runs. -/
def splitPathSpec (pathname : String) : List String :=
  (if pathname.data.head? = some '/' then ["/"] else []) ++ (runs pathname.data).map String.mk

/-! ## `splitPath` called from several threads -/

namespace Concurrent

/-- An array `newPathName`: the one of the call number `call` that `thread`
makes of `splitPath`.  Its lifetime is that call. -/
structure ArrayId (n : Nat) where
  thread : Fin n
  call : Nat
  deriving DecidableEq

/-- The local state of a call of `splitPath`: its argument and the vector
`pathParts`. -/
structure Frame where
  pathname : String
  pathParts : List String
  deriving DecidableEq

/-- Where a thread is in `splitPath`; a position names the statement executed
next.  `outside` is a thread that is not in a call, with the argument and the
result of its last call; `push` holds the pointer `current` that `strtok`
returned, as the array it points into and the characters up to the
terminator. -/
inductive Pc (n : Nat) where
  | outside (last : Option Frame) : Pc n
  | first (f : Frame) : Pc n
  | push (f : Frame) (array : ArrayId n) (current : List Char) : Pc n
  | next (f : Frame) : Pc n
  | ret (f : Frame) : Pc n
  deriving DecidableEq

/-- The thread is in a call of `splitPath`. -/
def Pc.inCall {n : Nat} : Pc n → Bool
  | .outside _ => false
  | _ => true

/-- The thread is at a call of `strtok`. -/
def Pc.atStrtok {n : Nat} : Pc n → Bool
  | .first _ => true
  | .next _ => true
  | _ => false

/-- The state of `n` threads that call `splitPath`.  `saved` is the static
variable in which `strtok` keeps its position, one for all threads, as in
`strtok`; `savedIn` is the array that position points into, `none` while the
static is null; `calls` counts the calls each thread has made. -/
structure Threads (n : Nat) where
  saved : Option (List Char)
  savedIn : Option (ArrayId n)
  pcs : Fin n → Pc n
  calls : Fin n → Nat

/-- The state at program start. -/
def Threads.initial (n : Nat) : Threads n where
  saved := none
  savedIn := none
  pcs := fun _ => .outside none
  calls := fun _ => 0

/-- The array is that of a call in progress. -/
def Threads.live {n : Nat} (s : Threads n) (a : ArrayId n) : Bool :=
  (s.pcs a.thread).inCall && s.calls a.thread == a.call

/-- What a statement does: it leads to a state, or its behaviour is undefined
(it reads an array whose lifetime has ended), or it cannot be executed. -/
inductive Outcome (σ : Type) where
  | ok (s : σ) : Outcome σ
  | undefined : Outcome σ
  | disabled : Outcome σ

/-- The state reached, if any. -/
def Outcome.state? {σ : Type} : Outcome σ → Option σ
  | .ok s => some s
  | _ => none

/-- What can happen next: thread `t` calls `splitPath(pathname)`, or thread
`t` executes its next statement. -/
inductive Action (n : Nat) where
  | call (t : Fin n) (pathname : String) : Action n
  | step (t : Fin n) : Action n
  deriving DecidableEq

/-- The position after a call of `strtok` that returned `current`, a pointer
into `a` or null: the test of the `while` loop leads to `push_back` or to the
`return`. -/
def afterStrtok {n : Nat} (f : Frame) (a : ArrayId n) : Option (List Char) → Pc n
  | none => .ret f
  | some current => .push f a current

/-- One statement of `splitPath` (lines 135-154) executed by one of the
threads.  The call itself fills the thread's fresh array `newPathName` and
pushes the marker, which involves no other thread.  Each call of `strtok` is
one step, on the static shared by all threads: with the array as argument it
starts there, with `NULL` it goes on from the saved position, in whichever
array that is.  `push_back(current)` reads the token through `current`.
Reading an array after the call that owns it has returned is undefined. -/
def step {n : Nat} : Action n → Threads n → Outcome (Threads n)
  | .call t pathname, s =>
    match s.pcs t with
    | .outside _ =>
      .ok { s with
        pcs := Function.update s.pcs t
          (.first ⟨pathname, if pathname.data.head? = some '/' then ["/"] else []⟩),
        calls := Function.update s.calls t (s.calls t + 1) }
    | _ => .disabled
  | .step t, s =>
    match s.pcs t with
    | .outside _ => .disabled
    | .first f =>
      .ok { s with
        saved := (strtok (some f.pathname.data) ['/'] s.saved).2,
        savedIn := some ⟨t, s.calls t⟩,
        pcs := Function.update s.pcs t
          (afterStrtok f ⟨t, s.calls t⟩ (strtok (some f.pathname.data) ['/'] s.saved).1) }
    | .push f a current =>
      if s.live a then
        .ok { s with
          pcs := Function.update s.pcs t
            (.next { f with pathParts := f.pathParts ++ [String.mk current] }) }
      else .undefined
    | .next f =>
      match s.savedIn with
      | none => .undefined
      | some a =>
        if s.live a then
          .ok { s with
            saved := (strtok none ['/'] s.saved).2,
            pcs := Function.update s.pcs t (afterStrtok f a (strtok none ['/'] s.saved).1) }
        else .undefined
    | .ret f => .ok { s with pcs := Function.update s.pcs t (.outside (some f)) }

/-- Execute a schedule, one action after the other. -/
def run {n : Nat} : List (Action n) → Threads n → Outcome (Threads n)
  | [], s => .ok s
  | a :: as, s =>
    match step a s with
    | .ok s' => run as s'
    | .undefined => .undefined
    | .disabled => .disabled

/-- During the schedule thread `t` makes no further call, and no other thread
calls `strtok`. -/
def undisturbed {n : Nat} (t : Fin n) : List (Action n) → Threads n → Bool
  | [], _ => true
  | a :: as, s =>
    (match a with
     | .call u _ => decide (u ≠ t)
     | .step u => decide (u = t) || !(s.pcs u).atStrtok) &&
    (match step a s with
     | .ok s' => undisturbed t as s'
     | _ => true)

/-- Thread `t` is in, or has just left, a call of `splitPath(p)` that goes as
in a single thread: the static points into the array of the call wherever the
call reads it, and what is in the vector, with the runs of what is left of
the array, makes up the result the specification gives. -/
def OnTrack {n : Nat} (s : Threads n) (t : Fin n) (p : String) : Prop :=
  match s.pcs t with
  | .outside r => r = some ⟨p, splitPathSpec p⟩
  | .first f => f.pathname = p ∧ f.pathParts ++ (runs p.data).map String.mk = splitPathSpec p
  | .push f a current =>
    f.pathname = p ∧ a = ⟨t, s.calls t⟩ ∧ s.savedIn = some ⟨t, s.calls t⟩ ∧
      f.pathParts ++ String.mk current :: (runs (s.saved.getD [])).map String.mk =
        splitPathSpec p
  | .next f =>
    f.pathname = p ∧ s.savedIn = some ⟨t, s.calls t⟩ ∧
      f.pathParts ++ (runs (s.saved.getD [])).map String.mk = splitPathSpec p
  | .ret f => f.pathname = p ∧ f.pathParts = splitPathSpec p

/-- Two threads call `splitPath("a/b")` and `splitPath("c/d")`; the second
calls `strtok` between the first two calls of `strtok` of the first, which
then goes on in the array of the second. -/
def sampleInterleaved : List (Action 2) :=
  [.call 0 "a/b", .call 1 "c/d", .step 0, .step 1, .step 0, .step 0, .step 0, .step 0, .step 0,
    .step 1, .step 1, .step 1]

/-- A bound on the number of statements thread `t` still has to execute in
its call when no other thread calls `strtok`. -/
def remaining {n : Nat} (s : Threads n) (t : Fin n) : Nat :=
  match s.pcs t with
  | .outside _ => 0
  | .ret _ => 1
  | .next _ => 2 * (s.saved.getD []).length + 2
  | .push _ _ _ => 2 * (s.saved.getD []).length + 3
  | .first f => 2 * f.pathname.data.length + 2

end Concurrent

/-! ## The bridge `SyncToAsync` (`thread_utils.h`) as a step relation -/

namespace SyncToAsync

/-- A unit of work handed to `invoke`.  The `ticket` is a ghost number that
identifies the call of `invoke` that posts it; `poison` tells the work posted
by the destructor (`quit = true; (*func)();`) from the caller's work. -/
structure Work where
  ticket : Nat
  poison : Bool
  deriving DecidableEq, Repr

/-- Who holds `mutex`: the `unique_lock lock` of the call of `invoke` made by
caller `i`, or the worker's `childLock`. -/
inductive Owner (n : Nat) where
  | caller (i : Fin n) : Owner n
  | child : Owner n
  deriving DecidableEq

/-- Where a calling thread is in `invoke` (and, for the thread that destroys
the instance, in `~SyncToAsync`).  A position names the statement executed
next. -/
inductive CallerPc where
  | idle : CallerPc
  | lockInvoke (w : Work) : CallerPc
  | lockMutex (w : Work) : CallerPc
  | setWork (w : Work) : CallerPc
  | setFinished (w : Work) : CallerPc
  | setReady (w : Work) : CallerPc
  | notify (w : Work) : CallerPc
  | waitCheck (w : Work) : CallerPc
  | waiting (w : Work) : CallerPc
  | unlockMutex (w : Work) : CallerPc
  | unlockInvoke (w : Work) : CallerPc
  | returned (w : Work) : CallerPc
  | destroyed : CallerPc
  deriving DecidableEq, Repr

/-- Where the worker is in `threadIter` and in the resume callback.  A
position names the statement executed next. -/
inductive WorkerPc where
  | iterStart : WorkerPc
  | lock : WorkerPc
  | waitCheck : WorkerPc
  | waiting : WorkerPc
  | copyWork : WorkerPc
  | clearReady (w : Work) : WorkerPc
  | makeResume (w : Work) : WorkerPc
  | callWork (w : Work) : WorkerPc
  | running (w : Work) : WorkerPc
  | resumeSetFinished (w : Work) : WorkerPc
  | resumeUnlock (w : Work) : WorkerPc
  | resumeNotify (w : Work) : WorkerPc
  | resumeRearm (w : Work) : WorkerPc
  | exited : WorkerPc
  deriving DecidableEq, Repr

/-- The state of one `SyncToAsync` instance shared by `n` calling threads.
The fields up to `quit` are the members of the class; `nextTicket`, `resumed`,
`picked` and `destroying` are ghost state. -/
structure Bridge (n : Nat) where
  mutex : Option (Owner n)
  invokeMutex : Option (Fin n)
  work : Option Work
  readyToWork : Bool
  finishedWork : Bool
  quit : Bool
  worker : WorkerPc
  callers : Fin n → CallerPc
  nextTicket : Nat
  resumed : List Nat
  picked : List Nat
  destroying : Bool

/-- The instance after its constructor: `mutex` has been taken and released
by `childLock`, the worker has been created and will run `threadIter`;
`finishedWork` has no initializer, so its value `f` is arbitrary. -/
def Bridge.initial (n : Nat) (f : Bool) : Bridge n where
  mutex := none
  invokeMutex := none
  work := none
  readyToWork := false
  finishedWork := f
  quit := false
  worker := .iterStart
  callers := fun _ => .idle
  nextTicket := 0
  resumed := []
  picked := []
  destroying := false

/-- Move caller `i` to position `pc`. -/
def Bridge.setCaller {n : Nat} (s : Bridge n) (i : Fin n) (pc : CallerPc) : Bridge n :=
  { s with callers := Function.update s.callers i pc }

/-- What can happen next: caller `i` calls `invoke` (with the poison pill when
it runs the destructor), caller `i` executes its next statement, or the worker
executes its next statement. -/
inductive Action (n : Nat) where
  | enter (i : Fin n) (poison : Bool) : Action n
  | caller (i : Fin n) : Action n
  | worker : Action n
  deriving DecidableEq

/-- Caller `i` calls `invoke(newWork)`, or `~SyncToAsync` when `poison` is
set.  By contract the instance is destroyed only when no call of `invoke` is
outstanding, and is not used afterwards. -/
def enter {n : Nat} (i : Fin n) (poison : Bool) (s : Bridge n) : Option (Bridge n) :=
  if s.callers i = .idle ∧ s.destroying = false ∧
      (poison = true → ∀ j, s.callers j = .idle) then
    some { s with
      callers := Function.update s.callers i (.lockInvoke ⟨s.nextTicket, poison⟩),
      nextTicket := s.nextTicket + 1, destroying := poison }
  else none

/-- The next statement of caller `i` in `invoke` (lines 143-156) and in the
destructor (line 136); `none` when the caller is blocked or has nothing to
execute.  A thread blocked in `condition.wait` may wake at any time (wake-ups
may be spurious) and then needs `mutex`. -/
def callerStep {n : Nat} (i : Fin n) (s : Bridge n) : Option (Bridge n) :=
  match s.callers i with
  | .idle => none
  | .lockInvoke w =>
    if s.invokeMutex = none then
      some { s with callers := Function.update s.callers i (.lockMutex w),
                    invokeMutex := some i }
    else none
  | .lockMutex w =>
    if s.mutex = none then
      some { s with callers := Function.update s.callers i (.setWork w),
                    mutex := some (.caller i) }
    else none
  | .setWork w =>
    some { s with callers := Function.update s.callers i (.setFinished w), work := some w }
  | .setFinished w =>
    some { s with callers := Function.update s.callers i (.setReady w),
                  finishedWork := false }
  | .setReady w =>
    some { s with callers := Function.update s.callers i (.notify w), readyToWork := true }
  | .notify w => some (s.setCaller i (.waitCheck w))
  | .waitCheck w =>
    if s.finishedWork then some (s.setCaller i (.unlockMutex w))
    else some { s with callers := Function.update s.callers i (.waiting w), mutex := none }
  | .waiting w =>
    if s.mutex = none then
      some { s with callers := Function.update s.callers i (.waitCheck w),
                    mutex := some (.caller i) }
    else none
  | .unlockMutex w =>
    some { s with callers := Function.update s.callers i (.unlockInvoke w), mutex := none }
  | .unlockInvoke w =>
    some { s with callers := Function.update s.callers i (.returned w),
                  invokeMutex := none }
  | .returned w =>
    if w.poison then
      if s.worker = .exited then some (s.setCaller i .destroyed) else none
    else some (s.setCaller i .idle)
  | .destroyed => none

/-- The next statement of the worker in `threadIter` (lines 88-116) and in the
resume callback (lines 101-112); `none` when the worker is blocked or has
exited.  From `running w` the step is the call of the resume callback by the
work function, which the poison pill precedes with `quit = true`; a work
function that never calls it leaves the worker at `running w`. -/
def workerStep {n : Nat} (s : Bridge n) : Option (Bridge n) :=
  match s.worker with
  | .iterStart =>
    if s.quit then some { s with worker := .exited } else some { s with worker := .lock }
  | .lock =>
    if s.mutex = none then some { s with mutex := some .child, worker := .waitCheck } else none
  | .waitCheck =>
    if s.readyToWork then some { s with worker := .copyWork }
    else some { s with mutex := none, worker := .waiting }
  | .waiting =>
    if s.mutex = none then some { s with mutex := some .child, worker := .waitCheck } else none
  | .copyWork =>
    match s.work with
    | some w => some { s with worker := .clearReady w, picked := w.ticket :: s.picked }
    | none => none
  | .clearReady w => some { s with readyToWork := false, worker := .makeResume w }
  | .makeResume w => some { s with worker := .callWork w }
  | .callWork w => some { s with worker := .running w }
  | .running w => some { s with quit := s.quit || w.poison, worker := .resumeSetFinished w }
  | .resumeSetFinished w =>
    some { s with finishedWork := true, resumed := w.ticket :: s.resumed,
                  worker := .resumeUnlock w }
  | .resumeUnlock w => some { s with mutex := none, worker := .resumeNotify w }
  | .resumeNotify w => some { s with worker := .resumeRearm w }
  | .resumeRearm _ => some { s with worker := .iterStart }
  | .exited => none

/-- One step of the bridge. -/
def step {n : Nat} (a : Action n) (s : Bridge n) : Option (Bridge n) :=
  match a with
  | .enter i poison => enter i poison s
  | .caller i => callerStep i s
  | .worker => workerStep s

/-- The states the bridge can reach from its construction. -/
inductive Reachable {n : Nat} : Bridge n → Prop where
  | init (f : Bool) : Reachable (Bridge.initial n f)
  | step {s s' : Bridge n} (a : Action n) : Reachable s → step a s = some s' → Reachable s'

/-- The statement that the actor of `a` executes next writes one of the fields
`work`, `readyToWork`, `finishedWork`, `quit`. -/
def writesShared {n : Nat} (a : Action n) (s : Bridge n) : Bool :=
  match a with
  | .enter _ _ => false
  | .caller i =>
    match s.callers i with
    | .setWork _ | .setFinished _ | .setReady _ => true
    | _ => false
  | .worker =>
    match s.worker with
    | .clearReady _ | .resumeSetFinished _ => true
    | .running w => w.poison
    | _ => false

/-- The holder of `mutex` that the actor of `a` locks with. -/
def Action.owner {n : Nat} : Action n → Owner n
  | .enter i _ => .caller i
  | .caller i => .caller i
  | .worker => .child


/-- The work a caller is posting or waiting for. -/
def CallerPc.work? : CallerPc → Option Work
  | .idle => none
  | .lockInvoke w => some w
  | .lockMutex w => some w
  | .setWork w => some w
  | .setFinished w => some w
  | .setReady w => some w
  | .notify w => some w
  | .waitCheck w => some w
  | .waiting w => some w
  | .unlockMutex w => some w
  | .unlockInvoke w => some w
  | .returned w => some w
  | .destroyed => none

/-- The positions of `invoke` at which the caller holds `invokeMutex`. -/
def CallerPc.holdsInvoke : CallerPc → Bool
  | .lockMutex _ => true
  | .setWork _ => true
  | .setFinished _ => true
  | .setReady _ => true
  | .notify _ => true
  | .waitCheck _ => true
  | .waiting _ => true
  | .unlockMutex _ => true
  | .unlockInvoke _ => true
  | _ => false

/-- The positions of `invoke` at which the caller holds `mutex`. -/
def CallerPc.holdsMutex : CallerPc → Bool
  | .setWork _ => true
  | .setFinished _ => true
  | .setReady _ => true
  | .notify _ => true
  | .waitCheck _ => true
  | .unlockMutex _ => true
  | _ => false

/-- The positions at which the worker holds `mutex` through `childLock`. -/
def WorkerPc.holdsMutex : WorkerPc → Bool
  | .waitCheck => true
  | .copyWork => true
  | .clearReady _ => true
  | .makeResume _ => true
  | .callWork _ => true
  | .running _ => true
  | .resumeSetFinished _ => true
  | .resumeUnlock _ => true
  | _ => false

/-- The positions at which the worker is between two units of work: it has
released `mutex` in the resume callback of the last one, or has not started,
and has not yet seen the next one posted. -/
def WorkerPc.betweenWork : WorkerPc → Bool
  | .iterStart => true
  | .lock => true
  | .waitCheck => true
  | .waiting => true
  | .resumeNotify _ => true
  | .resumeRearm _ => true
  | .exited => true
  | _ => false

/-- The work `w` has neither been picked up by the worker nor resumed. -/
def Fresh {n : Nat} (s : Bridge n) (w : Work) : Prop :=
  w.ticket ∉ s.resumed ∧ w.ticket ∉ s.picked

/-- No work is posted and the worker is between two units of work. -/
def Quiet {n : Nat} (s : Bridge n) : Prop :=
  s.readyToWork = false ∧ s.worker.betweenWork = true

/-- The work `w` is posted and the worker has not picked it up yet. -/
def Posted {n : Nat} (s : Bridge n) (w : Work) : Prop :=
  s.work = some w ∧ s.readyToWork = true ∧ s.finishedWork = false ∧ Fresh s w ∧
    (s.worker.betweenWork = true ∨ s.worker = .copyWork)

/-- The worker has picked up `w` and its resume callback has not yet set
`finishedWork`. -/
def Picked {n : Nat} (s : Bridge n) (w : Work) : Prop :=
  s.finishedWork = false ∧ w.ticket ∉ s.resumed ∧ w.ticket ∈ s.picked ∧
    ((s.worker = .clearReady w ∧ s.readyToWork = true) ∨
      (s.readyToWork = false ∧
        (s.worker = .makeResume w ∨ s.worker = .callWork w ∨ s.worker = .running w ∨
          s.worker = .resumeSetFinished w)))

/-- The resume callback of `w` has set `finishedWork`. -/
def Done {n : Nat} (s : Bridge n) (w : Work) : Prop :=
  s.finishedWork = true ∧ s.readyToWork = false ∧ w.ticket ∈ s.resumed ∧
    (s.worker = .resumeUnlock w ∨ s.worker.betweenWork = true)

/-- What holds of the shared state when a caller is at a given position. -/
def callerOk {n : Nat} (s : Bridge n) : CallerPc → Prop
  | .idle => True
  | .lockInvoke w => Fresh s w
  | .lockMutex w => Fresh s w ∧ Quiet s
  | .setWork w => Fresh s w ∧ Quiet s
  | .setFinished w => Fresh s w ∧ Quiet s ∧ s.work = some w
  | .setReady w => Fresh s w ∧ Quiet s ∧ s.work = some w ∧ s.finishedWork = false
  | .notify w => Posted s w
  | .waitCheck w => Posted s w ∨ Done s w
  | .waiting w => Posted s w ∨ Picked s w ∨ Done s w
  | .unlockMutex w => w.ticket ∈ s.resumed ∧ Quiet s
  | .unlockInvoke w => w.ticket ∈ s.resumed ∧ Quiet s
  | .returned w => w.ticket ∈ s.resumed
  | .destroyed => True

/-- The invariant of the bridge. -/
structure Inv {n : Nat} (s : Bridge n) : Prop where
  invk : ∀ i, (s.callers i).holdsInvoke = true ↔ s.invokeMutex = some i
  mtxC : ∀ i, (s.callers i).holdsMutex = true ↔ s.mutex = some (.caller i)
  mtxW : s.worker.holdsMutex = true ↔ s.mutex = some .child
  quiet : s.invokeMutex = none → Quiet s
  ok : ∀ i, callerOk s (s.callers i)
  uniq : ∀ i j w w', (s.callers i).work? = some w → (s.callers j).work? = some w' →
    w.ticket = w'.ticket → i = j
  tick : ∀ i w, (s.callers i).work? = some w → w.ticket < s.nextTicket
  resumedLt : ∀ t ∈ s.resumed, t < s.nextTicket
  pickedLt : ∀ t ∈ s.picked, t < s.nextTicket
  nodup : s.picked.Nodup


/-- The caller runs the destructor: it is posting or waiting for the poison
pill, or has joined the worker. -/
def CallerPc.poisoned : CallerPc → Bool
  | .idle => false
  | .lockInvoke w => w.poison
  | .lockMutex w => w.poison
  | .setWork w => w.poison
  | .setFinished w => w.poison
  | .setReady w => w.poison
  | .notify w => w.poison
  | .waitCheck w => w.poison
  | .waiting w => w.poison
  | .unlockMutex w => w.poison
  | .unlockInvoke w => w.poison
  | .returned w => w.poison
  | .destroyed => true

/-- The caller is not about to post work: it is outside `invoke` or has
posted its work already. -/
def CallerPc.pastPosting : CallerPc → Bool
  | .idle => true
  | .waitCheck _ => true
  | .waiting _ => true
  | .unlockMutex _ => true
  | .unlockInvoke _ => true
  | .returned _ => true
  | .destroyed => true
  | _ => false

/-- The positions the worker can be at once `quit` is set: the rest of the
resume callback of the poison pill, the start of `threadIter`, and the
exit. -/
def WorkerPc.afterQuit : WorkerPc → Bool
  | .resumeSetFinished _ => true
  | .resumeUnlock _ => true
  | .resumeNotify _ => true
  | .resumeRearm _ => true
  | .iterStart => true
  | .exited => true
  | _ => false

/-- The invariant of the bridge that concerns its destruction. -/
structure DInv {n : Nat} (s : Bridge n) : Prop where
  dstr : ∀ i, (s.callers i).poisoned = true →
    s.destroying = true ∧ ∀ j, j ≠ i → s.callers j = .idle
  joined : ∀ i, s.callers i = .destroyed → s.worker = .exited
  q : s.quit = true → s.destroying = true ∧ s.readyToWork = false ∧
    s.worker.afterQuit = true ∧ ∀ i, (s.callers i).pastPosting = true
  exitedQ : s.worker = .exited → s.quit = true

/-- The states of the bridge's state machine in the specification. -/
inductive Phase where
  | idle : Phase
  | workPosted : Phase
  | executing : Phase
  | resuming : Phase
  | quit : Phase
  deriving DecidableEq, Repr

/-- The state of the specification's state machine that a state of the
bridge is in: `Quit` once the worker has exited, `Executing` from the moment
the worker has seen the posted work until the work function calls the resume
callback, `Resuming` inside the resume callback, and otherwise `WorkPosted`
or `Idle` according to `readyToWork`. -/
def phase {n : Nat} (s : Bridge n) : Phase :=
  match s.worker with
  | .exited => .quit
  | .copyWork => .executing
  | .clearReady _ => .executing
  | .makeResume _ => .executing
  | .callWork _ => .executing
  | .running _ => .executing
  | .resumeSetFinished _ => .resuming
  | .resumeUnlock _ => .resuming
  | .resumeNotify _ => .resuming
  | .resumeRearm _ => .resuming
  | _ => if s.readyToWork then .workPosted else .idle

/-- Run a list of actions, stopping at the first one that cannot be taken. -/
def execute {n : Nat} : List (Action n) → Bridge n → Bridge n
  | [], s => s
  | a :: as, s =>
    match step a s with
    | some s' => execute as s'
    | none => s


/-- A run of one instance shared by two callers in which caller `0` calls
`invoke` and the call returns: the caller posts its work and blocks, the
worker picks the work up and the work function calls the resume callback, and
the caller wakes and leaves `invoke`. -/
def sampleInvoke : List (Action 2) :=
  .enter 0 false :: List.replicate 7 (.caller 0) ++ List.replicate 10 .worker ++
    List.replicate 4 (.caller 0)

/-- A run in which caller `0` destroys a fresh instance: the poison pill is
posted and run, the destructor's `invoke` returns, the worker exits and the
destructor joins it. -/
def sampleDestroy : List (Action 2) :=
  .enter 0 true :: List.replicate 7 (.caller 0) ++ List.replicate 10 .worker ++
    List.replicate 4 (.caller 0) ++ List.replicate 3 .worker ++ [.caller 0]

/-- The worker is busy with the work `w`: it has picked it up and has not yet
executed the first statement of its resume callback. -/
def WorkerPc.busyWith (pc : WorkerPc) (w : Work) : Prop :=
  pc = .clearReady w ∨ pc = .makeResume w ∨ pc = .callWork w ∨ pc = .running w ∨
    pc = .resumeSetFinished w

/-- The invariant of the bridge that links the resume of the poison pill to
`quit`. -/
structure QInv {n : Nat} (s : Bridge n) : Prop where
  busyQ : ∀ w, s.worker = .resumeSetFinished w → w.poison = true → s.quit = true
  resumedQ : ∀ i w, (s.callers i).work? = some w → w.poison = true →
    w.ticket ∈ s.resumed → s.quit = true

/-- The invariant of the bridge on the units of work picked up: a unit is
resumed only after it was picked up, and the only unit picked up and not yet
resumed is the one the worker is busy with. -/
structure PInv {n : Nat} (s : Bridge n) : Prop where
  sub : ∀ t ∈ s.resumed, t ∈ s.picked
  out : ∀ t ∈ s.picked, t ∉ s.resumed → ∃ w, w.ticket = t ∧ s.worker.busyWith w

/-- The positions of the resume callback before its `condition.notify_one()`
has been executed. -/
def WorkerPc.beforeNotify : WorkerPc → Bool
  | .resumeSetFinished _ => true
  | .resumeUnlock _ => true
  | .resumeNotify _ => true
  | _ => false

/-- The caller that waits for `w` has been notified since it blocked: the
resume callback of `w` has set `finishedWork` (the caller blocks only while
`finishedWork` is clear, so before that) and has gone on past its
`condition.notify_one()`, which wakes one of the threads blocked on
`condition`. -/
def callerNotified {n : Nat} (s : Bridge n) (w : Work) : Prop :=
  w.ticket ∈ s.resumed ∧ s.worker.beforeNotify = false

/-- The worker has been notified since it blocked: work is posted (the worker
blocks only while `readyToWork` is clear, so before that) and the caller that
posted it has gone on past its `condition.notify_one()`, which wakes one of
the threads blocked on `condition`. -/
def workerNotified {n : Nat} (s : Bridge n) : Prop :=
  s.readyToWork = true ∧ ∀ i w, s.callers i ≠ .notify w

/-- A move of the threads already at work: a caller or the worker executes
its next statement, no caller enters `invoke` or the destructor, and no
wake-up is spurious, that is, a thread blocked in `condition.wait` wakes only
after it has been notified. -/
def Moves {n : Nat} (s s' : Bridge n) : Prop :=
  (∃ i, callerStep i s = some s' ∧ ∀ w, s.callers i = .waiting w → callerNotified s w) ∨
    (workerStep s = some s' ∧ (s.worker = .waiting → workerNotified s))

/-- The state `s'` can be reached from `s` by moves of the threads already at
work. -/
inductive Reaches {n : Nat} : Bridge n → Bridge n → Prop where
  | refl (s : Bridge n) : Reaches s s
  | step {s s' s'' : Bridge n} : Moves s s' → Reaches s' s'' → Reaches s s''

/-- A run of the threads already at work under some scheduler: at every
instant one of them moves, and the state stays as it is only when none
can. -/
def Run {n : Nat} (r : Nat → Bridge n) : Prop :=
  ∀ k, Moves (r k) (r (k + 1)) ∨ (r (k + 1) = r k ∧ ∀ s', ¬ Moves (r k) s')

/-- No call of `invoke` or of the destructor is in progress. -/
def Final {n : Nat} (s : Bridge n) : Prop :=
  ∀ i, s.callers i = .idle ∨ s.callers i = .destroyed

/-- A bound on the number of statements a caller still has to execute, and
on what posting its work adds to the statements of the worker; `f` is the
value of `finishedWork`, which decides whether a caller at the test of
`condition.wait` blocks or goes on. -/
def callerWeight (f : Bool) : CallerPc → Nat
  | .idle => 0
  | .destroyed => 0
  | .returned _ => 1
  | .unlockInvoke _ => 2
  | .unlockMutex _ => 3
  | .waitCheck _ => if f then 4 else 6
  | .waiting _ => 5
  | .notify _ => 7
  | .setReady _ => 30
  | .setFinished _ => 31
  | .setWork _ => 32
  | .lockMutex _ => 33
  | .lockInvoke _ => 34

/-- A bound on the number of statements the worker still has to execute
unless more work is posted: up to the exit once `quit` is set, up to the
`condition.notify_one()` of the resume callback and from there into
`condition.wait` while nothing is posted, and through the posted work
otherwise. -/
def workerWeight {n : Nat} (s : Bridge n) : Nat :=
  match s.worker with
  | .exited => 0
  | .resumeUnlock _ => 6
  | .resumeSetFinished _ => 7
  | .running _ => 8
  | .callWork _ => 9
  | .makeResume _ => 10
  | .clearReady _ => 11
  | .copyWork => 12
  | .resumeNotify _ => if s.quit then 3 else if s.readyToWork then 17 else 5
  | .resumeRearm _ => if s.quit then 2 else if s.readyToWork then 16 else 4
  | .iterStart => if s.quit then 1 else if s.readyToWork then 15 else 3
  | .lock => if s.readyToWork then 14 else 2
  | .waiting => if s.readyToWork then 14 else 0
  | .waitCheck => if s.readyToWork then 13 else 1

/-- A bound on the number of moves the threads at work can make. -/
def potential {n : Nat} (s : Bridge n) : Nat :=
  (∑ j, callerWeight s.finishedWork (s.callers j)) + workerWeight s

/-- Some thread at work can move, and the move lowers the potential. -/
def Advances {n : Nat} (s : Bridge n) : Prop :=
  ∃ s', Moves s s' ∧ potential s' < potential s

/-- A run of one instance shared by two callers that both call `invoke`:
caller `0` takes `invokeMutex`, posts its work and blocks, caller `1` waits
for `invokeMutex`, and the worker has picked up the work of caller `0` and is
running its work function. -/
def sampleTwoCalls : List (Action 2) :=
  .enter 0 false :: .enter 1 false :: List.replicate 7 (.caller 0) ++
    List.replicate 7 .worker

end SyncToAsync

/-! ## Basic facts about the state and the file model -/

@[simp] theorem CallState.record_nil (st : CallState) : st.record [] = st := by
  simp [CallState.record]

@[simp] theorem CallState.record_record (st : CallState) (a b : List Event) :
    (st.record a).record b = st.record (a ++ b) := by
  simp [CallState.record]

@[simp] theorem CallState.record_err (st : CallState) (a : List Event) :
    (st.record a).err = st.err := rfl

@[simp] theorem CallState.record_events (st : CallState) (a : List Event) :
    (st.record a).events = st.events ++ a := rfl

@[simp] theorem CallState.setErr_err (st : CallState) (c : Int) : (st.setErr c).err = c := rfl

@[simp] theorem CallState.setErr_events (st : CallState) (c : Int) :
    (st.setErr c).events = st.events := rfl

theorem dynCastDirectory_of_isDirectory {fs : WasmFS} {h : Handle}
    (hd : (fs.files h).isDirectory = true) : dynCastDirectory fs h = some h := by
  simp [dynCastDirectory, hd]

theorem dynCastDirectory_of_not_isDirectory {fs : WasmFS} {h : Handle}
    (hd : (fs.files h).isDirectory = false) : dynCastDirectory fs h = none := by
  simp [dynCastDirectory, hd]

theorem startDirectory_isDirectory (fs : WasmFS) (pathParts : List String) :
    (fs.files (startDirectory fs pathParts)).isDirectory = true := by
  unfold startDirectory
  split
  · exact fs.root_isDirectory
  · exact fs.cwd_isDirectory

theorem descend_isDirectory (fs : WasmFS) :
    ∀ (segs : List String) (d d' : Handle), (fs.files d).isDirectory = true →
      descend fs d segs = some d' → (fs.files d').isDirectory = true := by
  intro segs
  induction segs with
  | nil =>
    intro d d' hd h
    simp only [descend, Option.some.injEq] at h
    subst h
    exact hd
  | cons s segs ih =>
    intro d d' _ h
    simp only [descend] at h
    cases he : getEntry fs d s with
    | none => simp [he] at h
    | some file =>
      simp only [he] at h
      by_cases hf : (fs.files file).isDirectory = true
      · simp only [hf, if_true] at h
        exact ih file d' hf h
      · simp [hf] at h

theorem lookedUp_append (a b : List Event) : lookedUp (a ++ b) = lookedUp a ++ lookedUp b := by
  induction a with
  | nil => rfl
  | cons e a ih => cases e <;> simp [lookedUp, ih]

theorem lookedUp_walkEvents (fs : WasmFS) :
    ∀ (segs : List String) (d d' : Handle), descend fs d segs = some d' →
      lookedUp (walkEvents fs d segs) = segs := by
  intro segs
  induction segs with
  | nil => intro d d' _; rfl
  | cons s segs ih =>
    intro d d' h
    simp only [descend] at h
    cases he : getEntry fs d s with
    | none => simp [he] at h
    | some file =>
      simp only [he] at h
      by_cases hf : (fs.files file).isDirectory = true
      · simp only [hf, if_true] at h
        simp [walkEvents, he, hf, lookedUp_append, lockedLookup, lookedUp, ih file d' h]
      · simp [hf] at h

/-! ## The loop of `getParsedPath` -/

/-- One iteration of the loop that descends into a Directory entry. -/
theorem getParsedPathLoop_step (E : Errno) (fs : WasmFS) (forb : Option Handle)
    (curr file : Handle) (name next : String) (rest : List String) (st : CallState)
    (he : getEntry fs curr name = some file) (hd : (fs.files file).isDirectory = true)
    (hf : forb ≠ some file) :
    getParsedPathLoop E fs forb curr name (next :: rest) st =
      getParsedPathLoop E fs forb file next rest (st.record (lockedLookup curr name)) := by
  have hne : ¬ (forb ≠ none ∧ some file = forb) := fun h => hf h.2.symm
  simp only [getParsedPathLoop, he, hne, if_false, dynCastDirectory_of_isDirectory hd]

/-- The loop follows a run of segments that name Directories, none of them the
forbidden ancestor, down to the directory they reach. -/
theorem getParsedPathLoop_descend (E : Errno) (fs : WasmFS) (forb : Option Handle) :
    ∀ (pre : List String) (d d' : Handle) (x : String) (xs : List String)
      (p : String) (r : List String) (st : CallState),
      p :: r = pre ++ x :: xs → descend fs d pre = some d' →
      (∀ f, forb = some f → f ∉ chain fs d pre) →
      getParsedPathLoop E fs forb d p r st =
        getParsedPathLoop E fs forb d' x xs (st.record (walkEvents fs d pre)) := by
  intro pre
  induction pre with
  | nil =>
    intro d d' x xs p r st hpr hdesc _
    simp only [List.nil_append, List.cons.injEq] at hpr
    simp only [descend, Option.some.injEq] at hdesc
    obtain ⟨rfl, rfl⟩ := hpr
    subst hdesc
    simp [walkEvents]
  | cons s pre ih =>
    intro d d' x xs p r st hpr hdesc hclean
    simp only [List.cons_append, List.cons.injEq] at hpr
    obtain ⟨rfl, rfl⟩ := hpr
    simp only [descend] at hdesc
    cases he : getEntry fs d p with
    | none => simp [he] at hdesc
    | some file =>
      simp only [he] at hdesc
      by_cases hf : (fs.files file).isDirectory = true
      · simp only [hf, if_true] at hdesc
        have hnf : forb ≠ some file := by
          intro hforb
          exact hclean file hforb (by simp [chain, he])
        have hclean' : ∀ f, forb = some f → f ∉ chain fs file pre := by
          intro f hforb hmem
          exact hclean f hforb (by simp [chain, he, hf, hmem])
        obtain ⟨n, r', hr⟩ : ∃ n r', n :: r' = pre ++ x :: xs := by
          cases pre with
          | nil => exact ⟨x, xs, rfl⟩
          | cons a pre => exact ⟨a, pre ++ x :: xs, rfl⟩
        rw [← hr, getParsedPathLoop_step E fs forb d file p n r' st he hf hnf,
          ih file d' x xs n r' _ hr hdesc hclean']
        simp [walkEvents, he, hf]
      · simp [hf] at hdesc

/-- How `getParsedPath` enters its loop when there is a segment to look up. -/
theorem getParsedPath_eq_loop (E : Errno) (fs : WasmFS) (pathParts : List String)
    (st : CallState) (forb : Option Handle) (x : String) (xs : List String)
    (h : segments pathParts = x :: xs) :
    getParsedPath E fs pathParts st forb =
      getParsedPathLoop E fs forb (startDirectory fs pathParts) x xs st := by
  cases pathParts with
  | nil => simp [segments] at h
  | cons first rest =>
    by_cases hm : first = "/"
    · subst hm
      simp only [segments, List.head?_cons, if_true, List.tail_cons] at h
      subst h
      simp [getParsedPath, startDirectory]
    · simp only [segments, List.head?_cons, Option.some.injEq, hm, if_false,
        List.cons.injEq] at h
      obtain ⟨rfl, rfl⟩ := h
      simp [getParsedPath, startDirectory, hm]

/-- A segment whose entry is the forbidden ancestor stops the loop with
`EINVAL` when it is not the last one, whatever follows it. -/
theorem getParsedPathLoop_forbidden (E : Errno) (fs : WasmFS) (f : Handle) :
    ∀ (pre : List String) (d d' : Handle) (s : String) (post : List String)
      (p : String) (r : List String) (st : CallState),
      p :: r = pre ++ s :: post → post ≠ [] → descend fs d pre = some d' →
      getEntry fs d' s = some f →
      (getParsedPathLoop E fs (some f) d p r st).1 = ⟨none, none⟩ ∧
        (getParsedPathLoop E fs (some f) d p r st).2.err = -E.EINVAL := by
  intro pre
  induction pre with
  | nil =>
    intro d d' s post p r st hpr hpost hdesc he
    simp only [List.nil_append, List.cons.injEq] at hpr
    simp only [descend, Option.some.injEq] at hdesc
    obtain ⟨rfl, rfl⟩ := hpr
    subst hdesc
    cases r with
    | nil => exact absurd rfl hpost
    | cons n r => simp [getParsedPathLoop, he]
  | cons a pre ih =>
    intro d d' s post p r st hpr hpost hdesc he
    simp only [List.cons_append, List.cons.injEq] at hpr
    obtain ⟨rfl, rfl⟩ := hpr
    simp only [descend] at hdesc
    cases hent : getEntry fs d p with
    | none => simp [hent] at hdesc
    | some file =>
      simp only [hent] at hdesc
      by_cases hf : (fs.files file).isDirectory = true
      · simp only [hf, if_true] at hdesc
        obtain ⟨n, r', hr⟩ : ∃ n r', n :: r' = pre ++ s :: post := by
          cases pre with
          | nil => exact ⟨s, post, rfl⟩
          | cons b pre => exact ⟨b, pre ++ s :: post, rfl⟩
        rw [← hr]
        by_cases hff : file = f
        · subst hff
          simp [getParsedPathLoop, hent]
        · have hne : some f ≠ some file := fun h => hff (Option.some.inj h).symm
          rw [getParsedPathLoop_step E fs (some f) d file p n r' st hent hf hne]
          exact ih file d' s post n r' _ hr hpost hdesc he
      · simp [hf] at hdesc

/-! ## Properties of `getParsedPath` -/

/-- C1: for an absolute segment list `"/" :: s1 .. sn` (`n ≥ 1`) resolved
without a forbidden ancestor, if `s1 .. s(n-1)` successively name Directories
from the root, reaching `d` (the root when `n = 1`), then `getParsedPath`
succeeds: the parent lock is over `d`, the child is the entry of `d` named
`sn`, absent when `d` has none, and `err` is left as it was. -/
theorem getParsedPath_absolute_resolves (E : Errno) (fs : WasmFS) (segs : List String)
    (last : String) (d : Handle) (st : CallState)
    (h : descend fs fs.rootDirectory segs = some d) :
    getParsedPath E fs ("/" :: (segs ++ [last])) st none =
      (⟨some d, getEntry fs d last⟩,
        st.record (walkEvents fs fs.rootDirectory segs ++ [.acquire d, .getEntry d last])) := by
  obtain ⟨n, r, hr⟩ : ∃ n r, n :: r = segs ++ [last] := by
    cases segs with
    | nil => exact ⟨last, [], rfl⟩
    | cons a segs => exact ⟨a, segs ++ [last], rfl⟩
  have hseg : segments ("/" :: (segs ++ [last])) = n :: r := by simp [segments, hr]
  have hstart : startDirectory fs ("/" :: (segs ++ [last])) = fs.rootDirectory := by
    simp [startDirectory]
  rw [getParsedPath_eq_loop E fs _ st none n r hseg, hstart,
    getParsedPathLoop_descend E fs none segs fs.rootDirectory d last [] n r st hr h
      (fun f hf => by cases hf)]
  simp [getParsedPathLoop]

/-- Instance of C1 on the sample tree: `/a/b/g` resolves to parent `b` and
child `g`. -/
theorem getParsedPath_absolute_resolves_witness :
    descend sampleFS sampleFS.rootDirectory ["a", "b"] = some 2 ∧
      getParsedPath emscriptenErrno sampleFS ("/" :: (["a", "b"] ++ ["g"])) ⟨0, []⟩ none =
        (⟨some 2, getEntry sampleFS 2 "g"⟩,
          (⟨0, []⟩ : CallState).record
            (walkEvents sampleFS sampleFS.rootDirectory ["a", "b"] ++
              [.acquire 2, .getEntry 2 "g"])) :=
  ⟨by decide, getParsedPath_absolute_resolves emscriptenErrno sampleFS ["a", "b"] "g" 2 ⟨0, []⟩
    (by decide)⟩

/-- Counterexample to C2 as stated: the forbidden ancestor is the root, a
directory the walk over `/a` passes through before its final lookup, and
`getParsedPath` succeeds with the root as parent instead of failing with
`EINVAL`. -/
theorem getParsedPath_forbidden_start_not_checked :
    startDirectory sampleFS ["/", "a"] = 0 ∧
      (getParsedPath emscriptenErrno sampleFS ["/", "a"] ⟨0, []⟩ (some 0)).1 = ⟨some 0, some 1⟩ ∧
      (getParsedPath emscriptenErrno sampleFS ["/", "a"] ⟨0, []⟩ (some 0)).2.err
        ≠ -emscriptenErrno.EINVAL := by
  decide

/-- C2, amended: if the forbidden ancestor `f` is the entry named by a
non-final segment `s` that the walk reaches (the segments `pre` before it name
Directories from the starting directory), `getParsedPath` fails with `EINVAL`,
whatever the segments after `s` are.  The starting directory itself is not
compared with `f`. -/
theorem getParsedPath_forbidden_entry (E : Errno) (fs : WasmFS) (pathParts pre : List String)
    (s : String) (post : List String) (d f : Handle) (st : CallState)
    (hsegs : segments pathParts = pre ++ s :: post) (hpost : post ≠ [])
    (hd : descend fs (startDirectory fs pathParts) pre = some d)
    (he : getEntry fs d s = some f) :
    (getParsedPath E fs pathParts st (some f)).1 = ⟨none, none⟩ ∧
      (getParsedPath E fs pathParts st (some f)).2.err = -E.EINVAL := by
  obtain ⟨n, r, hr⟩ : ∃ n r, n :: r = pre ++ s :: post := by
    cases pre with
    | nil => exact ⟨s, post, rfl⟩
    | cons a pre => exact ⟨a, pre ++ s :: post, rfl⟩
  rw [getParsedPath_eq_loop E fs pathParts st (some f) n r (hsegs.trans hr.symm)]
  exact getParsedPathLoop_forbidden E fs f pre _ d s post n r st hr hpost hd he

/-- Instance of the amended C2 on the sample tree: resolving `/a/b/g` with `b`
(handle `2`) forbidden. -/
theorem getParsedPath_forbidden_entry_witness :
    (getParsedPath emscriptenErrno sampleFS ["/", "a", "b", "g"] ⟨0, []⟩ (some 2)).1
        = ⟨none, none⟩ ∧
      (getParsedPath emscriptenErrno sampleFS ["/", "a", "b", "g"] ⟨0, []⟩ (some 2)).2.err
        = -emscriptenErrno.EINVAL :=
  getParsedPath_forbidden_entry emscriptenErrno sampleFS ["/", "a", "b", "g"] ["a"] "b" ["g"]
    1 2 ⟨0, []⟩ (by decide) (by decide) (by decide) (by decide)

/-- C3: if a non-final segment `s` has no entry in the directory `d` that the
walk has reached (the segments `pre` before it name Directories, none of them
the forbidden ancestor), `getParsedPath` fails with `ENOENT`, and the names it
has looked up are those of `pre` and `s` only: no lookup is made for a
segment after `s`. -/
theorem getParsedPath_missing_segment (E : Errno) (fs : WasmFS) (pathParts pre : List String)
    (s : String) (post : List String) (d : Handle) (st : CallState) (forb : Option Handle)
    (hsegs : segments pathParts = pre ++ s :: post) (hpost : post ≠ [])
    (hd : descend fs (startDirectory fs pathParts) pre = some d)
    (hclean : ∀ f, forb = some f → f ∉ chain fs (startDirectory fs pathParts) pre)
    (he : getEntry fs d s = none) :
    getParsedPath E fs pathParts st forb =
        (⟨none, none⟩,
          (st.record (walkEvents fs (startDirectory fs pathParts) pre ++
            lockedLookup d s)).setErr (-E.ENOENT)) ∧
      lookedUp (getParsedPath E fs pathParts st forb).2.events =
        lookedUp st.events ++ (pre ++ [s]) := by
  obtain ⟨n, r, hr⟩ : ∃ n r, n :: r = pre ++ s :: post := by
    cases pre with
    | nil => exact ⟨s, post, rfl⟩
    | cons a pre => exact ⟨a, pre ++ s :: post, rfl⟩
  have key : getParsedPath E fs pathParts st forb =
      (⟨none, none⟩,
        (st.record (walkEvents fs (startDirectory fs pathParts) pre ++
          lockedLookup d s)).setErr (-E.ENOENT)) := by
    rw [getParsedPath_eq_loop E fs pathParts st forb n r (hsegs.trans hr.symm),
      getParsedPathLoop_descend E fs forb pre _ d s post n r st hr hd hclean]
    cases post with
    | nil => exact absurd rfl hpost
    | cons a post =>
      have hne : ¬ (forb ≠ none ∧ none = forb) := fun h => h.1 h.2.symm
      simp [getParsedPathLoop, he, hne]
  refine ⟨key, ?_⟩
  rw [key]
  simp [lookedUp_append, lookedUp_walkEvents fs pre _ d hd, lockedLookup, lookedUp]

/-- Instance of C3 on the sample tree: `/a/x/g/h`, where `a` has no entry
`x`. -/
theorem getParsedPath_missing_segment_witness :
    getParsedPath emscriptenErrno sampleFS ["/", "a", "x", "g", "h"] ⟨0, []⟩ none =
        (⟨none, none⟩,
          ((⟨0, []⟩ : CallState).record
            (walkEvents sampleFS (startDirectory sampleFS ["/", "a", "x", "g", "h"]) ["a"] ++
              lockedLookup 1 "x")).setErr (-emscriptenErrno.ENOENT)) ∧
      lookedUp (getParsedPath emscriptenErrno sampleFS ["/", "a", "x", "g", "h"]
          ⟨0, []⟩ none).2.events =
        lookedUp (⟨0, []⟩ : CallState).events ++ (["a"] ++ ["x"]) :=
  getParsedPath_missing_segment emscriptenErrno sampleFS ["/", "a", "x", "g", "h"] ["a"] "x"
    ["g", "h"] 1 ⟨0, []⟩ none (by decide) (by decide) (by decide) (fun f hf => by cases hf)
    (by decide)

/-- C5: for every tree, `getParsedPath` applied to `["/"]` succeeds and
returns the root directory both as the locked parent and as the child; the
only event is taking the root's lock and `err` is untouched. -/
theorem getParsedPath_root (E : Errno) (fs : WasmFS) (st : CallState) (forb : Option Handle) :
    getParsedPath E fs ["/"] st forb =
      (⟨some fs.rootDirectory, some fs.rootDirectory⟩, st.record [.acquire fs.rootDirectory]) := by
  simp [getParsedPath]

/-! ## The loop of `getDir` -/

/-- The elements of the iterator range `[begin, endIt)` of a vector. -/
theorem range_facts (v : List String) (b e : Nat) (hb : b ≤ e) (he : e ≤ v.length) :
    v.drop b = (v.take e).drop b ++ v.drop e ∧ ((v.take e).drop b).length = e - b := by
  constructor
  · conv_lhs => rw [← List.take_append_drop e v]
    rw [List.drop_append_of_le_length]
    simp [List.length_take, he, hb]
  · simp [List.length_drop, List.length_take, he]

theorem getDirLoop_step (E : Errno) (fs : WasmFS) (forb : Option Handle) (e : Nat)
    (name : String) (rest : List String) (it : Nat) (curr file : Handle) (st : CallState)
    (hit : it ≠ e) (hc : (fs.files curr).isDirectory = true)
    (he : getEntry fs curr name = some file) (hf : forb ≠ some file) :
    getDirLoop E fs forb e (name :: rest) it curr st =
      getDirLoop E fs forb e rest (it + 1) file (st.record (lockedLookup curr name)) := by
  have hne : ¬ (forb ≠ none ∧ some file = forb) := fun h => hf h.2.symm
  rw [getDirLoop]
  simp only [hit, if_false, dynCastDirectory_of_isDirectory hc, he, hne]

theorem getDirLoop_descend (E : Errno) (fs : WasmFS) (forb : Option Handle) (e : Nat) :
    ∀ (pre : List String) (d d' : Handle) (tl : List String) (it : Nat) (st : CallState),
      (fs.files d).isDirectory = true → descend fs d pre = some d' →
      (∀ f, forb = some f → f ∉ chain fs d pre) → it + pre.length ≤ e →
      getDirLoop E fs forb e (pre ++ tl) it d st =
        getDirLoop E fs forb e tl (it + pre.length) d' (st.record (walkEvents fs d pre)) := by
  intro pre
  induction pre with
  | nil =>
    intro d d' tl it st _ hdesc _ _
    simp only [descend, Option.some.injEq] at hdesc
    subst hdesc
    simp [walkEvents]
  | cons s pre ih =>
    intro d d' tl it st hdir hdesc hclean hlen
    simp only [descend] at hdesc
    simp only [List.length_cons] at hlen
    cases he : getEntry fs d s with
    | none => simp [he] at hdesc
    | some file =>
      simp only [he] at hdesc
      by_cases hf : (fs.files file).isDirectory = true
      · simp only [hf, if_true] at hdesc
        have hnf : forb ≠ some file := by
          intro hforb
          exact hclean file hforb (by simp [chain, he])
        have hclean' : ∀ f, forb = some f → f ∉ chain fs file pre := by
          intro f hforb hmem
          exact hclean f hforb (by simp [chain, he, hf, hmem])
        rw [List.cons_append, getDirLoop_step E fs forb e s (pre ++ tl) it d file st
          (by omega) hdir he hnf, ih file d' tl (it + 1) _ hf hdesc hclean' (by omega)]
        have : it + 1 + pre.length = it + (s :: pre).length := by simp; omega
        rw [this]
        simp [walkEvents, he, hf]
      · simp [hf] at hdesc

/-- How `getDir` enters its loop on a non-empty range of the vector. -/
theorem getDir_eq_loop (E : Errno) (fs : WasmFS) (v : List String) (b e : Nat)
    (st : CallState) (forb : Option Handle) (hb : b < e) (he : e ≤ v.length) :
    getDir E fs v b e st forb =
      getDirLoop E fs forb e (segments ((v.take e).drop b) ++ v.drop e)
        (e - (segments ((v.take e).drop b)).length)
        (startDirectory fs ((v.take e).drop b)) st := by
  obtain ⟨h1, h2⟩ := range_facts v b e (Nat.le_of_lt hb) he
  cases hR : (v.take e).drop b with
  | nil => rw [hR] at h2; simp at h2; omega
  | cons first rs =>
    rw [hR] at h1 h2
    simp only [List.length_cons] at h2
    by_cases hm : first = "/"
    · subst hm
      have : e - rs.length = b + 1 := by omega
      simp [getDir, h1, segments, startDirectory, this]
    · have : e - (first :: rs).length = b := by simp; omega
      simp only [getDir, h1, List.cons_append, hm, if_false, segments, List.head?_cons,
        Option.some.injEq, startDirectory, this]

theorem chain_append (fs : WasmFS) :
    ∀ (pre : List String) (d d' : Handle) (l : List String), descend fs d pre = some d' →
      chain fs d (pre ++ l) = chain fs d pre ++ chain fs d' l := by
  intro pre
  induction pre with
  | nil =>
    intro d d' l h
    simp only [descend, Option.some.injEq] at h
    subst h
    simp [chain]
  | cons s pre ih =>
    intro d d' l h
    simp only [descend] at h
    cases he : getEntry fs d s with
    | none => simp [he] at h
    | some file =>
      simp only [he] at h
      by_cases hf : (fs.files file).isDirectory = true
      · simp only [hf, if_true] at h
        simp [chain, he, hf, ih file d' l h]
      · simp [hf] at h

/-- A successful run of the loop of `getDir` over exactly the segments `segs`
has followed Directories all the way. -/
theorem getDirLoop_success (E : Errno) (fs : WasmFS) (forb : Option Handle) (e : Nat) :
    ∀ (segs : List String) (d D : Handle) (tl : List String) (it : Nat) (st st' : CallState),
      it + segs.length = e →
      getDirLoop E fs forb e (segs ++ tl) it d st = some (some D, st') →
      (fs.files d).isDirectory = true ∧ descend fs d segs = some D := by
  intro segs
  induction segs with
  | nil =>
    intro d D tl it st st' hlen h
    simp only [List.length_nil, Nat.add_zero] at hlen
    rw [getDirLoop] at h
    simp only [hlen, if_true] at h
    by_cases hd : (fs.files d).isDirectory = true
    · simp only [dynCastDirectory_of_isDirectory hd, Option.some.injEq, Prod.mk.injEq] at h
      exact ⟨hd, by simp [descend, h.1]⟩
    · simp [dynCastDirectory, hd] at h
  | cons s segs ih =>
    intro d D tl it st st' hlen h
    simp only [List.length_cons] at hlen
    have hit : it ≠ e := by omega
    rw [List.cons_append, getDirLoop] at h
    simp only [hit, if_false] at h
    by_cases hd : (fs.files d).isDirectory = true
    · simp only [dynCastDirectory_of_isDirectory hd] at h
      refine ⟨hd, ?_⟩
      split at h
      · simp at h
      · cases hent : getEntry fs d s with
        | none => simp [hent] at h
        | some file =>
          simp only [hent] at h
          obtain ⟨hfd, hdesc⟩ := ih file D tl (it + 1) _ st' (by omega) h
          simp [descend, hent, hfd, hdesc]
    · simp [dynCastDirectory, hd] at h

/-- The loop of `getDir` fails with `ENOTDIR` when it holds a file that is not
a Directory, whether or not segments remain. -/
theorem getDirLoop_not_directory (E : Errno) (fs : WasmFS) (forb : Option Handle) (e : Nat)
    (rest : List String) (it : Nat) (curr : Handle) (st : CallState)
    (hc : (fs.files curr).isDirectory = false) :
    getDirLoop E fs forb e rest it curr st = some (none, st.setErr (-E.ENOTDIR)) := by
  rw [getDirLoop]
  simp [dynCastDirectory_of_not_isDirectory hc]

theorem getDirLoop_resolved (E : Errno) (fs : WasmFS) (forb : Option Handle) (e : Nat)
    (segs : List String) (d D : Handle) (tl : List String) (it : Nat) (st : CallState)
    (hlen : it + segs.length = e) (hdir : (fs.files d).isDirectory = true)
    (hdesc : descend fs d segs = some D)
    (hclean : ∀ f, forb = some f → f ∉ chain fs d segs) :
    getDirLoop E fs forb e (segs ++ tl) it d st =
      some (some D, st.record (walkEvents fs d segs)) := by
  rw [getDirLoop_descend E fs forb e segs d D tl it st hdir hdesc hclean (by omega), getDirLoop]
  simp [hlen, dynCastDirectory_of_isDirectory (descend_isDirectory fs segs d D hdir hdesc)]

theorem getDirLoop_missing (E : Errno) (fs : WasmFS) (forb : Option Handle) (e : Nat)
    (pre : List String) (s : String) (post : List String) (d d' : Handle) (tl : List String)
    (it : Nat) (st : CallState)
    (hlen : it + (pre ++ s :: post).length = e) (hdir : (fs.files d).isDirectory = true)
    (hdesc : descend fs d pre = some d')
    (hclean : ∀ f, forb = some f → f ∉ chain fs d pre)
    (hent : getEntry fs d' s = none) :
    getDirLoop E fs forb e ((pre ++ s :: post) ++ tl) it d st =
      some (none, (st.record (walkEvents fs d pre ++ lockedLookup d' s)).setErr (-E.ENOENT)) := by
  simp only [List.length_append, List.length_cons] at hlen
  have hit : it + pre.length ≠ e := by omega
  have hne : ¬ (forb ≠ none ∧ none = forb) := fun h => h.1 h.2.symm
  rw [List.append_assoc, getDirLoop_descend E fs forb e pre d d' _ it st hdir hdesc hclean
    (by omega), List.cons_append, getDirLoop]
  simp [hit, dynCastDirectory_of_isDirectory (descend_isDirectory fs pre d d' hdir hdesc),
    hent, hne]

theorem getDirLoop_regular (E : Errno) (fs : WasmFS) (forb : Option Handle) (e : Nat)
    (pre : List String) (s : String) (post : List String) (d d' h : Handle) (tl : List String)
    (it : Nat) (st : CallState)
    (hlen : it + (pre ++ s :: post).length = e) (hdir : (fs.files d).isDirectory = true)
    (hdesc : descend fs d pre = some d')
    (hclean : ∀ f, forb = some f → f ∉ chain fs d pre)
    (hent : getEntry fs d' s = some h) (hforb : forb ≠ some h)
    (hreg : (fs.files h).isDirectory = false) :
    getDirLoop E fs forb e ((pre ++ s :: post) ++ tl) it d st =
      some (none, (st.record (walkEvents fs d pre ++ lockedLookup d' s)).setErr (-E.ENOTDIR)) := by
  simp only [List.length_append, List.length_cons] at hlen
  have hit : it + pre.length ≠ e := by omega
  rw [List.append_assoc, getDirLoop_descend E fs forb e pre d d' _ it st hdir hdesc hclean
    (by omega), List.cons_append,
    getDirLoop_step E fs forb e s _ _ d' h _ hit
      (descend_isDirectory fs pre d d' hdir hdesc) hent hforb,
    getDirLoop_not_directory E fs forb e _ _ h _ hreg]
  simp

theorem segments_length_le (v : List String) (b e : Nat) (hb : b ≤ e) (he : e ≤ v.length) :
    e - (segments (rangeOf v b e)).length + (segments (rangeOf v b e)).length = e := by
  have h2 := (range_facts v b e hb he).2
  have : (segments (rangeOf v b e)).length ≤ e - b := by
    rw [← h2]
    unfold segments rangeOf
    split
    · rw [List.length_tail]
      exact Nat.sub_le _ _
    · exact Nat.le_refl _
  omega

/-! ## Properties of `getDir` -/

/-- Counterexample to C7 as stated: on the range `/a/b` every segment names
an existing entry that is a Directory and the last one names the directory
`b`, yet with the directory `a` as forbidden ancestor `getDir` returns no
directory and fails with `EINVAL`, after the lookup of `a` alone. -/
theorem getDir_forbidden_on_the_way :
    descend sampleFS (startDirectory sampleFS (rangeOf ["/", "a", "b"] 0 3))
        (segments (rangeOf ["/", "a", "b"] 0 3)) = some 2 ∧
      getEntry sampleFS sampleFS.rootDirectory "a" = some 1 ∧
      (sampleFS.files 1).isDirectory = true ∧ (sampleFS.files 2).isDirectory = true ∧
      getDir emscriptenErrno sampleFS ["/", "a", "b"] 0 3 ⟨0, []⟩ (some 1) =
        some (none, ⟨-emscriptenErrno.EINVAL, lockedLookup 0 "a"⟩) := by
  decide

/-- C7, amended: on a non-empty range `[begin, endIt)` of the vector, resolved
with no forbidden ancestor met on the way (none supplied, or one that is none
of the entries the segments name), `getDir` walks the segments of the range
(all its elements but a leading marker) from the root (marker present) or the
CWD (marker absent): it returns `D`, after one lookup per segment, exactly
when the segments successively name Directories, the last one included, and
`D` is the one the last segment names; it fails with `ENOENT` at the first
segment that has no entry and with `ENOTDIR` at the first segment, final or
not, whose entry is not a Directory. -/
theorem getDir_resolves (E : Errno) (fs : WasmFS) (v : List String) (b e : Nat)
    (st : CallState) (forb : Option Handle) (hb : b < e) (he : e ≤ v.length)
    (hclean : ∀ f, forb = some f →
      f ∉ chain fs (startDirectory fs (rangeOf v b e)) (segments (rangeOf v b e))) :
    (∀ D, descend fs (startDirectory fs (rangeOf v b e)) (segments (rangeOf v b e)) = some D →
        getDir E fs v b e st forb =
          some (some D, st.record
            (walkEvents fs (startDirectory fs (rangeOf v b e)) (segments (rangeOf v b e))))) ∧
      (∀ D st', getDir E fs v b e st forb = some (some D, st') →
        descend fs (startDirectory fs (rangeOf v b e)) (segments (rangeOf v b e)) = some D) ∧
      (∀ pre s post d, segments (rangeOf v b e) = pre ++ s :: post →
        descend fs (startDirectory fs (rangeOf v b e)) pre = some d →
        getEntry fs d s = none →
        getDir E fs v b e st forb =
          some (none, (st.record (walkEvents fs (startDirectory fs (rangeOf v b e)) pre ++
            lockedLookup d s)).setErr (-E.ENOENT))) ∧
      (∀ pre s post d h, segments (rangeOf v b e) = pre ++ s :: post →
        descend fs (startDirectory fs (rangeOf v b e)) pre = some d →
        getEntry fs d s = some h → (fs.files h).isDirectory = false →
        getDir E fs v b e st forb =
          some (none, (st.record (walkEvents fs (startDirectory fs (rangeOf v b e)) pre ++
            lockedLookup d s)).setErr (-E.ENOTDIR))) := by
  have hloop := getDir_eq_loop E fs v b e st forb hb he
  have hlen := segments_length_le v b e (Nat.le_of_lt hb) he
  have hstart := startDirectory_isDirectory fs (rangeOf v b e)
  change getDir E fs v b e st forb =
    getDirLoop E fs forb e (segments (rangeOf v b e) ++ v.drop e)
      (e - (segments (rangeOf v b e)).length) (startDirectory fs (rangeOf v b e)) st at hloop
  refine ⟨?_, ?_, ?_, ?_⟩
  · intro D hD
    rw [hloop]
    exact getDirLoop_resolved E fs forb e _ _ D _ _ st hlen hstart hD hclean
  · intro D st' h
    rw [hloop] at h
    exact (getDirLoop_success E fs forb e _ _ D _ _ st st' hlen h).2
  · intro pre s post d hsegs hd hent
    rw [hloop]
    rw [hsegs] at hlen hclean ⊢
    have hc : ∀ f, forb = some f → f ∉ chain fs (startDirectory fs (rangeOf v b e)) pre := by
      intro f hf hmem
      exact hclean f hf (by rw [chain_append fs pre _ d _ hd]; simp [hmem])
    exact getDirLoop_missing E fs forb e pre s post _ d _ _ st hlen hstart hd hc hent
  · intro pre s post d h hsegs hd hent hreg
    rw [hloop]
    rw [hsegs] at hlen hclean ⊢
    have hc : ∀ f, forb = some f → f ∉ chain fs (startDirectory fs (rangeOf v b e)) pre := by
      intro f hf hmem
      exact hclean f hf (by rw [chain_append fs pre _ d _ hd]; simp [hmem])
    have hfh : forb ≠ some h := by
      intro hf
      exact hclean h hf (by rw [chain_append fs pre _ d _ hd]; simp [chain, hent])
    exact getDirLoop_regular E fs forb e pre s post _ d h _ _ st hlen hstart hd hc hent hfh hreg

/-- Instance of C7 on the sample tree: the range `/a/b` of the vector
`["/", "a", "b", "g"]` resolves to the directory `b`. -/
theorem getDir_resolves_witness :
    0 < 3 ∧ 3 ≤ ["/", "a", "b", "g"].length ∧
      getDir emscriptenErrno sampleFS ["/", "a", "b", "g"] 0 3 ⟨0, []⟩ none =
        some (some 2, (⟨0, []⟩ : CallState).record
          (walkEvents sampleFS (startDirectory sampleFS (rangeOf ["/", "a", "b", "g"] 0 3))
            (segments (rangeOf ["/", "a", "b", "g"] 0 3)))) :=
  ⟨by decide, by decide,
    (getDir_resolves emscriptenErrno sampleFS ["/", "a", "b", "g"] 0 3 ⟨0, []⟩ none
      (by decide) (by decide) (fun f hf => by cases hf)).1 2 (by decide)⟩

theorem getParsedPathLoop_regular (E : Errno) (fs : WasmFS) (forb : Option Handle)
    (pre : List String) (s : String) (post : List String) (d d' h : Handle)
    (p : String) (r : List String) (st : CallState)
    (hpr : p :: r = pre ++ s :: post) (hpost : post ≠ [])
    (hdesc : descend fs d pre = some d')
    (hclean : ∀ f, forb = some f → f ∉ chain fs d pre)
    (hent : getEntry fs d' s = some h) (hforb : forb ≠ some h)
    (hreg : (fs.files h).isDirectory = false) :
    getParsedPathLoop E fs forb d p r st =
      (⟨none, none⟩,
        (st.record (walkEvents fs d pre ++ lockedLookup d' s)).setErr (-E.ENOTDIR)) := by
  rw [getParsedPathLoop_descend E fs forb pre d d' s post p r st hpr hdesc hclean]
  cases post with
  | nil => exact absurd rfl hpost
  | cons a post =>
    have hne : ¬ (forb ≠ none ∧ some h = forb) := fun hh => hforb hh.2.symm
    simp [getParsedPathLoop, hent, hne, dynCastDirectory_of_not_isDirectory hreg]

/-- Counterexample to C4 as stated: in `/f/x` the non-final segment `f` names
a RegularFile; with that file supplied as forbidden ancestor both
`getParsedPath` and `getDir` fail with `EINVAL`, not `ENOTDIR`. -/
theorem regular_file_forbidden_gives_EINVAL :
    getEntry sampleFS sampleFS.rootDirectory "f" = some 3 ∧
      (sampleFS.files 3).isDirectory = false ∧
      getParsedPath emscriptenErrno sampleFS ["/", "f", "x"] ⟨0, []⟩ (some 3) =
        (⟨none, none⟩, ⟨-emscriptenErrno.EINVAL, lockedLookup 0 "f"⟩) ∧
      getDir emscriptenErrno sampleFS ["/", "f", "x"] 0 3 ⟨0, []⟩ (some 3) =
        some (none, ⟨-emscriptenErrno.EINVAL, lockedLookup 0 "f"⟩) ∧
      -emscriptenErrno.EINVAL ≠ -emscriptenErrno.ENOTDIR := by
  decide

/-- C4, amended: if a non-final segment `s` that the walk reaches names a
RegularFile `h`, and the forbidden ancestor, when one is supplied, is neither
`h` nor an entry met before it, then `getParsedPath` on the path and `getDir`
on every non-empty range holding the path fail with `ENOTDIR`, having looked
up the segments up to `s` only. -/
theorem regular_file_not_final (E : Errno) (fs : WasmFS) (pathParts pre : List String)
    (s : String) (post : List String) (d h : Handle) (st : CallState) (forb : Option Handle)
    (hsegs : segments pathParts = pre ++ s :: post) (hpost : post ≠ [])
    (hd : descend fs (startDirectory fs pathParts) pre = some d)
    (hent : getEntry fs d s = some h) (hreg : (fs.files h).isDirectory = false)
    (hclean : ∀ f, forb = some f → f ∉ chain fs (startDirectory fs pathParts) (pre ++ [s])) :
    getParsedPath E fs pathParts st forb =
        (⟨none, none⟩,
          (st.record (walkEvents fs (startDirectory fs pathParts) pre ++
            lockedLookup d s)).setErr (-E.ENOTDIR)) ∧
      ∀ v b e, b < e → e ≤ v.length → rangeOf v b e = pathParts →
        getDir E fs v b e st forb =
          some (none, (st.record (walkEvents fs (startDirectory fs pathParts) pre ++
            lockedLookup d s)).setErr (-E.ENOTDIR)) := by
  have hc : ∀ f, forb = some f → f ∉ chain fs (startDirectory fs pathParts) pre := by
    intro f hf hmem
    exact hclean f hf (by rw [chain_append fs pre _ d _ hd]; simp [hmem])
  have hfh : forb ≠ some h := by
    intro hf
    exact hclean h hf (by rw [chain_append fs pre _ d _ hd]; simp [chain, hent])
  constructor
  · obtain ⟨n, r, hr⟩ : ∃ n r, n :: r = pre ++ s :: post := by
      cases pre with
      | nil => exact ⟨s, post, rfl⟩
      | cons a pre => exact ⟨a, pre ++ s :: post, rfl⟩
    rw [getParsedPath_eq_loop E fs pathParts st forb n r (hsegs.trans hr.symm)]
    exact getParsedPathLoop_regular E fs forb pre s post _ d h n r st hr hpost hd hc hent hfh hreg
  · intro v b e hb he hrange
    have hlen := segments_length_le v b e (Nat.le_of_lt hb) he
    have hloop := getDir_eq_loop E fs v b e st forb hb he
    change getDir E fs v b e st forb =
      getDirLoop E fs forb e (segments (rangeOf v b e) ++ v.drop e)
        (e - (segments (rangeOf v b e)).length) (startDirectory fs (rangeOf v b e)) st at hloop
    rw [hrange, hsegs] at hloop hlen
    rw [hloop]
    exact getDirLoop_regular E fs forb e pre s post _ d h _ _ st hlen
      (startDirectory_isDirectory fs pathParts) hd hc hent hfh hreg

/-- Instance of the amended C4 on the sample tree: `/f/x`, where `f` is a
RegularFile, resolved without a forbidden ancestor. -/
theorem regular_file_not_final_witness :
    getParsedPath emscriptenErrno sampleFS ["/", "f", "x"] ⟨0, []⟩ none =
        (⟨none, none⟩,
          ((⟨0, []⟩ : CallState).record
            (walkEvents sampleFS (startDirectory sampleFS ["/", "f", "x"]) [] ++
              lockedLookup 0 "f")).setErr (-emscriptenErrno.ENOTDIR)) ∧
      ∀ v b e, b < e → e ≤ v.length → rangeOf v b e = ["/", "f", "x"] →
        getDir emscriptenErrno sampleFS v b e ⟨0, []⟩ none =
          some (none, ((⟨0, []⟩ : CallState).record
            (walkEvents sampleFS (startDirectory sampleFS ["/", "f", "x"]) [] ++
              lockedLookup 0 "f")).setErr (-emscriptenErrno.ENOTDIR)) :=
  regular_file_not_final emscriptenErrno sampleFS ["/", "f", "x"] [] "f" ["x"] 0 3 ⟨0, []⟩ none
    (by decide) (by decide) (by decide) (by decide) (by decide) (fun f hf => by cases hf)

/-- A forbidden ancestor that is none of the entries named by the non-final
segments does not influence the loop of `getParsedPath`. -/
theorem getParsedPathLoop_clean (E : Errno) (fs : WasmFS) (forb : Option Handle) :
    ∀ (rest : List String) (d : Handle) (name : String) (st : CallState),
      (∀ f, forb = some f → f ∉ chain fs d (name :: rest).dropLast) →
      getParsedPathLoop E fs forb d name rest st =
        getParsedPathLoop E fs none d name rest st := by
  intro rest
  induction rest with
  | nil => intro d name st _; simp [getParsedPathLoop]
  | cons next rest ih =>
    intro d name st hclean
    have hdl : (name :: next :: rest).dropLast = name :: (next :: rest).dropLast := rfl
    rw [hdl] at hclean
    cases hent : getEntry fs d name with
    | none =>
      have hne : ¬ (forb ≠ none ∧ none = forb) := fun h => h.1 h.2.symm
      simp [getParsedPathLoop, hent, hne]
    | some file =>
      have hnf : forb ≠ some file := by
        intro hforb
        exact hclean file hforb (by simp [chain, hent])
      have hne : ¬ (forb ≠ none ∧ some file = forb) := fun h => hnf h.2.symm
      by_cases hf : (fs.files file).isDirectory = true
      · have hclean' : ∀ f, forb = some f → f ∉ chain fs file (next :: rest).dropLast := by
          intro f hforb hmem
          exact hclean f hforb (by simp [chain, hent, hf, hmem])
        simp only [getParsedPathLoop, hent, hne, if_false, dynCastDirectory_of_isDirectory hf]
        rw [ih file next _ hclean']
        simp
      · have hf' : (fs.files file).isDirectory = false := by simpa using hf
        simp [getParsedPathLoop, hent, hne, dynCastDirectory_of_not_isDirectory hf']

theorem getDirLoop_forbidden (E : Errno) (fs : WasmFS) (e : Nat)
    (pre : List String) (s : String) (post : List String) (d d' f : Handle) (tl : List String)
    (it : Nat) (st : CallState)
    (hlen : it + (pre ++ s :: post).length = e) (hdir : (fs.files d).isDirectory = true)
    (hdesc : descend fs d pre = some d')
    (hclean : f ∉ chain fs d pre)
    (hent : getEntry fs d' s = some f) :
    getDirLoop E fs (some f) e ((pre ++ s :: post) ++ tl) it d st =
      some (none, (st.record (walkEvents fs d pre ++ lockedLookup d' s)).setErr (-E.EINVAL)) := by
  simp only [List.length_append, List.length_cons] at hlen
  have hit : it + pre.length ≠ e := by omega
  have hc : ∀ g, some f = some g → g ∉ chain fs d pre := by
    intro g hg
    cases hg
    exact hclean
  rw [List.append_assoc, getDirLoop_descend E fs (some f) e pre d d' _ it st hdir hdesc hc
    (by omega), List.cons_append, getDirLoop]
  simp [hit, dynCastDirectory_of_isDirectory (descend_isDirectory fs pre d d' hdir hdesc), hent]

/-- Counterexample to C8 as stated: on the range `/a` the forbidden ancestor
is the entry named by the last segment and no other; `getDir` fails with
`EINVAL`, while with no forbidden ancestor it returns the directory `a`. -/
theorem getDir_checks_final_entry :
    getEntry sampleFS sampleFS.rootDirectory "a" = some 1 ∧
      getDir emscriptenErrno sampleFS ["/", "a"] 0 2 ⟨0, []⟩ (some 1) =
        some (none, ⟨-emscriptenErrno.EINVAL, lockedLookup 0 "a"⟩) ∧
      getDir emscriptenErrno sampleFS ["/", "a"] 0 2 ⟨0, []⟩ none =
        some (some 1, ⟨0, lockedLookup 0 "a"⟩) := by
  decide

/-- C8, amended: `getParsedPath` excludes the final target from the
forbidden-ancestor check: when the forbidden ancestor is none of the entries
named by the non-final segments, the outcome is the same as with no forbidden
ancestor supplied, also when it is the entry named by the last segment.
`getDir` compares the entry of every segment of its range, the last one
included: when the forbidden ancestor is the entry named by the last segment
and no entry met earlier, `getDir` fails with `EINVAL`. -/
theorem forbidden_final_target (E : Errno) (fs : WasmFS) (pathParts : List String)
    (st : CallState) (forb : Option Handle)
    (hclean : ∀ f, forb = some f →
      f ∉ chain fs (startDirectory fs pathParts) (segments pathParts).dropLast) :
    getParsedPath E fs pathParts st forb = getParsedPath E fs pathParts st none ∧
      ∀ v b e pre s d f, b < e → e ≤ v.length → rangeOf v b e = pathParts →
        segments pathParts = pre ++ [s] →
        descend fs (startDirectory fs pathParts) pre = some d →
        getEntry fs d s = some f → forb = some f →
        getDir E fs v b e st forb =
          some (none, (st.record (walkEvents fs (startDirectory fs pathParts) pre ++
            lockedLookup d s)).setErr (-E.EINVAL)) := by
  constructor
  · cases hs : segments pathParts with
    | nil =>
      cases pathParts with
      | nil => simp [getParsedPath]
      | cons first rest =>
        by_cases hm : first = "/"
        · subst hm
          simp only [segments, List.head?_cons, if_true, List.tail_cons] at hs
          subst hs
          simp [getParsedPath]
        · simp [segments, hm] at hs
    | cons x xs =>
      rw [hs] at hclean
      rw [getParsedPath_eq_loop E fs pathParts st forb x xs hs,
        getParsedPath_eq_loop E fs pathParts st none x xs hs]
      exact getParsedPathLoop_clean E fs forb xs _ x st hclean
  · intro v b e pre s d f hb he hrange hsegs hd hent hforb
    have hlen := segments_length_le v b e (Nat.le_of_lt hb) he
    have hloop := getDir_eq_loop E fs v b e st forb hb he
    change getDir E fs v b e st forb =
      getDirLoop E fs forb e (segments (rangeOf v b e) ++ v.drop e)
        (e - (segments (rangeOf v b e)).length) (startDirectory fs (rangeOf v b e)) st at hloop
    rw [hrange, hsegs] at hloop hlen
    rw [hsegs, List.dropLast_concat] at hclean
    rw [hloop, hforb]
    exact getDirLoop_forbidden E fs e pre s [] _ d f _ _ st hlen
      (startDirectory_isDirectory fs pathParts) hd (hclean f hforb) hent

/-- Instance of the amended C8 on the sample tree: `/a/b` with `b` (handle
`2`), the entry of the last segment, forbidden. -/
theorem forbidden_final_target_witness :
    getParsedPath emscriptenErrno sampleFS ["/", "a", "b"] ⟨0, []⟩ (some 2) =
        getParsedPath emscriptenErrno sampleFS ["/", "a", "b"] ⟨0, []⟩ none ∧
      getDir emscriptenErrno sampleFS ["/", "a", "b"] 0 3 ⟨0, []⟩ (some 2) =
        some (none, ((⟨0, []⟩ : CallState).record
          (walkEvents sampleFS (startDirectory sampleFS ["/", "a", "b"]) ["a"] ++
            lockedLookup 1 "b")).setErr (-emscriptenErrno.EINVAL)) :=
  have h := forbidden_final_target emscriptenErrno sampleFS ["/", "a", "b"] ⟨0, []⟩ (some 2)
    (by decide)
  ⟨h.1, h.2 ["/", "a", "b"] 0 3 ["a"] "b" 1 2 (by decide) (by decide) (by decide) (by decide)
    (by decide) (by decide) rfl⟩

/-! ## Independence of the root, and the shape of failures -/

theorem getEntry_congr {fs fs' : WasmFS} (h : fs'.files = fs.files) (d : Handle) (n : String) :
    getEntry fs' d n = getEntry fs d n := by
  simp [getEntry, h]

theorem dynCastDirectory_congr {fs fs' : WasmFS} (h : fs'.files = fs.files) (d : Handle) :
    dynCastDirectory fs' d = dynCastDirectory fs d := by
  simp [dynCastDirectory, h]

theorem getParsedPathLoop_congr (E : Errno) {fs fs' : WasmFS} (h : fs'.files = fs.files)
    (forb : Option Handle) :
    ∀ (rest : List String) (d : Handle) (name : String) (st : CallState),
      getParsedPathLoop E fs' forb d name rest st = getParsedPathLoop E fs forb d name rest st := by
  intro rest
  induction rest with
  | nil => intro d name st; simp [getParsedPathLoop, getEntry_congr h]
  | cons next rest ih =>
    intro d name st
    simp only [getParsedPathLoop, getEntry_congr h, dynCastDirectory_congr h, ih]

theorem getDirLoop_congr (E : Errno) {fs fs' : WasmFS} (h : fs'.files = fs.files)
    (forb : Option Handle) (e : Nat) :
    ∀ (rest : List String) (it : Nat) (d : Handle) (st : CallState),
      getDirLoop E fs' forb e rest it d st = getDirLoop E fs forb e rest it d st := by
  intro rest
  induction rest with
  | nil =>
    intro it d st
    rw [getDirLoop, getDirLoop]
    simp only [dynCastDirectory_congr h]
  | cons name rest ih =>
    intro it d st
    rw [getDirLoop, getDirLoop]
    simp only [getEntry_congr h, dynCastDirectory_congr h, ih]

theorem getDirLoop_shift (E : Errno) (fs : WasmFS) (forb : Option Handle) (e k : Nat) :
    ∀ (rest : List String) (it : Nat) (d : Handle) (st : CallState),
      getDirLoop E fs forb (e + k) rest (it + k) d st = getDirLoop E fs forb e rest it d st := by
  intro rest
  induction rest with
  | nil =>
    intro it d st
    rw [getDirLoop, getDirLoop]
    simp only [Nat.add_right_cancel_iff]
  | cons name rest ih =>
    intro it d st
    have hk : it + k + 1 = it + 1 + k := by omega
    rw [getDirLoop, getDirLoop]
    simp only [Nat.add_right_cancel_iff, hk, ih]

/-- C9: for a non-empty segment list whose first element is not the marker
`"/"`, `getParsedPath` and `getDir` (on a range that starts at such an
element) never consult the root: they give the same result in every file
system `fs'` that has the same files and the same CWD, whatever its root is;
and the walk starts at the CWD: the result is that of the absolute walk of
the same segments in a file system `fsC` with the same files whose root is
that CWD. -/
theorem relative_path_ignores_root (E : Errno) (fs fs' fsC : WasmFS) (first : String)
    (rest : List String) (st : CallState) (forb : Option Handle)
    (hfiles : fs'.files = fs.files) (hcwd : fs'.cwd = fs.cwd) (hrel : first ≠ "/")
    (hfilesC : fsC.files = fs.files) (hrootC : fsC.rootDirectory = fs.cwd) :
    getParsedPath E fs' (first :: rest) st forb = getParsedPath E fs (first :: rest) st forb ∧
      getParsedPath E fs (first :: rest) st forb =
        getParsedPath E fsC ("/" :: first :: rest) st forb ∧
      ∀ v b e, v.drop b = first :: rest →
        getDir E fs' v b e st forb = getDir E fs v b e st forb ∧
        (b ≤ e → getDir E fs v b e st forb =
          getDir E fsC ("/" :: first :: rest) 0 (e - b + 1) st forb) := by
  refine ⟨?_, ?_, ?_⟩
  · simp [getParsedPath, hrel, hcwd, getParsedPathLoop_congr E hfiles]
  · simp [getParsedPath, hrel, hrootC, getParsedPathLoop_congr E hfilesC]
  · intro v b e hv
    constructor
    · simp [getDir, hv, hrel, hcwd, getDirLoop_congr E hfiles]
    · intro hbe
      have h1 : getDir E fs v b e st forb =
          getDirLoop E fs forb (e - b + b) (first :: rest) (0 + b) fs.cwd st := by
        have he : e - b + b = e := Nat.sub_add_cancel hbe
        simp [getDir, hv, hrel, he]
      have h2 : getDir E fsC ("/" :: first :: rest) 0 (e - b + 1) st forb =
          getDirLoop E fs forb (e - b + 1) (first :: rest) (0 + 1) fs.cwd st := by
        simp [getDir, hrootC, getDirLoop_congr E hfilesC]
      rw [h1, h2, getDirLoop_shift, getDirLoop_shift]

/-- Instance of C9 on the sample tree, for the relative path `g/x`: `fs'` is
the sample tree with its root replaced by the directory `a`, and `fsC` the
sample tree with its root replaced by the CWD. -/
theorem relative_path_ignores_root_witness :
    getParsedPath emscriptenErrno { sampleFS with rootDirectory := 1, root_isDirectory := rfl }
          ("g" :: ["x"]) ⟨0, []⟩ none =
        getParsedPath emscriptenErrno sampleFS ("g" :: ["x"]) ⟨0, []⟩ none ∧
      getParsedPath emscriptenErrno sampleFS ("g" :: ["x"]) ⟨0, []⟩ none =
        getParsedPath emscriptenErrno { sampleFS with rootDirectory := 2, root_isDirectory := rfl }
          ("/" :: "g" :: ["x"]) ⟨0, []⟩ none ∧
      ∀ v b e, v.drop b = "g" :: ["x"] →
        getDir emscriptenErrno { sampleFS with rootDirectory := 1, root_isDirectory := rfl }
            v b e ⟨0, []⟩ none =
          getDir emscriptenErrno sampleFS v b e ⟨0, []⟩ none ∧
        (b ≤ e → getDir emscriptenErrno sampleFS v b e ⟨0, []⟩ none =
          getDir emscriptenErrno { sampleFS with rootDirectory := 2, root_isDirectory := rfl }
            ("/" :: "g" :: ["x"]) 0 (e - b + 1) ⟨0, []⟩ none) :=
  relative_path_ignores_root emscriptenErrno sampleFS
    { sampleFS with rootDirectory := 1, root_isDirectory := rfl }
    { sampleFS with rootDirectory := 2, root_isDirectory := rfl } "g" ["x"] ⟨0, []⟩ none
    rfl rfl (by decide) rfl rfl

theorem getParsedPathLoop_outcome (E : Errno) (fs : WasmFS) (forb : Option Handle) :
    ∀ (rest : List String) (d : Handle) (name : String) (st : CallState),
      ((∃ p, (getParsedPathLoop E fs forb d name rest st).1.parent = some p) ∧
          (getParsedPathLoop E fs forb d name rest st).2.err = st.err) ∨
        ((getParsedPathLoop E fs forb d name rest st).1 = ⟨none, none⟩ ∧
          ((getParsedPathLoop E fs forb d name rest st).2.err = -E.ENOENT ∨
            (getParsedPathLoop E fs forb d name rest st).2.err = -E.ENOTDIR ∨
            (getParsedPathLoop E fs forb d name rest st).2.err = -E.EINVAL)) := by
  intro rest
  induction rest with
  | nil => intro d name st; left; simp [getParsedPathLoop]
  | cons next rest ih =>
    intro d name st
    simp only [getParsedPathLoop]
    split
    · right; simp
    · split
      · right; simp
      · split
        · right; simp
        · rename_i dir _
          have := ih dir next (st.record (lockedLookup d name))
          simpa using this

theorem getDirLoop_outcome (E : Errno) (fs : WasmFS) (forb : Option Handle) (e : Nat) :
    ∀ (rest : List String) (it : Nat) (d : Handle) (st : CallState)
      (res : Option Handle) (st' : CallState),
      getDirLoop E fs forb e rest it d st = some (res, st') →
      ((∃ D, res = some D) ∧ st'.err = st.err) ∨
        (res = none ∧ (st'.err = -E.ENOENT ∨ st'.err = -E.ENOTDIR ∨ st'.err = -E.EINVAL)) := by
  intro rest
  induction rest with
  | nil =>
    intro it d st res st' h
    rw [getDirLoop] at h
    split at h
    · split at h
      · simp only [Option.some.injEq, Prod.mk.injEq] at h
        right; simp [← h.1, ← h.2]
      · simp only [Option.some.injEq, Prod.mk.injEq] at h
        left; simp [← h.1, ← h.2]
    · split at h
      · simp only [Option.some.injEq, Prod.mk.injEq] at h
        right; simp [← h.1, ← h.2]
      · simp at h
  | cons name rest ih =>
    intro it d st res st' h
    rw [getDirLoop] at h
    split at h
    · split at h
      · simp only [Option.some.injEq, Prod.mk.injEq] at h
        right; simp [← h.1, ← h.2]
      · simp only [Option.some.injEq, Prod.mk.injEq] at h
        left; simp [← h.1, ← h.2]
    · split at h
      · simp only [Option.some.injEq, Prod.mk.injEq] at h
        right; simp [← h.1, ← h.2]
      · simp only at h
        split at h
        · simp only [Option.some.injEq, Prod.mk.injEq] at h
          right; simp [← h.1, ← h.2]
        · split at h
          · simp only [Option.some.injEq, Prod.mk.injEq] at h
            right; simp [← h.1, ← h.2]
          · have := ih _ _ _ res st' h
            simpa using this

theorem getDirLoop_returns (E : Errno) (fs : WasmFS) (forb : Option Handle) (e : Nat) :
    ∀ (segs tl : List String) (it : Nat) (d : Handle) (st : CallState),
      it + segs.length = e → ∃ r, getDirLoop E fs forb e (segs ++ tl) it d st = some r := by
  intro segs
  induction segs with
  | nil =>
    intro tl it d st hlen
    simp only [List.length_nil, Nat.add_zero] at hlen
    rw [getDirLoop]
    simp only [hlen, if_true]
    split <;> exact ⟨_, rfl⟩
  | cons s segs ih =>
    intro tl it d st hlen
    simp only [List.length_cons] at hlen
    have hit : it ≠ e := by omega
    rw [List.cons_append, getDirLoop]
    simp only [hit, if_false]
    split
    · exact ⟨_, rfl⟩
    · split
      · exact ⟨_, rfl⟩
      · split
        · exact ⟨_, rfl⟩
        · exact ih tl (it + 1) _ _ (by omega)

/-- C10: every failure of `getParsedPath` or `getDir` is returned.  A call of
`getParsedPath` either succeeds, with a parent lock and `err` as it was, or
returns the empty `ParsedPath` (no parent lock, null child) with `err` set to
one of `-ENOENT`, `-ENOTDIR`, `-EINVAL`, the three POSIX codes in the negated
form in which the code stores them.  A call of `getDir` that returns either
yields a directory with `err` as it was, or the null pointer with `err` set
to one of the same three values; and on every non-empty range of the vector
it does return. -/
theorem failures_are_returned (E : Errno) (fs : WasmFS) :
    (∀ pathParts st forb,
      ((∃ p, (getParsedPath E fs pathParts st forb).1.parent = some p) ∧
          (getParsedPath E fs pathParts st forb).2.err = st.err) ∨
        ((getParsedPath E fs pathParts st forb).1 = ⟨none, none⟩ ∧
          ((getParsedPath E fs pathParts st forb).2.err = -E.ENOENT ∨
            (getParsedPath E fs pathParts st forb).2.err = -E.ENOTDIR ∨
            (getParsedPath E fs pathParts st forb).2.err = -E.EINVAL))) ∧
      (∀ v b e st forb res st', getDir E fs v b e st forb = some (res, st') →
        ((∃ D, res = some D) ∧ st'.err = st.err) ∨
          (res = none ∧
            (st'.err = -E.ENOENT ∨ st'.err = -E.ENOTDIR ∨ st'.err = -E.EINVAL))) ∧
      (∀ v b e st forb, b < e → e ≤ v.length → ∃ r, getDir E fs v b e st forb = some r) := by
  refine ⟨?_, ?_, ?_⟩
  · intro pathParts st forb
    cases pathParts with
    | nil => right; simp [getParsedPath]
    | cons first rest =>
      by_cases hm : first = "/"
      · subst hm
        cases rest with
        | nil => left; simp [getParsedPath]
        | cons name rest =>
          simpa [getParsedPath] using getParsedPathLoop_outcome E fs forb rest _ name st
      · simpa [getParsedPath, hm] using getParsedPathLoop_outcome E fs forb rest _ first st
  · intro v b e st forb res st' h
    unfold getDir at h
    split at h
    · simp at h
    · split at h
      · exact getDirLoop_outcome E fs forb e _ _ _ st res st' h
      · exact getDirLoop_outcome E fs forb e _ _ _ st res st' h
  · intro v b e st forb hb he
    rw [getDir_eq_loop E fs v b e st forb hb he]
    exact getDirLoop_returns E fs forb e _ _ _ _ st
      (segments_length_le v b e (Nat.le_of_lt hb) he)

/-- Instance of C10 on the sample tree: `getDir` returns on the range
`/a/x`. -/
theorem failures_are_returned_witness :
    ∃ r, getDir emscriptenErrno sampleFS ["/", "a", "x"] 0 3 ⟨0, []⟩ none = some r :=
  (failures_are_returned emscriptenErrno sampleFS).2.2 ["/", "a", "x"] 0 3 ⟨0, []⟩ none
    (by decide) (by decide)

/-! ## Properties of `splitPath` -/

theorem runs_nil : runs [] = [] := by
  simp [runs, List.splitOn, List.splitOnP_nil]

theorem runs_sep (s : List Char) : runs ('/' :: s) = runs s := by
  simp [runs, List.splitOn, List.splitOnP_cons]

theorem runs_dropWhile (P : Char → Bool) (hP : ∀ c, P c = true ↔ c = '/') (s : List Char) :
    runs (s.dropWhile P) = runs s := by
  induction s with
  | nil => rfl
  | cons c s ih =>
    rw [List.dropWhile_cons]
    by_cases hc : c = '/'
    · subst hc
      rw [if_pos ((hP _).2 rfl), ih, runs_sep]
    · rw [if_neg (fun h => hc ((hP _).1 h))]

theorem dropWhile_head_false (P : Char → Bool) :
    ∀ (s : List Char) (c : Char) (cs : List Char), s.dropWhile P = c :: cs → P c = false := by
  intro s
  induction s with
  | nil => intro c cs h; simp at h
  | cons x xs ih =>
    intro c cs h
    rw [List.dropWhile_cons] at h
    by_cases hx : P x = true
    · rw [if_pos hx] at h
      exact ih c cs h
    · rw [if_neg hx] at h
      simp only [List.cons.injEq] at h
      rw [← h.1]
      simpa using hx

theorem runs_token (N : Char → Bool) (hN : ∀ c, N c = true ↔ c ≠ '/') (c : Char)
    (cs : List Char) (hc : c ≠ '/') :
    runs (c :: cs) =
      (c :: cs).takeWhile N ::
        (match (c :: cs).dropWhile N with
         | [] => []
         | _ :: q => runs q) := by
  have htd := List.takeWhile_append_dropWhile N (c :: cs)
  have hno : ∀ x ∈ (c :: cs).takeWhile N, ¬ ((x == '/') = true) := by
    intro x hx
    have := (hN x).1 (List.mem_takeWhile_imp hx)
    simpa using this
  have hne : (c :: cs).takeWhile N ≠ [] := by
    rw [List.takeWhile_cons, if_pos ((hN c).2 hc)]
    exact List.cons_ne_nil _ _
  cases hd : (c :: cs).dropWhile N with
  | nil =>
    rw [hd, List.append_nil] at htd
    rw [htd] at hno hne
    simp only [htd]
    simp [runs, List.splitOn, List.splitOnP_eq_single _ _ hno]
  | cons a q =>
    have ha : a = '/' := by
      have h1 := dropWhile_head_false N (c :: cs) a q hd
      by_contra hne'
      rw [(hN a).2 hne'] at h1
      exact absurd h1 (by decide)
    subst ha
    rw [hd] at htd
    conv_lhs => rw [← htd]
    simp only [runs, List.splitOn]
    rw [List.splitOnP_first _ _ hno '/' (by simp)]
    simp [List.filter_cons, hne]

theorem length_dropWhile_le (P : Char → Bool) (s : List Char) :
    (s.dropWhile P).length ≤ s.length :=
  (List.dropWhile_suffix P).length_le

theorem strtok_none_left (sep : List Char) (s : List Char)
    (h : s.dropWhile (fun c => decide (c ∈ sep)) = []) :
    strtok none sep (some s) = (none, none) := by
  simp only [strtok, h]

theorem strtok_last (sep : List Char) (s : List Char) (c : Char) (cs : List Char)
    (h : s.dropWhile (fun c => decide (c ∈ sep)) = c :: cs)
    (hd : (c :: cs).dropWhile (fun c => !decide (c ∈ sep)) = []) :
    strtok none sep (some s) =
      (some ((c :: cs).takeWhile (fun c => !decide (c ∈ sep))), none) := by
  simp only [strtok, h, hd]

theorem strtok_more (sep : List Char) (s : List Char) (c : Char) (cs : List Char)
    (a : Char) (q : List Char)
    (h : s.dropWhile (fun c => decide (c ∈ sep)) = c :: cs)
    (hd : (c :: cs).dropWhile (fun c => !decide (c ∈ sep)) = a :: q) :
    strtok none sep (some s) =
      (some ((c :: cs).takeWhile (fun c => !decide (c ∈ sep))), some q) := by
  simp only [strtok, h, hd]

/-- The loop of `splitPath`, started on the token that `strtok` finds in `s`,
appends the runs of `s`, provided its bound exceeds the length of `s`. -/
theorem splitPathLoop_eq :
    ∀ (fuel : Nat) (s : List Char) (acc : List String), s.length < fuel →
      splitPathLoop fuel (strtok none ['/'] (some s)).1 (strtok none ['/'] (some s)).2 acc =
        acc ++ (runs s).map String.mk := by
  have hP : ∀ c : Char, decide (c ∈ ['/']) = true ↔ c = '/' := by simp
  have hN : ∀ c : Char, (!decide (c ∈ ['/'])) = true ↔ c ≠ '/' := by simp
  intro fuel
  induction fuel with
  | zero => intro s acc h; exact absurd h (Nat.not_lt_zero _)
  | succ fuel ih =>
    intro s acc hlen
    have h1 := length_dropWhile_le (fun c => decide (c ∈ ['/'])) s
    rw [← runs_dropWhile _ hP s]
    cases hs : s.dropWhile (fun c => decide (c ∈ ['/'])) with
    | nil =>
      rw [strtok_none_left _ s hs, runs_nil]
      simp [splitPathLoop]
    | cons c cs =>
      rw [hs] at h1
      have hc : c ≠ '/' := by
        have h2 := dropWhile_head_false _ s c cs hs
        intro hc
        rw [(hP c).2 hc] at h2
        exact absurd h2 (by decide)
      rw [runs_token _ hN c cs hc]
      have h3 := length_dropWhile_le (fun c => !decide (c ∈ ['/'])) (c :: cs)
      cases hd : (c :: cs).dropWhile (fun c => !decide (c ∈ ['/'])) with
      | nil =>
        rw [strtok_last _ s c cs hs hd]
        cases fuel with
        | zero => simp [splitPathLoop]
        | succ fuel => simp [splitPathLoop, strtok]
      | cons a q =>
        rw [hd] at h3
        simp only [List.length_cons] at h1 h3
        rw [strtok_more _ s c cs a q hs hd]
        simp only [splitPathLoop]
        rw [ih q _ (by omega)]
        simp

/-- The function `splitPath` computes the result the specification gives. -/
theorem splitPath_eq (p : String) : splitPath p = splitPathSpec p := by
  have h : strtok (some p.data) ['/'] none = strtok none ['/'] (some p.data) := rfl
  simp only [splitPath, splitPathSpec]
  rw [h, splitPathLoop_eq _ p.data _ (Nat.lt_succ_self _)]

theorem runs_separators : ∀ s : List Char, (∀ c ∈ s, c = '/') → runs s = [] := by
  intro s
  induction s with
  | nil => intro _; exact runs_nil
  | cons c s ih =>
    intro h
    have hc : c = '/' := h c (List.mem_cons_self _ _)
    subst hc
    rw [runs_sep]
    exact ih (fun x hx => h x (List.mem_cons_of_mem _ hx))

theorem splitOnP_no_separator (P : Char → Bool) :
    ∀ (l : List Char), ∀ r ∈ l.splitOnP P, ∀ x ∈ r, P x = false := by
  intro l
  induction l with
  | nil =>
    intro r hr x hx
    rw [List.splitOnP_nil, List.mem_singleton] at hr
    subst hr
    cases hx
  | cons a l ih =>
    intro r hr x hx
    rw [List.splitOnP_cons] at hr
    by_cases ha : P a = true
    · rw [if_pos ha, List.mem_cons] at hr
      rcases hr with hr | hr
      · subst hr; cases hx
      · exact ih r hr x hx
    · rw [if_neg ha] at hr
      cases hsp : l.splitOnP P with
      | nil => rw [hsp] at hr; simp at hr
      | cons h t =>
        rw [hsp] at hr ih
        simp only [List.modifyHead_cons, List.mem_cons] at hr
        rcases hr with hr | hr
        · subst hr
          rcases List.mem_cons.1 hx with hx | hx
          · subst hx; simpa using ha
          · exact ih h (List.mem_cons_self _ _) x hx
        · exact ih r (List.mem_cons_of_mem _ hr) x hx

theorem runs_wellFormed (s r : List Char) (hr : r ∈ runs s) : r ≠ [] ∧ '/' ∉ r := by
  simp only [runs, List.mem_filter, decide_eq_true_eq] at hr
  refine ⟨hr.2, fun hmem => ?_⟩
  have := splitOnP_no_separator (· == '/') s r hr.1 '/' hmem
  simp at this

namespace Concurrent

section Strtok

theorem strtok_getD (sep : List Char) (p : Option (List Char)) :
    strtok none sep p = strtok none sep (some (p.getD [])) := by
  cases p <;> rfl

/-- What a call `strtok(NULL, "/")` finds at the saved position `str`: nothing
when `str` has no run, and otherwise the first run, leaving the saved
position before the remaining runs. -/
theorem strtok_runs (str : List Char) :
    ((strtok none ['/'] (some str)).1 = none ∧ runs str = []) ∨
      ∃ tok, (strtok none ['/'] (some str)).1 = some tok ∧
        runs str = tok :: runs ((strtok none ['/'] (some str)).2.getD []) ∧
        tok ≠ [] ∧ '/' ∉ tok ∧
        ((strtok none ['/'] (some str)).2.getD []).length < str.length := by
  have hP : ∀ c : Char, decide (c ∈ ['/']) = true ↔ c = '/' := by simp
  have hN : ∀ c : Char, (!decide (c ∈ ['/'])) = true ↔ c ≠ '/' := by simp
  have h1 := length_dropWhile_le (fun c => decide (c ∈ ['/'])) str
  have hruns := runs_dropWhile _ hP str
  cases hs : str.dropWhile (fun c => decide (c ∈ ['/'])) with
  | nil =>
    left
    rw [hs, runs_nil] at hruns
    rw [strtok_none_left _ str hs]
    exact ⟨rfl, hruns.symm⟩
  | cons c cs =>
    right
    rw [hs] at h1 hruns
    have hc : c ≠ '/' := by
      have h2 := dropWhile_head_false _ str c cs hs
      intro hc
      rw [(hP c).2 hc] at h2
      exact absurd h2 (by decide)
    have htok := runs_token _ hN c cs hc
    have hwf : (c :: cs).takeWhile (fun c => !decide (c ∈ ['/'])) ≠ [] ∧
        '/' ∉ (c :: cs).takeWhile (fun c => !decide (c ∈ ['/'])) :=
      runs_wellFormed str _ (by rw [← hruns, htok]; exact List.mem_cons_self _ _)
    have h3 := length_dropWhile_le (fun c => !decide (c ∈ ['/'])) (c :: cs)
    simp only [List.length_cons] at h1
    cases hd : (c :: cs).dropWhile (fun c => !decide (c ∈ ['/'])) with
    | nil =>
      rw [hd] at htok
      rw [strtok_last _ str c cs hs hd]
      refine ⟨_, rfl, ?_, hwf.1, hwf.2, ?_⟩
      · rw [← hruns, htok]
        simp [runs_nil]
      · simp only [Option.getD_none, List.length_nil]
        omega
    | cons a q =>
      rw [hd] at htok h3
      simp only [List.length_cons] at h3
      rw [strtok_more _ str c cs a q hs hd]
      refine ⟨_, rfl, ?_, hwf.1, hwf.2, ?_⟩
      · rw [← hruns, htok]
        rfl
      · simp only [Option.getD_some]
        omega

end Strtok

section Undisturbed

variable {n : Nat}

theorem live_own {s : Threads n} {t : Fin n} (h : (s.pcs t).inCall = true) :
    s.live ⟨t, s.calls t⟩ = true := by
  simp [Threads.live, h]

theorem onTrack_congr {s s' : Threads n} {t : Fin n} {p : String}
    (hpc : s'.pcs t = s.pcs t) (hc : s'.calls t = s.calls t) (hs : s'.saved = s.saved)
    (hi : s'.savedIn = s.savedIn) (h : OnTrack s t p) : OnTrack s' t p := by
  unfold OnTrack at h ⊢
  rw [hpc, hc, hs, hi]
  exact h

/-- The call of `splitPath(p)` puts the thread on track. -/
theorem onTrack_call (s : Threads n) (t : Fin n) (p : String) (r : Option Frame)
    (hpc : s.pcs t = .outside r) :
    ∃ s', step (.call t p) s = .ok s' ∧ OnTrack s' t p ∧ (s'.pcs t).inCall = true ∧
      ∀ u, u ≠ t → s'.pcs u = s.pcs u := by
  refine ⟨{ s with
      pcs := Function.update s.pcs t
        (.first ⟨p, if p.data.head? = some '/' then ["/"] else []⟩),
      calls := Function.update s.calls t (s.calls t + 1) }, by simp only [step, hpc], ?_, ?_, ?_⟩
  · simp [OnTrack, splitPathSpec]
  · simp [Pc.inCall]
  · intro u hu
    simp [Function.update_noteq hu]

/-- What the position after `strtok` is, on track, when `strtok` went on from
the position `str` in the thread's own array. -/
theorem onTrack_afterStrtok (s' : Threads n) (t : Fin n) (p : String) (f : Frame)
    (str : List Char) (hf : f.pathname = p)
    (hsum : f.pathParts ++ (runs str).map String.mk = splitPathSpec p)
    (hpc : s'.pcs t = afterStrtok f ⟨t, s'.calls t⟩ (strtok none ['/'] (some str)).1)
    (hs : s'.saved = (strtok none ['/'] (some str)).2)
    (hi : s'.savedIn = some ⟨t, s'.calls t⟩) :
    OnTrack s' t p ∧ remaining s' t < 2 * str.length + 2 := by
  rcases strtok_runs str with ⟨h1, h2⟩ | ⟨tok, h1, h2, _, _, h5⟩
  · rw [h1] at hpc
    rw [h2] at hsum
    constructor
    · unfold OnTrack
      rw [hpc]
      exact ⟨hf, by simpa using hsum⟩
    · unfold remaining
      rw [hpc]
      simp only [afterStrtok]
      omega
  · rw [h1] at hpc
    rw [h2] at hsum
    constructor
    · unfold OnTrack
      rw [hpc]
      simp only [afterStrtok]
      refine ⟨hf, trivial, hi, ?_⟩
      rw [hs]
      simpa using hsum
    · unfold remaining
      rw [hpc]
      simp only [afterStrtok]
      rw [hs]
      omega

/-- A thread on track executes its next statement, stays on track, and has
less left to do. -/
theorem onTrack_step {s : Threads n} {t : Fin n} {p : String} (h : OnTrack s t p)
    (hin : (s.pcs t).inCall = true) :
    ∃ s', step (.step t) s = .ok s' ∧ OnTrack s' t p ∧ remaining s' t < remaining s t ∧
      ∀ u, u ≠ t → s'.pcs u = s.pcs u := by
  have hothers : ∀ (pc : Pc n) (u : Fin n), u ≠ t → Function.update s.pcs t pc u = s.pcs u :=
    fun pc u hu => Function.update_noteq hu _ _
  cases hpc : s.pcs t with
  | outside r => rw [hpc] at hin; cases hin
  | first f =>
    unfold OnTrack at h
    rw [hpc] at h
    simp only at h
    obtain ⟨h1, h2⟩ :=
      onTrack_afterStrtok
        { s with
          saved := (strtok (some f.pathname.data) ['/'] s.saved).2,
          savedIn := some ⟨t, s.calls t⟩,
          pcs := Function.update s.pcs t
            (afterStrtok f ⟨t, s.calls t⟩ (strtok (some f.pathname.data) ['/'] s.saved).1) }
        t p f f.pathname.data h.1 (by rw [h.1]; exact h.2) (by simp; rfl) rfl rfl
    refine ⟨_, by simp only [step, hpc], h1, ?_, fun u hu => hothers _ u hu⟩
    have : remaining s t = 2 * f.pathname.data.length + 2 := by
      unfold remaining; rw [hpc]
    rw [this]
    exact h2
  | push f a current =>
    unfold OnTrack at h
    rw [hpc] at h
    simp only at h
    obtain ⟨hf, ha, hi, hsum⟩ := h
    have hlive : s.live a = true := by rw [ha]; exact live_own hin
    refine ⟨{ s with pcs := (Function.update s.pcs t
        (.next ⟨f.pathname, f.pathParts ++ [String.mk current]⟩)) },
      by simp only [step, hpc, hlive, if_true], ?_, ?_, fun u hu => hothers _ u hu⟩
    · unfold OnTrack
      simp only [Function.update_same]
      refine ⟨hf, hi, ?_⟩
      rw [← hsum]
      simp
    · unfold remaining
      rw [hpc]
      simp only [Function.update_same]
      omega
  | next f =>
    unfold OnTrack at h
    rw [hpc] at h
    simp only at h
    obtain ⟨hf, hi, hsum⟩ := h
    have hlive : s.live ⟨t, s.calls t⟩ = true := live_own hin
    obtain ⟨h1, h2⟩ :=
      onTrack_afterStrtok
        { s with
          saved := (strtok none ['/'] s.saved).2,
          pcs := Function.update s.pcs t
            (afterStrtok f ⟨t, s.calls t⟩ (strtok none ['/'] s.saved).1) }
        t p f (s.saved.getD []) hf hsum
        (by rw [← strtok_getD]; simp)
        (by rw [← strtok_getD]) hi
    refine ⟨_, by simp only [step, hpc, hi, hlive, if_true], h1, ?_,
      fun u hu => hothers _ u hu⟩
    have : remaining s t = 2 * (s.saved.getD []).length + 2 := by
      unfold remaining; rw [hpc]
    rw [this]
    exact h2
  | ret f =>
    unfold OnTrack at h
    rw [hpc] at h
    simp only at h
    refine ⟨{ s with pcs := Function.update s.pcs t (.outside (some f)) },
      by simp only [step, hpc], ?_, ?_, fun u hu => hothers _ u hu⟩
    · unfold OnTrack
      simp only [Function.update_same]
      obtain ⟨h1, h2⟩ := h
      cases f
      simp only at h1 h2
      rw [h1, h2]
    · unfold remaining
      rw [hpc]
      simp only [Function.update_same]
      omega

theorem run_append {s : Threads n} (as bs : List (Action n)) (s' : Threads n)
    (h : run as s = .ok s') : run (as ++ bs) s = run bs s' := by
  induction as generalizing s with
  | nil =>
    simp only [run, Outcome.ok.injEq] at h
    rw [h]
    rfl
  | cons a as ih =>
    simp only [List.cons_append, run] at h ⊢
    cases hst : step a s with
    | ok s1 =>
      rw [hst] at h
      simp only at h ⊢
      exact ih h
    | undefined => rw [hst] at h; cases h
    | disabled => rw [hst] at h; cases h

/-- A thread on track that runs alone finishes its call, with the result the
specification gives. -/
theorem onTrack_finishes {s : Threads n} {t : Fin n} {p : String} (h : OnTrack s t p) :
    ∃ k s', run (List.replicate k (.step t)) s = .ok s' ∧
      s'.pcs t = .outside (some ⟨p, splitPathSpec p⟩) ∧ ∀ u, u ≠ t → s'.pcs u = s.pcs u := by
  generalize hm : remaining s t = m
  induction m using Nat.strong_induction_on generalizing s with
  | _ m ih =>
    cases hin : (s.pcs t).inCall with
    | false =>
      refine ⟨0, s, rfl, ?_, fun _ _ => rfl⟩
      unfold OnTrack at h
      cases hpc : s.pcs t with
      | outside r => rw [hpc] at h; simp only at h; rw [h]
      | first f => rw [hpc] at hin; cases hin
      | push f a c => rw [hpc] at hin; cases hin
      | next f => rw [hpc] at hin; cases hin
      | ret f => rw [hpc] at hin; cases hin
    | true =>
      obtain ⟨s1, hst, h1, hlt, ho⟩ := onTrack_step h hin
      obtain ⟨k, s', hrun, hres, ho'⟩ := ih (remaining s1 t) (by rw [← hm]; exact hlt) h1 rfl
      refine ⟨k + 1, s', ?_, hres, fun u hu => (ho' u hu).trans (ho u hu)⟩
      simp only [List.replicate_succ, run, hst]
      exact hrun

/-- A thread on track stays on track through every schedule in which it makes
no further call and no other thread calls `strtok`. -/
theorem onTrack_run {t : Fin n} {p : String} :
    ∀ (sched : List (Action n)) (s s' : Threads n), OnTrack s t p →
      undisturbed t sched s = true → run sched s = .ok s' → OnTrack s' t p := by
  intro sched
  induction sched with
  | nil =>
    intro s s' h _ hr
    simp only [run, Outcome.ok.injEq] at hr
    rw [← hr]
    exact h
  | cons a as ih =>
    intro s s' h hu hr
    simp only [run] at hr
    simp only [undisturbed, Bool.and_eq_true] at hu
    cases hst : step a s with
    | undefined => rw [hst] at hr; cases hr
    | disabled => rw [hst] at hr; cases hr
    | ok s1 =>
      rw [hst] at hr hu
      simp only at hr hu
      refine ih s1 s' ?_ hu.2 hr
      cases a with
      | call u q =>
        have hut : u ≠ t := by simpa using hu.1
        simp only [step] at hst
        split at hst <;> cases hst
        exact onTrack_congr (s := s) (by simp [Function.update_noteq hut.symm])
          (by simp [Function.update_noteq hut.symm]) rfl rfl h
      | step u =>
        by_cases hut : u = t
        · subst hut
          cases hin : (s.pcs u).inCall with
          | false =>
            exfalso
            cases hpc : s.pcs u with
            | outside r => simp [step, hpc] at hst
            | first f => rw [hpc] at hin; cases hin
            | push f a c => rw [hpc] at hin; cases hin
            | next f => rw [hpc] at hin; cases hin
            | ret f => rw [hpc] at hin; cases hin
          | true =>
            obtain ⟨s2, hst2, h2, _, _⟩ := onTrack_step h hin
            rw [hst2] at hst
            cases hst
            exact h2
        · have hq : (s.pcs u).atStrtok = false := by
            have := hu.1
            simpa [hut] using this
          have hne : t ≠ u := fun h0 => hut h0.symm
          cases hpc : s.pcs u with
          | outside r => simp [step, hpc] at hst
          | first f => rw [hpc] at hq; cases hq
          | next f => rw [hpc] at hq; cases hq
          | push f a c =>
            simp only [step, hpc] at hst
            split at hst <;> cases hst
            exact onTrack_congr (s := s) (by simp [Function.update_noteq hne]) rfl rfl rfl h
          | ret f =>
            simp only [step, hpc] at hst
            cases hst
            exact onTrack_congr (s := s) (by simp [Function.update_noteq hne]) rfl rfl rfl h

end Undisturbed

section WellFormedness

variable {n : Nat}

end WellFormedness

section Claims

/-- Counterexample to C6 as stated: two threads call `splitPath("a/b")` and
`splitPath("c/d")`, and the second calls `strtok` between the first two calls
of `strtok` of the first.  Every statement reads live arrays only, the first
call returns `["a", "d"]` and the second `["c"]`, where the claim gives
`["a", "b"]` and `["c", "d"]`. -/
theorem splitPath_interleaved :
    (run sampleInterleaved (Threads.initial 2)).state?.map (fun s => (s.pcs 0, s.pcs 1)) =
        some (.outside (some ⟨"a/b", ["a", "d"]⟩), .outside (some ⟨"c/d", ["c"]⟩)) ∧
      splitPathSpec "a/b" = ["a", "b"] ∧ splitPathSpec "c/d" = ["c", "d"] := by
  decide

/-- C6, amended: for every input string `p`, a call `splitPath(p)` during
which no other thread calls `strtok` returns the marker `"/"` if and only if
`p` begins with `'/'`, followed by the maximal non-empty runs of characters
other than `'/'` of `p` in left-to-right order; `.` and `..` are ordinary
segments and consecutive or trailing separators produce nothing.  From every
state of the threads and of the static of `strtok`, the call can be made, it
returns that list when the thread runs alone, and it returns no other list in
any schedule in which the other threads do not call `strtok` meanwhile.  In
particular, in a single thread, `/a/b/c` gives `["/", "a", "b", "c"]`, `a/b`
gives `["a", "b"]` and `/a//b/` gives `["/", "a", "b"]`. -/
theorem splitPath_eq_spec :
    (∀ (n : Nat) (s : Threads n) (t : Fin n) (p : String) (r : Option Frame),
        s.pcs t = .outside r →
        ∃ s0, step (.call t p) s = .ok s0 ∧
          (∃ k s', run (List.replicate k (.step t)) s0 = .ok s' ∧
            s'.pcs t = .outside (some ⟨p, splitPathSpec p⟩) ∧
            ∀ u, u ≠ t → s'.pcs u = s.pcs u) ∧
          ∀ sched s', undisturbed t sched s0 = true → run sched s0 = .ok s' →
            ∀ r', s'.pcs t = .outside r' → r' = some ⟨p, splitPathSpec p⟩) ∧
      (∀ p : String, splitPath p = splitPathSpec p) ∧
      splitPath "/a/b/c" = ["/", "a", "b", "c"] ∧
      splitPath "a/b" = ["a", "b"] ∧
      splitPath "/a//b/" = ["/", "a", "b"] ∧
      splitPath "/./a/../b" = ["/", ".", "a", "..", "b"] := by
  refine ⟨?_, splitPath_eq, by decide, by decide, by decide, by decide⟩
  intro n s t p r hpc
  obtain ⟨s0, hst, h0, _, ho⟩ := onTrack_call s t p r hpc
  refine ⟨s0, hst, ?_, ?_⟩
  · obtain ⟨k, s', hrun, hres, ho'⟩ := onTrack_finishes h0
    exact ⟨k, s', hrun, hres, fun u hu => (ho' u hu).trans (ho u hu)⟩
  · intro sched s' hu hrun r' hr'
    have h' := onTrack_run sched s0 s' h0 hu hrun
    unfold OnTrack at h'
    rw [hr'] at h'
    exact h'

end Claims

end Concurrent

/-- Counterexample to C11 as stated: the inputs `/` and `///` consist only of
separators; `splitPath` gives `["/"]` for them, and `getParsedPath` resolves
that list to the root instead of failing with `ENOENT`. -/
theorem separators_only_resolves_root :
    splitPath "/" = ["/"] ∧ splitPath "///" = ["/"] ∧
      getParsedPath emscriptenErrno sampleFS (splitPath "///") ⟨0, []⟩ none =
        (⟨some sampleFS.rootDirectory, some sampleFS.rootDirectory⟩,
          ⟨0, [.acquire sampleFS.rootDirectory]⟩) ∧
      (getParsedPath emscriptenErrno sampleFS (splitPath "///") ⟨0, []⟩ none).2.err
        ≠ -emscriptenErrno.ENOENT := by
  decide

/-- C11, amended: `splitPath ""` is the empty list, and `getParsedPath` of the
empty list fails with `ENOENT` without taking a lock or making a lookup (the
event log is unchanged).  For a non-empty input that consists only of `'/'`
separators `splitPath` yields `["/"]`, which `getParsedPath` resolves to the
root as parent and child. -/
theorem degenerate_paths (E : Errno) (fs : WasmFS) (st : CallState) (forb : Option Handle) :
    splitPath "" = [] ∧
      getParsedPath E fs (splitPath "") st forb = (⟨none, none⟩, st.setErr (-E.ENOENT)) ∧
      (getParsedPath E fs (splitPath "") st forb).2.events = st.events ∧
      ∀ p : String, p.data ≠ [] → (∀ c ∈ p.data, c = '/') →
        splitPath p = ["/"] ∧
        getParsedPath E fs (splitPath p) st forb =
          (⟨some fs.rootDirectory, some fs.rootDirectory⟩,
            st.record [.acquire fs.rootDirectory]) := by
  have h0 : splitPath "" = [] := by decide
  refine ⟨h0, ?_, ?_, ?_⟩
  · rw [h0]; rfl
  · rw [h0]; rfl
  · intro p hne hall
    have hsp : splitPath p = ["/"] := by
      rw [splitPath_eq, splitPathSpec, runs_separators _ hall]
      cases hd : p.data with
      | nil => exact absurd hd hne
      | cons c cs =>
        have hc : c = '/' := hall c (by rw [hd]; exact List.mem_cons_self _ _)
        subst hc
        simp
    refine ⟨hsp, ?_⟩
    rw [hsp]
    simp [getParsedPath]

/-- Instance of the amended C11: the input `//`. -/
theorem degenerate_paths_witness :
    splitPath "//" = ["/"] ∧
      getParsedPath emscriptenErrno sampleFS (splitPath "//") ⟨0, []⟩ none =
        (⟨some sampleFS.rootDirectory, some sampleFS.rootDirectory⟩,
          (⟨0, []⟩ : CallState).record [.acquire sampleFS.rootDirectory]) :=
  (degenerate_paths emscriptenErrno sampleFS ⟨0, []⟩ none).2.2.2 "//" (by decide) (by decide)

/-! ## Agreement of the two walks, order of the checks, and `err` on success -/

/-- On the segments before the last one, the loop of `getDir` and the loop of
`getParsedPath` reach the same directory or fail with the same code. -/
theorem getDirLoop_agrees (E : Errno) (fs : WasmFS) (forb : Option Handle) (e : Nat) :
    ∀ (pre : List String) (last p : String) (r tl : List String) (d : Handle) (it : Nat)
      (st : CallState),
      p :: r = pre ++ [last] → it + pre.length = e → (fs.files d).isDirectory = true →
      ∃ st', getDirLoop E fs forb e (pre ++ tl) it d st =
          some ((getParsedPathLoop E fs forb d p r st).1.parent, st') ∧
        st'.err = (getParsedPathLoop E fs forb d p r st).2.err := by
  intro pre
  induction pre with
  | nil =>
    intro last p r tl d it st hpr hlen hdir
    simp only [List.nil_append, List.cons.injEq] at hpr
    obtain ⟨rfl, rfl⟩ := hpr
    simp only [List.length_nil, Nat.add_zero] at hlen
    refine ⟨st, ?_, ?_⟩
    · rw [getDirLoop]
      simp [hlen, dynCastDirectory_of_isDirectory hdir, getParsedPathLoop]
    · simp [getParsedPathLoop]
  | cons s pre ih =>
    intro last p r tl d it st hpr hlen hdir
    simp only [List.cons_append, List.cons.injEq] at hpr
    obtain ⟨rfl, rfl⟩ := hpr
    simp only [List.length_cons] at hlen
    have hit : it ≠ e := by omega
    obtain ⟨n, r', hr⟩ : ∃ n r', n :: r' = pre ++ [last] := by
      cases pre with
      | nil => exact ⟨last, [], rfl⟩
      | cons a pre => exact ⟨a, pre ++ [last], rfl⟩
    rw [← hr, List.cons_append, getDirLoop]
    simp only [hit, if_false, dynCastDirectory_of_isDirectory hdir, getParsedPathLoop]
    split
    · exact ⟨_, rfl, rfl⟩
    · cases hent : getEntry fs d p with
      | none => exact ⟨_, rfl, rfl⟩
      | some file =>
        simp only
        by_cases hf : (fs.files file).isDirectory = true
        · simp only [dynCastDirectory_of_isDirectory hf]
          exact ih last n r' tl file (it + 1) _ hr (by omega) hf
        · have hf' : (fs.files file).isDirectory = false := by simpa using hf
          rw [getDirLoop_not_directory E fs forb e _ _ file _ hf']
          simp only [dynCastDirectory_of_not_isDirectory hf']
          exact ⟨_, rfl, rfl⟩

theorem getDir_agrees_aux (E : Errno) (fs : WasmFS) (segs : List String) (st : CallState)
    (forb : Option Handle)
    (h : 2 ≤ segs.length ∨ (segs.length = 1 ∧ segs.head? ≠ some "/")) :
    ∃ st', getDir E fs segs 0 (segs.length - 1) st forb =
        some ((getParsedPath E fs segs st forb).1.parent, st') ∧
      st'.err = (getParsedPath E fs segs st forb).2.err := by
  cases segs with
  | nil => simp at h
  | cons first rest =>
    by_cases hm : first = "/"
    · subst hm
      cases rest with
      | nil => simp at h
      | cons name rest =>
        have hne : name :: rest ≠ [] := List.cons_ne_nil _ _
        have hdec := List.dropLast_append_getLast hne
        have hlen : 1 + (name :: rest).dropLast.length = ("/" :: name :: rest).length - 1 := by
          simp
          omega
        have := getDirLoop_agrees E fs forb _ (name :: rest).dropLast
          ((name :: rest).getLast hne) name rest [(name :: rest).getLast hne] fs.rootDirectory 1 st
          hdec.symm hlen fs.root_isDirectory
        rw [hdec] at this
        simpa [getDir, getParsedPath] using this
    · have hne : first :: rest ≠ [] := List.cons_ne_nil _ _
      have hdec := List.dropLast_append_getLast hne
      have hlen : 0 + (first :: rest).dropLast.length = (first :: rest).length - 1 := by
        simp
      have := getDirLoop_agrees E fs forb _ (first :: rest).dropLast
        ((first :: rest).getLast hne) first rest [(first :: rest).getLast hne] fs.cwd 0 st
        hdec.symm hlen fs.cwd_isDirectory
      rw [hdec] at this
      simpa [getDir, getParsedPath, hm] using this

/-- C18: for every tree, every forbidden ancestor (or none) and every segment
list `segs` of length at least 2, or of length 1 and relative, `getDir` over
`segs` without its last element (the iterators `begin` and `end - 1`) returns
with the parent that `getParsedPath segs` yields and the same `err`: it
returns directory `D` if and only if `getParsedPath segs` succeeds with
parent `D`, and it fails with code `c` if and only if `getParsedPath segs`
fails with code `c`. -/
theorem getDir_agrees_with_getParsedPath (E : Errno) (fs : WasmFS) (segs : List String)
    (st : CallState) (forb : Option Handle)
    (h : 2 ≤ segs.length ∨ (segs.length = 1 ∧ segs.head? ≠ some "/")) :
    (∃ st', getDir E fs segs 0 (segs.length - 1) st forb =
        some ((getParsedPath E fs segs st forb).1.parent, st') ∧
      st'.err = (getParsedPath E fs segs st forb).2.err) ∧
      (∀ D, (∃ st', getDir E fs segs 0 (segs.length - 1) st forb = some (some D, st')) ↔
        (getParsedPath E fs segs st forb).1.parent = some D) ∧
      (∀ c, (∃ st', getDir E fs segs 0 (segs.length - 1) st forb = some (none, st') ∧
          st'.err = c) ↔
        ((getParsedPath E fs segs st forb).1.parent = none ∧
          (getParsedPath E fs segs st forb).2.err = c)) := by
  obtain ⟨st', h1, h2⟩ := getDir_agrees_aux E fs segs st forb h
  refine ⟨⟨st', h1, h2⟩, ?_, ?_⟩
  · intro D
    constructor
    · rintro ⟨st'', h3⟩
      rw [h1] at h3
      simp only [Option.some.injEq, Prod.mk.injEq] at h3
      exact h3.1
    · intro h3
      exact ⟨st', by rw [h1, h3]⟩
  · intro c
    constructor
    · rintro ⟨st'', h3, h4⟩
      rw [h1] at h3
      simp only [Option.some.injEq, Prod.mk.injEq] at h3
      exact ⟨h3.1, by rw [← h2, h3.2, h4]⟩
    · rintro ⟨h3, h4⟩
      exact ⟨st', by rw [h1, h3], by rw [h2, h4]⟩

/-- Instance of C18 on the sample tree: `/a/b/g`. -/
theorem getDir_agrees_with_getParsedPath_witness :
    (∃ st', getDir emscriptenErrno sampleFS ["/", "a", "b", "g"] 0
          (["/", "a", "b", "g"].length - 1) ⟨0, []⟩ none =
        some ((getParsedPath emscriptenErrno sampleFS ["/", "a", "b", "g"]
          ⟨0, []⟩ none).1.parent, st') ∧
      st'.err = (getParsedPath emscriptenErrno sampleFS ["/", "a", "b", "g"]
        ⟨0, []⟩ none).2.err) :=
  (getDir_agrees_with_getParsedPath emscriptenErrno sampleFS ["/", "a", "b", "g"] ⟨0, []⟩ none
    (Or.inl (by decide))).1

/-- C19: in `getParsedPath` the error is decided at the first non-final
segment `s` whose entry is not a usable directory (the walk has reached `d`
through `pre`), with a fixed priority: if a forbidden ancestor is supplied and
is the entry of `s`, the result is `EINVAL`, whatever kind of file the entry
is; otherwise if `s` has no entry the result is `ENOENT`; otherwise if the
entry is not a Directory the result is `ENOTDIR`.  When `s` is the final
segment its entry is returned as the child as it is: it is neither compared
with the forbidden ancestor nor required to be a Directory. -/
theorem getParsedPath_check_priority (E : Errno) (fs : WasmFS) (pathParts pre : List String)
    (s : String) (d : Handle) (st : CallState) (forb : Option Handle)
    (hd : descend fs (startDirectory fs pathParts) pre = some d)
    (hclean : ∀ f, forb = some f → f ∉ chain fs (startDirectory fs pathParts) pre) :
    (∀ post, post ≠ [] → segments pathParts = pre ++ s :: post →
      (∀ f, forb = some f → getEntry fs d s = some f →
        getParsedPath E fs pathParts st forb =
          (⟨none, none⟩, (st.record (walkEvents fs (startDirectory fs pathParts) pre ++
            lockedLookup d s)).setErr (-E.EINVAL))) ∧
      (getEntry fs d s = none →
        getParsedPath E fs pathParts st forb =
          (⟨none, none⟩, (st.record (walkEvents fs (startDirectory fs pathParts) pre ++
            lockedLookup d s)).setErr (-E.ENOENT))) ∧
      (∀ h, getEntry fs d s = some h → forb ≠ some h → (fs.files h).isDirectory = false →
        getParsedPath E fs pathParts st forb =
          (⟨none, none⟩, (st.record (walkEvents fs (startDirectory fs pathParts) pre ++
            lockedLookup d s)).setErr (-E.ENOTDIR)))) ∧
      (segments pathParts = pre ++ [s] →
        getParsedPath E fs pathParts st forb =
          (⟨some d, getEntry fs d s⟩,
            st.record (walkEvents fs (startDirectory fs pathParts) pre ++
              [.acquire d, .getEntry d s]))) := by
  constructor
  · intro post hpost hsegs
    obtain ⟨n, r, hr⟩ : ∃ n r, n :: r = pre ++ s :: post := by
      cases pre with
      | nil => exact ⟨s, post, rfl⟩
      | cons a pre => exact ⟨a, pre ++ s :: post, rfl⟩
    have hloop : getParsedPath E fs pathParts st forb =
        getParsedPathLoop E fs forb d s post
          (st.record (walkEvents fs (startDirectory fs pathParts) pre)) := by
      rw [getParsedPath_eq_loop E fs pathParts st forb n r (hsegs.trans hr.symm),
        getParsedPathLoop_descend E fs forb pre _ d s post n r st hr hd hclean]
    cases post with
    | nil => exact absurd rfl hpost
    | cons a post =>
      refine ⟨?_, ?_, ?_⟩
      · intro f hf hent
        rw [hloop, hf]
        simp [getParsedPathLoop, hent]
      · intro hent
        have hne : ¬ (forb ≠ none ∧ none = forb) := fun h => h.1 h.2.symm
        rw [hloop]
        simp [getParsedPathLoop, hent, hne]
      · intro h hent hforb hreg
        have hne : ¬ (forb ≠ none ∧ some h = forb) := fun hh => hforb hh.2.symm
        rw [hloop]
        simp [getParsedPathLoop, hent, hne, dynCastDirectory_of_not_isDirectory hreg]
  · intro hsegs
    obtain ⟨n, r, hr⟩ : ∃ n r, n :: r = pre ++ [s] := by
      cases pre with
      | nil => exact ⟨s, [], rfl⟩
      | cons a pre => exact ⟨a, pre ++ [s], rfl⟩
    rw [getParsedPath_eq_loop E fs pathParts st forb n r (hsegs.trans hr.symm),
      getParsedPathLoop_descend E fs forb pre _ d s [] n r st hr hd hclean]
    simp [getParsedPathLoop]

/-- Instance of C19 on the sample tree: in `/f/x` the regular file `f`
(handle `3`) is the forbidden ancestor, and the result is `EINVAL`. -/
theorem getParsedPath_check_priority_witness :
    getParsedPath emscriptenErrno sampleFS ["/", "f", "x"] ⟨0, []⟩ (some 3) =
      (⟨none, none⟩, ((⟨0, []⟩ : CallState).record
        (walkEvents sampleFS (startDirectory sampleFS ["/", "f", "x"]) [] ++
          lockedLookup 0 "f")).setErr (-emscriptenErrno.EINVAL)) :=
  ((getParsedPath_check_priority emscriptenErrno sampleFS ["/", "f", "x"] [] "f" 0 ⟨0, []⟩
    (some 3) (by decide) (by decide)).1 ["x"] (by decide) (by decide)).1 3 rfl (by decide)

/-- C20: on every successful resolution `getParsedPath` and `getDir` leave
`err` as the caller passed it: `err` after the call equals `err` before the
call whenever a parent lock, respectively a directory, is returned. -/
theorem success_leaves_err (E : Errno) (fs : WasmFS) :
    (∀ pathParts st forb p, (getParsedPath E fs pathParts st forb).1.parent = some p →
      (getParsedPath E fs pathParts st forb).2.err = st.err) ∧
      (∀ v b e st forb D st', getDir E fs v b e st forb = some (some D, st') →
        st'.err = st.err) := by
  constructor
  · intro pathParts st forb p hp
    have hout : ∀ d name rest,
        (getParsedPathLoop E fs forb d name rest st).1.parent = some p →
        (getParsedPathLoop E fs forb d name rest st).2.err = st.err := by
      intro d name rest h
      rcases getParsedPathLoop_outcome E fs forb rest d name st with h1 | h1
      · exact h1.2
      · rw [h1.1] at h
        cases h
    cases pathParts with
    | nil => simp [getParsedPath] at hp
    | cons first rest =>
      by_cases hm : first = "/"
      · subst hm
        cases rest with
        | nil => simp [getParsedPath]
        | cons name rest =>
          simp only [getParsedPath, if_true] at hp ⊢
          exact hout _ _ _ hp
      · simp only [getParsedPath, hm, if_false] at hp ⊢
        exact hout _ _ _ hp
  · intro v b e st forb D st' h
    have hout : ∀ rest it d, getDirLoop E fs forb e rest it d st = some (some D, st') →
        st'.err = st.err := by
      intro rest it d h
      rcases getDirLoop_outcome E fs forb e rest it d st (some D) st' h with h1 | h1
      · exact h1.2
      · cases h1.1
    unfold getDir at h
    split at h
    · simp at h
    · split at h
      · exact hout _ _ _ h
      · exact hout _ _ _ h

/-- Instance of C20 on the sample tree: `/a/b/g` resolved with `err = 7`. -/
theorem success_leaves_err_witness :
    (getParsedPath emscriptenErrno sampleFS ["/", "a", "b", "g"] ⟨7, []⟩ none).2.err
      = (⟨7, []⟩ : CallState).err :=
  (success_leaves_err emscriptenErrno sampleFS).1 ["/", "a", "b", "g"] ⟨7, []⟩ none 2
    (by decide)

/-! ## Lock discipline -/

theorem heldAfter_append (held : List Handle) (a b : List Event) :
    heldAfter held (a ++ b) = heldAfter (heldAfter held a) b := by
  simp [heldAfter, List.foldl_append]

theorem heldAfter_lockedLookup (d : Handle) (n : String) :
    heldAfter [] (lockedLookup d n) = [] := by
  simp [heldAfter, lockedLookup, Event.apply]

theorem atMostOneHeld_nil : atMostOneHeld [] := by
  intro k
  simp [heldAfter]

theorem atMostOneHeld_lockedLookup_append (d : Handle) (n : String) (evs : List Event)
    (h : atMostOneHeld evs) : atMostOneHeld (lockedLookup d n ++ evs) := by
  intro k
  rw [List.take_append_eq_append_take, heldAfter_append]
  match k with
  | 0 => simp [heldAfter]
  | 1 => simp [heldAfter, lockedLookup, Event.apply]
  | 2 => simp [heldAfter, lockedLookup, Event.apply]
  | k + 3 =>
    have h1 : (lockedLookup d n).take (k + 3) = lockedLookup d n := by
      simp [lockedLookup]
    have h2 : k + 3 - (lockedLookup d n).length = k := by simp [lockedLookup]
    rw [h1, h2, heldAfter_lockedLookup]
    exact h k

theorem atMostOneHeld_final (d : Handle) (n : String) :
    atMostOneHeld [.acquire d, .getEntry d n] := by
  intro k
  match k with
  | 0 => simp [heldAfter]
  | 1 => simp [heldAfter, Event.apply]
  | k + 2 => simp [heldAfter, Event.apply]

theorem atMostOneHeld_acquire (d : Handle) : atMostOneHeld [.acquire d] := by
  intro k
  match k with
  | 0 => simp [heldAfter]
  | k + 1 => simp [heldAfter, Event.apply]

theorem getParsedPathLoop_locks (E : Errno) (fs : WasmFS) (forb : Option Handle) :
    ∀ (rest : List String) (d : Handle) (name : String) (st : CallState),
      ∃ evs, (getParsedPathLoop E fs forb d name rest st).2.events = st.events ++ evs ∧
        atMostOneHeld evs ∧
        heldAfter [] evs = (getParsedPathLoop E fs forb d name rest st).1.parent.toList := by
  intro rest
  induction rest with
  | nil =>
    intro d name st
    exact ⟨[.acquire d, .getEntry d name], rfl, atMostOneHeld_final d name, rfl⟩
  | cons next rest ih =>
    intro d name st
    have hfail : ∀ c : Int, ∃ evs,
        ((⟨none, none⟩, (st.record (lockedLookup d name)).setErr c) :
            ParsedPath × CallState).2.events = st.events ++ evs ∧
          atMostOneHeld evs ∧
          heldAfter [] evs =
            ((⟨none, none⟩, (st.record (lockedLookup d name)).setErr c) :
              ParsedPath × CallState).1.parent.toList := by
      intro c
      refine ⟨lockedLookup d name ++ [], by simp, ?_, ?_⟩
      · exact atMostOneHeld_lockedLookup_append d name [] atMostOneHeld_nil
      · simp [heldAfter_lockedLookup]
    simp only [getParsedPathLoop]
    split
    · exact hfail _
    · split
      · exact hfail _
      · split
        · exact hfail _
        · rename_i dir _
          obtain ⟨evs, h1, h2, h3⟩ := ih dir next (st.record (lockedLookup d name))
          refine ⟨lockedLookup d name ++ evs, ?_, ?_, ?_⟩
          · rw [h1]; simp
          · exact atMostOneHeld_lockedLookup_append d name evs h2
          · rw [heldAfter_append, heldAfter_lockedLookup, h3]

theorem getDirLoop_locks (E : Errno) (fs : WasmFS) (forb : Option Handle) (e : Nat) :
    ∀ (rest : List String) (it : Nat) (d : Handle) (st : CallState)
      (res : Option Handle) (st' : CallState),
      getDirLoop E fs forb e rest it d st = some (res, st') →
      ∃ evs, st'.events = st.events ++ evs ∧ atMostOneHeld evs ∧ heldAfter [] evs = [] := by
  have hnone : ∀ (st st' : CallState) (c : Int) (res res' : Option Handle),
      some (res, st.setErr c) = some (res', st') →
      ∃ evs, st'.events = st.events ++ evs ∧ atMostOneHeld evs ∧ heldAfter [] evs = [] := by
    intro st st' c res res' h
    simp only [Option.some.injEq, Prod.mk.injEq] at h
    exact ⟨[], by simp [← h.2], atMostOneHeld_nil, rfl⟩
  have hsame : ∀ (st st' : CallState) (res res' : Option Handle),
      some (res, st) = some (res', st') →
      ∃ evs, st'.events = st.events ++ evs ∧ atMostOneHeld evs ∧ heldAfter [] evs = [] := by
    intro st st' res res' h
    simp only [Option.some.injEq, Prod.mk.injEq] at h
    exact ⟨[], by simp [← h.2], atMostOneHeld_nil, rfl⟩
  have hlook : ∀ (st st' : CallState) (d : Handle) (n : String),
      (∃ evs, st'.events = (st.record (lockedLookup d n)).events ++ evs ∧
        atMostOneHeld evs ∧ heldAfter [] evs = []) →
      ∃ evs, st'.events = st.events ++ evs ∧ atMostOneHeld evs ∧ heldAfter [] evs = [] := by
    rintro st st' d n ⟨evs, h1, h2, h3⟩
    refine ⟨lockedLookup d n ++ evs, ?_, atMostOneHeld_lockedLookup_append d n evs h2, ?_⟩
    · rw [h1]; simp
    · rw [heldAfter_append, heldAfter_lockedLookup, h3]
  intro rest
  induction rest with
  | nil =>
    intro it d st res st' h
    rw [getDirLoop] at h
    split at h
    · split at h
      · exact hnone _ _ _ _ _ h
      · exact hsame _ _ _ _ h
    · split at h
      · exact hnone _ _ _ _ _ h
      · simp at h
  | cons name rest ih =>
    intro it d st res st' h
    rw [getDirLoop] at h
    split at h
    · split at h
      · exact hnone _ _ _ _ _ h
      · exact hsame _ _ _ _ h
    · split at h
      · exact hnone _ _ _ _ _ h
      · rename_i directory _
        simp only at h
        split at h
        · exact hlook st st' directory name (hnone _ _ _ _ _ h)
        · split at h
          · exact hlook st st' directory name (hnone _ _ _ _ _ h)
          · exact hlook st st' directory name (ih _ _ _ _ _ h)

/-- C12: with the held directory locks as explicit state (the events of a
call, replayed from no lock held): during `getParsedPath` and `getDir` at most
one directory lock is held at any moment; when `getParsedPath` succeeds
exactly one lock is held on return, that of the returned parent; when it
fails, and whenever `getDir` returns, no directory lock is held. -/
theorem lock_discipline (E : Errno) (fs : WasmFS) :
    (∀ pathParts st forb,
      ∃ evs, (getParsedPath E fs pathParts st forb).2.events = st.events ++ evs ∧
        atMostOneHeld evs ∧
        heldAfter [] evs = (getParsedPath E fs pathParts st forb).1.parent.toList) ∧
      (∀ v b e st forb res st', getDir E fs v b e st forb = some (res, st') →
        ∃ evs, st'.events = st.events ++ evs ∧ atMostOneHeld evs ∧ heldAfter [] evs = []) := by
  constructor
  · intro pathParts st forb
    cases pathParts with
    | nil => exact ⟨[], by simp [getParsedPath], atMostOneHeld_nil, rfl⟩
    | cons first rest =>
      by_cases hm : first = "/"
      · subst hm
        cases rest with
        | nil =>
          exact ⟨[.acquire fs.rootDirectory], by simp [getParsedPath],
            atMostOneHeld_acquire _, rfl⟩
        | cons name rest =>
          simpa [getParsedPath] using getParsedPathLoop_locks E fs forb rest _ name st
      · simpa [getParsedPath, hm] using getParsedPathLoop_locks E fs forb rest _ first st
  · intro v b e st forb res st' h
    unfold getDir at h
    split at h
    · simp at h
    · split at h
      · exact getDirLoop_locks E fs forb e _ _ _ st res st' h
      · exact getDirLoop_locks E fs forb e _ _ _ st res st' h

/-- Instance of C12 on the sample tree: `getDir` on the range `/a/b`. -/
theorem lock_discipline_witness :
    ∃ evs, (⟨0, lockedLookup 0 "a" ++ lockedLookup 1 "b"⟩ : CallState).events =
        (⟨0, []⟩ : CallState).events ++ evs ∧
      atMostOneHeld evs ∧ heldAfter [] evs = [] :=
  (lock_discipline emscriptenErrno sampleFS).2 ["/", "a", "b"] 0 3 ⟨0, []⟩ none (some 2)
    ⟨0, lockedLookup 0 "a" ++ lockedLookup 1 "b"⟩ (by decide)

/-! ## The bridge: invariants and properties -/

namespace SyncToAsync

/-! ### The invariant is preserved -/

section Helpers

variable {n : Nat}

theorem inactive_of_invoke {s : Bridge n} (h : Inv s) {i j : Fin n}
    (hi : s.invokeMutex = some i) (hj : j ≠ i) : (s.callers j).holdsInvoke = false := by
  by_contra hc
  have := (h.invk j).1 (by simpa using hc)
  rw [hi] at this
  exact hj (Option.some.inj this).symm

theorem inactive_of_free {s : Bridge n} (h : Inv s) (hi : s.invokeMutex = none) (j : Fin n) :
    (s.callers j).holdsInvoke = false := by
  by_contra hc
  have := (h.invk j).1 (by simpa using hc)
  rw [hi] at this
  cases this

/-- What holds of a caller that does not hold `invokeMutex` depends on the
ghost lists only. -/
theorem callerOk_inactive {s s' : Bridge n} {pc : CallerPc} (hpc : pc.holdsInvoke = false)
    (hres : ∀ t, t ∈ s.resumed → t ∈ s'.resumed)
    (hfresh : ∀ w, pc = .lockInvoke w → Fresh s w → Fresh s' w)
    (h : callerOk s pc) : callerOk s' pc := by
  cases pc <;> simp_all [callerOk, CallerPc.holdsInvoke]

/-- What holds of a caller depends only on the protocol fields of the
state. -/
theorem callerOk_congr {s s' : Bridge n} (pc : CallerPc) (h1 : s'.work = s.work)
    (h2 : s'.readyToWork = s.readyToWork) (h3 : s'.finishedWork = s.finishedWork)
    (h4 : s'.worker = s.worker) (h5 : s'.resumed = s.resumed) (h6 : s'.picked = s.picked)
    (h : callerOk s pc) : callerOk s' pc := by
  cases pc <;> simp_all [callerOk, Fresh, Quiet, Posted, Picked, Done]

/-- A move of the worker between positions that lie between two units of work
changes nothing for the callers. -/
theorem callerOk_between {s s' : Bridge n} (pc : CallerPc) (h1 : s'.work = s.work)
    (h2 : s'.readyToWork = s.readyToWork) (h3 : s'.finishedWork = s.finishedWork)
    (h4 : s.worker.betweenWork = true) (h4' : s'.worker.betweenWork = true)
    (h5 : s'.resumed = s.resumed) (h6 : s'.picked = s.picked)
    (h : callerOk s pc) : callerOk s' pc := by
  have hn : ∀ w, s.worker ≠ .clearReady w ∧ s.worker ≠ .makeResume w ∧ s.worker ≠ .callWork w ∧
      s.worker ≠ .running w ∧ s.worker ≠ .resumeSetFinished w ∧ s.worker ≠ .resumeUnlock w := by
    intro w
    refine ⟨?_, ?_, ?_, ?_, ?_, ?_⟩ <;> intro hw <;> rw [hw] at h4 <;> cases h4
  cases pc <;> simp_all [callerOk, Fresh, Quiet, Posted, Picked, Done]
  rcases h with h | h
  · exact Or.inl h
  · exact Or.inr (Or.inr h)

theorem uniq_update {s : Bridge n} (h : Inv s) (i : Fin n) (pc : CallerPc)
    (hw : pc.work? = (s.callers i).work? ∨ pc.work? = none) :
    ∀ j k w w', (Function.update s.callers i pc j).work? = some w →
      (Function.update s.callers i pc k).work? = some w' → w.ticket = w'.ticket → j = k := by
  intro j k w w' h1 h2 ht
  by_cases hj : j = i <;> by_cases hk : k = i
  · rw [hj, hk]
  · subst hj
    rw [Function.update_same] at h1
    rw [Function.update_noteq hk] at h2
    rcases hw with hw | hw
    · exact h.uniq j k w w' (by rw [← hw]; exact h1) h2 ht
    · rw [hw] at h1; cases h1
  · subst hk
    rw [Function.update_noteq hj] at h1
    rw [Function.update_same] at h2
    rcases hw with hw | hw
    · exact h.uniq j k w w' h1 (by rw [← hw]; exact h2) ht
    · rw [hw] at h2; cases h2
  · rw [Function.update_noteq hj] at h1
    rw [Function.update_noteq hk] at h2
    exact h.uniq j k w w' h1 h2 ht

theorem tick_update {s : Bridge n} (h : Inv s) (i : Fin n) (pc : CallerPc)
    (hw : pc.work? = (s.callers i).work? ∨ pc.work? = none) :
    ∀ j w, (Function.update s.callers i pc j).work? = some w → w.ticket < s.nextTicket := by
  intro j w h1
  by_cases hj : j = i
  · subst hj
    rw [Function.update_same] at h1
    rcases hw with hw | hw
    · exact h.tick j w (by rw [← hw]; exact h1)
    · rw [hw] at h1; cases h1
  · rw [Function.update_noteq hj] at h1
    exact h.tick j w h1

theorem invk_update_same {s : Bridge n} (h : Inv s) (i : Fin n) (pc : CallerPc)
    (hsame : pc.holdsInvoke = (s.callers i).holdsInvoke) :
    ∀ j, (Function.update s.callers i pc j).holdsInvoke = true ↔ s.invokeMutex = some j := by
  intro j
  by_cases hj : j = i
  · subst hj
    rw [Function.update_same, hsame]
    exact h.invk j
  · rw [Function.update_noteq hj]
    exact h.invk j

theorem mtxC_update_same {s : Bridge n} (h : Inv s) (i : Fin n) (pc : CallerPc)
    (hsame : pc.holdsMutex = (s.callers i).holdsMutex) :
    ∀ j, (Function.update s.callers i pc j).holdsMutex = true ↔
      s.mutex = some (.caller j) := by
  intro j
  by_cases hj : j = i
  · subst hj
    rw [Function.update_same, hsame]
    exact h.mtxC j
  · rw [Function.update_noteq hj]
    exact h.mtxC j

/-- Caller `i` takes a lock that was free. -/
theorem invk_update_acquire {s : Bridge n} (h : Inv s) (i : Fin n) (pc : CallerPc)
    (hfree : s.invokeMutex = none) (hpc : pc.holdsInvoke = true) :
    ∀ j, (Function.update s.callers i pc j).holdsInvoke = true ↔ some i = some j := by
  intro j
  by_cases hj : j = i
  · subst hj
    simp [hpc]
  · rw [Function.update_noteq hj, inactive_of_free h hfree j]
    simp [Ne.symm hj]

/-- Caller `i` releases `invokeMutex`. -/
theorem invk_update_release {s : Bridge n} (h : Inv s) (i : Fin n) (pc : CallerPc)
    (hheld : s.invokeMutex = some i) (hpc : pc.holdsInvoke = false) :
    ∀ j, (Function.update s.callers i pc j).holdsInvoke = true ↔ (none : Option (Fin n)) = some j := by
  intro j
  by_cases hj : j = i
  · subst hj
    simp [hpc]
  · rw [Function.update_noteq hj, inactive_of_invoke h hheld hj]
    simp

theorem mtxC_false_of_free {s : Bridge n} (h : Inv s) (hfree : s.mutex = none) (j : Fin n) :
    (s.callers j).holdsMutex = false := by
  by_contra hc
  have := (h.mtxC j).1 (by simpa using hc)
  rw [hfree] at this
  cases this

theorem mtxC_false_of_other {s : Bridge n} (h : Inv s) {i j : Fin n}
    (hheld : s.mutex = some (.caller i)) (hj : j ≠ i) : (s.callers j).holdsMutex = false := by
  by_contra hc
  have := (h.mtxC j).1 (by simpa using hc)
  rw [hheld] at this
  simp only [Option.some.injEq, Owner.caller.injEq] at this
  exact hj this.symm

theorem mtxC_false_of_child {s : Bridge n} (h : Inv s) (hheld : s.mutex = some .child)
    (j : Fin n) : (s.callers j).holdsMutex = false := by
  by_contra hc
  have := (h.mtxC j).1 (by simpa using hc)
  rw [hheld] at this
  cases this

/-- Caller `i` takes `mutex`, which was free. -/
theorem mtxC_update_acquire {s : Bridge n} (h : Inv s) (i : Fin n) (pc : CallerPc)
    (hfree : s.mutex = none) (hpc : pc.holdsMutex = true) :
    ∀ j, (Function.update s.callers i pc j).holdsMutex = true ↔
      some (Owner.caller i) = some (.caller j) := by
  intro j
  by_cases hj : j = i
  · subst hj
    simp [hpc]
  · rw [Function.update_noteq hj, mtxC_false_of_free h hfree j]
    simp [Ne.symm hj]

/-- Caller `i` releases `mutex`. -/
theorem mtxC_update_release {s : Bridge n} (h : Inv s) (i : Fin n) (pc : CallerPc)
    (hheld : s.mutex = some (.caller i)) (hpc : pc.holdsMutex = false) :
    ∀ j, (Function.update s.callers i pc j).holdsMutex = true ↔
      (none : Option (Owner n)) = some (.caller j) := by
  intro j
  by_cases hj : j = i
  · subst hj
    simp [hpc]
  · rw [Function.update_noteq hj, mtxC_false_of_other h hheld hj]
    simp

theorem worker_free_of_caller {s : Bridge n} (h : Inv s) {i : Fin n}
    (hheld : s.mutex = some (.caller i)) : s.worker.holdsMutex = false := by
  by_contra hc
  have := h.mtxW.1 (by simpa using hc)
  rw [hheld] at this
  cases this

theorem worker_free_of_free {s : Bridge n} (h : Inv s) (hfree : s.mutex = none) :
    s.worker.holdsMutex = false := by
  by_contra hc
  have := h.mtxW.1 (by simpa using hc)
  rw [hfree] at this
  cases this

end Helpers


section CallerSteps

variable {n : Nat}

theorem ok_update {s s' : Bridge n} (i : Fin n) (pc : CallerPc)
    (hc : s'.callers = Function.update s.callers i pc)
    (hi : callerOk s' pc) (hothers : ∀ j, j ≠ i → callerOk s' (s.callers j)) :
    ∀ j, callerOk s' (s'.callers j) := by
  intro j
  rw [hc]
  by_cases hj : j = i
  · subst hj
    rw [Function.update_same]
    exact hi
  · rw [Function.update_noteq hj]
    exact hothers j hj

/-- The other callers when the stepping caller holds `invokeMutex` and the
ghost lists do not change. -/
theorem ok_others_active {s s' : Bridge n} (h : Inv s) {i : Fin n}
    (hi : s.invokeMutex = some i) (hres : s'.resumed = s.resumed)
    (hpick : s'.picked = s.picked) :
    ∀ j, j ≠ i → callerOk s' (s.callers j) := by
  intro j hj
  refine callerOk_inactive (inactive_of_invoke h hi hj) ?_ ?_ (h.ok j)
  · intro t ht; rw [hres]; exact ht
  · intro w _ hf
    simpa [Fresh, hres, hpick] using hf

theorem quiet_of_held {s : Bridge n} {i : Fin n} (hinv : s.invokeMutex = some i) :
    s.invokeMutex = none → Quiet s := by
  intro h0
  rw [hinv] at h0
  cases h0

theorem inv_lockInvoke {s : Bridge n} (h : Inv s) (i : Fin n) (w : Work)
    (hpc : s.callers i = .lockInvoke w) (hfree : s.invokeMutex = none) :
    Inv { s with callers := Function.update s.callers i (.lockMutex w), invokeMutex := some i } := by
  have hok := h.ok i
  rw [hpc] at hok
  exact
    { invk := invk_update_acquire h i _ hfree rfl
      mtxC := mtxC_update_same h i _ (by rw [hpc]; rfl)
      mtxW := h.mtxW
      quiet := fun h0 => by cases h0
      ok := ok_update i _ rfl ⟨hok, h.quiet hfree⟩
        (fun j _ => callerOk_congr _ rfl rfl rfl rfl rfl rfl (h.ok j))
      uniq := uniq_update h i _ (Or.inl (by rw [hpc]; rfl))
      tick := tick_update h i _ (Or.inl (by rw [hpc]; rfl))
      resumedLt := h.resumedLt
      pickedLt := h.pickedLt
      nodup := h.nodup }

theorem inv_lockMutex {s : Bridge n} (h : Inv s) (i : Fin n) (w : Work)
    (hpc : s.callers i = .lockMutex w) (hfree : s.mutex = none) :
    Inv { s with callers := Function.update s.callers i (.setWork w), mutex := some (.caller i) } := by
  have hok := h.ok i
  rw [hpc] at hok
  have hw := worker_free_of_free h hfree
  exact
    { invk := invk_update_same h i _ (by rw [hpc]; rfl)
      mtxC := mtxC_update_acquire h i _ hfree rfl
      mtxW := by
        show s.worker.holdsMutex = true ↔ _
        simp [hw]
      quiet := fun h0 => h.quiet h0
      ok := ok_update i _ rfl hok
        (fun j _ => callerOk_congr _ rfl rfl rfl rfl rfl rfl (h.ok j))
      uniq := uniq_update h i _ (Or.inl (by rw [hpc]; rfl))
      tick := tick_update h i _ (Or.inl (by rw [hpc]; rfl))
      resumedLt := h.resumedLt
      pickedLt := h.pickedLt
      nodup := h.nodup }

theorem inv_setWork {s : Bridge n} (h : Inv s) (i : Fin n) (w : Work)
    (hpc : s.callers i = .setWork w) :
    Inv { s with callers := Function.update s.callers i (.setFinished w), work := some w } := by
  have hok := h.ok i
  rw [hpc] at hok
  have hinv : s.invokeMutex = some i := (h.invk i).1 (by rw [hpc]; rfl)
  exact
    { invk := invk_update_same h i _ (by rw [hpc]; rfl)
      mtxC := mtxC_update_same h i _ (by rw [hpc]; rfl)
      mtxW := h.mtxW
      quiet := fun h0 => h.quiet h0
      ok := ok_update i _ rfl ⟨hok.1, hok.2, rfl⟩ (ok_others_active h hinv rfl rfl)
      uniq := uniq_update h i _ (Or.inl (by rw [hpc]; rfl))
      tick := tick_update h i _ (Or.inl (by rw [hpc]; rfl))
      resumedLt := h.resumedLt
      pickedLt := h.pickedLt
      nodup := h.nodup }

theorem inv_setFinished {s : Bridge n} (h : Inv s) (i : Fin n) (w : Work)
    (hpc : s.callers i = .setFinished w) :
    Inv { s with callers := Function.update s.callers i (.setReady w), finishedWork := false } := by
  have hok := h.ok i
  rw [hpc] at hok
  have hinv : s.invokeMutex = some i := (h.invk i).1 (by rw [hpc]; rfl)
  exact
    { invk := invk_update_same h i _ (by rw [hpc]; rfl)
      mtxC := mtxC_update_same h i _ (by rw [hpc]; rfl)
      mtxW := h.mtxW
      quiet := fun h0 => h.quiet h0
      ok := ok_update i _ rfl ⟨hok.1, hok.2.1, hok.2.2, rfl⟩ (ok_others_active h hinv rfl rfl)
      uniq := uniq_update h i _ (Or.inl (by rw [hpc]; rfl))
      tick := tick_update h i _ (Or.inl (by rw [hpc]; rfl))
      resumedLt := h.resumedLt
      pickedLt := h.pickedLt
      nodup := h.nodup }

theorem inv_setReady {s : Bridge n} (h : Inv s) (i : Fin n) (w : Work)
    (hpc : s.callers i = .setReady w) :
    Inv { s with callers := Function.update s.callers i (.notify w), readyToWork := true } := by
  have hok := h.ok i
  rw [hpc] at hok
  have hinv : s.invokeMutex = some i := (h.invk i).1 (by rw [hpc]; rfl)
  exact
    { invk := invk_update_same h i _ (by rw [hpc]; rfl)
      mtxC := mtxC_update_same h i _ (by rw [hpc]; rfl)
      mtxW := h.mtxW
      quiet := quiet_of_held hinv
      ok := ok_update i _ rfl ⟨hok.2.2.1, rfl, hok.2.2.2, hok.1, Or.inl hok.2.1.2⟩
        (ok_others_active h hinv rfl rfl)
      uniq := uniq_update h i _ (Or.inl (by rw [hpc]; rfl))
      tick := tick_update h i _ (Or.inl (by rw [hpc]; rfl))
      resumedLt := h.resumedLt
      pickedLt := h.pickedLt
      nodup := h.nodup }

theorem inv_notify {s : Bridge n} (h : Inv s) (i : Fin n) (w : Work)
    (hpc : s.callers i = .notify w) :
    Inv (s.setCaller i (.waitCheck w)) := by
  have hok := h.ok i
  rw [hpc] at hok
  have hinv : s.invokeMutex = some i := (h.invk i).1 (by rw [hpc]; rfl)
  exact
    { invk := invk_update_same h i _ (by rw [hpc]; rfl)
      mtxC := mtxC_update_same h i _ (by rw [hpc]; rfl)
      mtxW := h.mtxW
      quiet := fun h0 => h.quiet h0
      ok := ok_update i _ rfl (Or.inl hok) (ok_others_active h hinv rfl rfl)
      uniq := uniq_update h i _ (Or.inl (by rw [hpc]; rfl))
      tick := tick_update h i _ (Or.inl (by rw [hpc]; rfl))
      resumedLt := h.resumedLt
      pickedLt := h.pickedLt
      nodup := h.nodup }

end CallerSteps


section CallerSteps2

variable {n : Nat}

theorem inv_waitPass {s : Bridge n} (h : Inv s) (i : Fin n) (w : Work)
    (hpc : s.callers i = .waitCheck w) (hf : s.finishedWork = true) :
    Inv (s.setCaller i (.unlockMutex w)) := by
  have hok := h.ok i
  rw [hpc] at hok
  have hinv : s.invokeMutex = some i := (h.invk i).1 (by rw [hpc]; rfl)
  have hm : s.mutex = some (.caller i) := (h.mtxC i).1 (by rw [hpc]; rfl)
  have hw := worker_free_of_caller h hm
  have hdone : w.ticket ∈ s.resumed ∧ Quiet s := by
    rcases hok with hp | hd
    · rw [hp.2.2.1] at hf; cases hf
    · refine ⟨hd.2.2.1, hd.2.1, ?_⟩
      rcases hd.2.2.2 with hu | hb
      · rw [hu] at hw; cases hw
      · exact hb
  exact
    { invk := invk_update_same h i _ (by rw [hpc]; rfl)
      mtxC := mtxC_update_same h i _ (by rw [hpc]; rfl)
      mtxW := h.mtxW
      quiet := fun h0 => h.quiet h0
      ok := ok_update i _ rfl hdone (ok_others_active h hinv rfl rfl)
      uniq := uniq_update h i _ (Or.inl (by rw [hpc]; rfl))
      tick := tick_update h i _ (Or.inl (by rw [hpc]; rfl))
      resumedLt := h.resumedLt
      pickedLt := h.pickedLt
      nodup := h.nodup }

theorem inv_waitBlock {s : Bridge n} (h : Inv s) (i : Fin n) (w : Work)
    (hpc : s.callers i = .waitCheck w) (hf : s.finishedWork = false) :
    Inv { s with callers := Function.update s.callers i (.waiting w), mutex := none } := by
  have hok := h.ok i
  rw [hpc] at hok
  have hinv : s.invokeMutex = some i := (h.invk i).1 (by rw [hpc]; rfl)
  have hm : s.mutex = some (.caller i) := (h.mtxC i).1 (by rw [hpc]; rfl)
  have hw := worker_free_of_caller h hm
  have hposted : Posted s w := by
    rcases hok with hp | hd
    · exact hp
    · rw [hd.1] at hf; cases hf
  exact
    { invk := invk_update_same h i _ (by rw [hpc]; rfl)
      mtxC := mtxC_update_release h i _ hm rfl
      mtxW := by
        show s.worker.holdsMutex = true ↔ _
        simp [hw]
      quiet := fun h0 => h.quiet h0
      ok := ok_update i _ rfl (Or.inl hposted) (ok_others_active h hinv rfl rfl)
      uniq := uniq_update h i _ (Or.inl (by rw [hpc]; rfl))
      tick := tick_update h i _ (Or.inl (by rw [hpc]; rfl))
      resumedLt := h.resumedLt
      pickedLt := h.pickedLt
      nodup := h.nodup }

theorem inv_wake {s : Bridge n} (h : Inv s) (i : Fin n) (w : Work)
    (hpc : s.callers i = .waiting w) (hfree : s.mutex = none) :
    Inv { s with callers := Function.update s.callers i (.waitCheck w),
                 mutex := some (.caller i) } := by
  have hok := h.ok i
  rw [hpc] at hok
  have hinv : s.invokeMutex = some i := (h.invk i).1 (by rw [hpc]; rfl)
  have hw := worker_free_of_free h hfree
  have hok' : Posted s w ∨ Done s w := by
    rcases hok with hp | hp | hd
    · exact Or.inl hp
    · exfalso
      rcases hp.2.2.2 with hc | ⟨_, hc | hc | hc | hc⟩ <;> [rw [hc.1] at hw; rw [hc] at hw;
        rw [hc] at hw; rw [hc] at hw; rw [hc] at hw] <;> cases hw
    · exact Or.inr hd
  exact
    { invk := invk_update_same h i _ (by rw [hpc]; rfl)
      mtxC := mtxC_update_acquire h i _ hfree rfl
      mtxW := by
        show s.worker.holdsMutex = true ↔ _
        simp [hw]
      quiet := fun h0 => h.quiet h0
      ok := ok_update i _ rfl hok' (ok_others_active h hinv rfl rfl)
      uniq := uniq_update h i _ (Or.inl (by rw [hpc]; rfl))
      tick := tick_update h i _ (Or.inl (by rw [hpc]; rfl))
      resumedLt := h.resumedLt
      pickedLt := h.pickedLt
      nodup := h.nodup }

theorem inv_unlockMutex {s : Bridge n} (h : Inv s) (i : Fin n) (w : Work)
    (hpc : s.callers i = .unlockMutex w) :
    Inv { s with callers := Function.update s.callers i (.unlockInvoke w), mutex := none } := by
  have hok := h.ok i
  rw [hpc] at hok
  have hinv : s.invokeMutex = some i := (h.invk i).1 (by rw [hpc]; rfl)
  have hm : s.mutex = some (.caller i) := (h.mtxC i).1 (by rw [hpc]; rfl)
  have hw := worker_free_of_caller h hm
  exact
    { invk := invk_update_same h i _ (by rw [hpc]; rfl)
      mtxC := mtxC_update_release h i _ hm rfl
      mtxW := by
        show s.worker.holdsMutex = true ↔ _
        simp [hw]
      quiet := fun h0 => h.quiet h0
      ok := ok_update i _ rfl hok (ok_others_active h hinv rfl rfl)
      uniq := uniq_update h i _ (Or.inl (by rw [hpc]; rfl))
      tick := tick_update h i _ (Or.inl (by rw [hpc]; rfl))
      resumedLt := h.resumedLt
      pickedLt := h.pickedLt
      nodup := h.nodup }

theorem inv_unlockInvoke {s : Bridge n} (h : Inv s) (i : Fin n) (w : Work)
    (hpc : s.callers i = .unlockInvoke w) :
    Inv { s with callers := Function.update s.callers i (.returned w),
                 invokeMutex := none } := by
  have hok := h.ok i
  rw [hpc] at hok
  have hinv : s.invokeMutex = some i := (h.invk i).1 (by rw [hpc]; rfl)
  exact
    { invk := invk_update_release h i _ hinv rfl
      mtxC := mtxC_update_same h i _ (by rw [hpc]; rfl)
      mtxW := h.mtxW
      quiet := fun _ => hok.2
      ok := ok_update i _ rfl hok.1 (ok_others_active h hinv rfl rfl)
      uniq := uniq_update h i _ (Or.inl (by rw [hpc]; rfl))
      tick := tick_update h i _ (Or.inl (by rw [hpc]; rfl))
      resumedLt := h.resumedLt
      pickedLt := h.pickedLt
      nodup := h.nodup }

/-- A caller leaves `returned w`, for `idle` or for `destroyed`. -/
theorem inv_leave {s : Bridge n} (h : Inv s) (i : Fin n) (w : Work) (pc : CallerPc)
    (hpc : s.callers i = .returned w) (hpc' : pc = .idle ∨ pc = .destroyed) :
    Inv (s.setCaller i pc) := by
  have hwork : pc.work? = none := by rcases hpc' with h1 | h1 <;> rw [h1] <;> rfl
  have hok' : callerOk (s.setCaller i pc) pc := by
    rcases hpc' with h1 | h1 <;> rw [h1] <;> trivial
  exact
    { invk := invk_update_same h i _ (by rw [hpc]; rcases hpc' with h1 | h1 <;> rw [h1] <;> rfl)
      mtxC := mtxC_update_same h i _ (by rw [hpc]; rcases hpc' with h1 | h1 <;> rw [h1] <;> rfl)
      mtxW := h.mtxW
      quiet := fun h0 => h.quiet h0
      ok := ok_update i _ rfl hok'
        (fun j _ => callerOk_congr _ rfl rfl rfl rfl rfl rfl (h.ok j))
      uniq := uniq_update h i _ (Or.inr hwork)
      tick := tick_update h i _ (Or.inr hwork)
      resumedLt := h.resumedLt
      pickedLt := h.pickedLt
      nodup := h.nodup }

theorem inv_callerStep {s s' : Bridge n} (h : Inv s) (i : Fin n)
    (hs : callerStep i s = some s') : Inv s' := by
  unfold callerStep at hs
  split at hs
  · cases hs
  · rename_i w hpc
    split at hs
    · rename_i hfree
      cases hs
      exact inv_lockInvoke h i w hpc hfree
    · cases hs
  · rename_i w hpc
    split at hs
    · rename_i hfree
      cases hs
      exact inv_lockMutex h i w hpc hfree
    · cases hs
  · rename_i w hpc
    cases hs
    exact inv_setWork h i w hpc
  · rename_i w hpc
    cases hs
    exact inv_setFinished h i w hpc
  · rename_i w hpc
    cases hs
    exact inv_setReady h i w hpc
  · rename_i w hpc
    cases hs
    exact inv_notify h i w hpc
  · rename_i w hpc
    split at hs
    · rename_i hf
      cases hs
      exact inv_waitPass h i w hpc hf
    · rename_i hf
      cases hs
      exact inv_waitBlock h i w hpc (by simpa using hf)
  · rename_i w hpc
    split at hs
    · rename_i hfree
      cases hs
      exact inv_wake h i w hpc hfree
    · cases hs
  · rename_i w hpc
    cases hs
    exact inv_unlockMutex h i w hpc
  · rename_i w hpc
    cases hs
    exact inv_unlockInvoke h i w hpc
  · rename_i w hpc
    split at hs
    · split at hs
      · cases hs
        exact inv_leave h i w _ hpc (Or.inr rfl)
      · cases hs
    · cases hs
      exact inv_leave h i w _ hpc (Or.inl rfl)
  · cases hs

theorem inv_enter {s s' : Bridge n} (h : Inv s) (i : Fin n) (poison : Bool)
    (hs : enter i poison s = some s') : Inv s' := by
  unfold enter at hs
  split at hs
  · rename_i hg
    cases hs
    have hpc := hg.1
    have hfresh : Fresh s ⟨s.nextTicket, poison⟩ := by
      constructor
      · intro hm; exact Nat.lt_irrefl _ (h.resumedLt _ hm)
      · intro hm; exact Nat.lt_irrefl _ (h.pickedLt _ hm)
    exact
      { invk := invk_update_same h i _ (by rw [hpc]; rfl)
        mtxC := mtxC_update_same h i _ (by rw [hpc]; rfl)
        mtxW := h.mtxW
        quiet := fun h0 => h.quiet h0
        ok := ok_update i _ rfl hfresh
          (fun j _ => callerOk_congr _ rfl rfl rfl rfl rfl rfl (h.ok j))
        uniq := by
          intro j k w w' h1 h2 ht
          by_cases hj : j = i <;> by_cases hk : k = i
          · rw [hj, hk]
          · exfalso
            subst hj
            simp only [Function.update_same, Function.update_noteq hk, CallerPc.work?,
              Option.some.injEq] at h1 h2
            have := h.tick k w' h2
            rw [← ht, ← h1] at this
            exact Nat.lt_irrefl _ this
          · exfalso
            subst hk
            simp only [Function.update_same, Function.update_noteq hj, CallerPc.work?,
              Option.some.injEq] at h1 h2
            have := h.tick j w h1
            rw [ht, ← h2] at this
            exact Nat.lt_irrefl _ this
          · simp only [Function.update_noteq hj, Function.update_noteq hk] at h1 h2
            exact h.uniq j k w w' h1 h2 ht
        tick := by
          intro j w h1
          by_cases hj : j = i
          · subst hj
            simp only [Function.update_same, CallerPc.work?, Option.some.injEq] at h1
            rw [← h1]
            exact Nat.lt_succ_self _
          · simp only [Function.update_noteq hj] at h1
            exact Nat.lt_succ_of_lt (h.tick j w h1)
        resumedLt := fun t ht => Nat.lt_succ_of_lt (h.resumedLt t ht)
        pickedLt := fun t ht => Nat.lt_succ_of_lt (h.pickedLt t ht)
        nodup := h.nodup }
  · cases hs

end CallerSteps2


section WorkerSteps

variable {n : Nat}

theorem holdsMutex_of_not_between {pc : WorkerPc} (h : pc.betweenWork = false) :
    pc.holdsMutex = true := by
  cases pc <;> simp_all [WorkerPc.betweenWork, WorkerPc.holdsMutex]

/-- While the worker is busy with a unit of work, the caller that posted it
is blocked in `condition.wait`. -/
theorem active_waiting {s : Bridge n} (h : Inv s) (hb : s.worker.betweenWork = false) :
    ∃ i w, s.invokeMutex = some i ∧ s.callers i = .waiting w ∧
      (Posted s w ∨ Picked s w ∨ Done s w) := by
  cases hinv : s.invokeMutex with
  | none =>
    have := (h.quiet hinv).2
    rw [hb] at this
    cases this
  | some i =>
    have hhold := (h.invk i).2 hinv
    have hm := h.mtxW.1 (holdsMutex_of_not_between hb)
    have hnm := mtxC_false_of_child h hm i
    have hok := h.ok i
    refine ⟨i, ?_⟩
    cases hpc : s.callers i with
    | idle => rw [hpc] at hhold; cases hhold
    | lockInvoke w => rw [hpc] at hhold; cases hhold
    | lockMutex w =>
      rw [hpc] at hok
      have := hok.2.2
      rw [hb] at this
      cases this
    | setWork w => rw [hpc] at hnm; cases hnm
    | setFinished w => rw [hpc] at hnm; cases hnm
    | setReady w => rw [hpc] at hnm; cases hnm
    | notify w => rw [hpc] at hnm; cases hnm
    | waitCheck w => rw [hpc] at hnm; cases hnm
    | waiting w =>
      rw [hpc] at hok
      exact ⟨w, rfl, rfl, hok⟩
    | unlockMutex w => rw [hpc] at hnm; cases hnm
    | unlockInvoke w =>
      rw [hpc] at hok
      have := hok.2.2
      rw [hb] at this
      cases this
    | returned w => rw [hpc] at hhold; cases hhold
    | destroyed => rw [hpc] at hhold; cases hhold

/-- The callers other than the one whose work the worker is busy with, when
a worker step adds at most that work's ticket to the ghost lists. -/
theorem ok_worker {s s' : Bridge n} (h : Inv s) {i : Fin n} {w : Work}
    (hinv : s.invokeMutex = some i) (hpc : s.callers i = .waiting w)
    (hc : s'.callers = s.callers)
    (hres : ∀ t, t ∈ s'.resumed ↔ (t ∈ s.resumed ∨ (t = w.ticket ∧ w.ticket ∈ s'.resumed)))
    (hpick : ∀ t, t ∈ s'.picked ↔ (t ∈ s.picked ∨ (t = w.ticket ∧ w.ticket ∈ s'.picked)))
    (hi : callerOk s' (.waiting w)) :
    ∀ j, callerOk s' (s'.callers j) := by
  intro j
  rw [hc]
  by_cases hj : j = i
  · subst hj
    rw [hpc]
    exact hi
  · refine callerOk_inactive (inactive_of_invoke h hinv hj) ?_ ?_ (h.ok j)
    · intro t ht
      exact (hres t).2 (Or.inl ht)
    · intro wj hwj hf
      have hne : wj.ticket ≠ w.ticket := by
        intro ht
        exact hj (h.uniq j i wj w (by rw [hwj]; rfl) (by rw [hpc]; rfl) ht)
      constructor
      · intro hm
        rcases (hres _).1 hm with h1 | h1
        · exact hf.1 h1
        · exact hne h1.1
      · intro hm
        rcases (hpick _).1 hm with h1 | h1
        · exact hf.2 h1
        · exact hne h1.1

/-- A step of the worker between two units of work. -/
theorem inv_worker_between {s s' : Bridge n} (h : Inv s)
    (hc : s'.callers = s.callers) (hi : s'.invokeMutex = s.invokeMutex)
    (h1 : s'.work = s.work) (h2 : s'.readyToWork = s.readyToWork)
    (h3 : s'.finishedWork = s.finishedWork) (h5 : s'.resumed = s.resumed)
    (h6 : s'.picked = s.picked) (h7 : s'.nextTicket = s.nextTicket)
    (hb : s.worker.betweenWork = true) (hb' : s'.worker.betweenWork = true)
    (hmW : s'.worker.holdsMutex = true ↔ s'.mutex = some .child)
    (hmC : ∀ j, s'.mutex = some (.caller j) ↔ s.mutex = some (.caller j)) : Inv s' :=
  { invk := by
      intro j
      rw [hc, hi]
      exact h.invk j
    mtxC := by
      intro j
      rw [hc, hmC]
      exact h.mtxC j
    mtxW := hmW
    quiet := by
      intro h0
      rw [hi] at h0
      have := h.quiet h0
      exact ⟨by rw [h2]; exact this.1, hb'⟩
    ok := by
      intro j
      rw [hc]
      exact callerOk_between _ h1 h2 h3 hb hb' h5 h6 (h.ok j)
    uniq := by rw [hc]; exact h.uniq
    tick := by rw [hc, h7]; exact h.tick
    resumedLt := by rw [h5, h7]; exact h.resumedLt
    pickedLt := by rw [h6, h7]; exact h.pickedLt
    nodup := by rw [h6]; exact h.nodup }

end WorkerSteps


section WorkerSteps2

variable {n : Nat}

/-- A step of the worker while it is busy with the work `w` of caller `i`. -/
theorem inv_worker_busy {s s' : Bridge n} (h : Inv s) {i : Fin n} {w : Work}
    (hinv : s.invokeMutex = some i) (hpc : s.callers i = .waiting w)
    (hc : s'.callers = s.callers) (hi : s'.invokeMutex = s.invokeMutex)
    (h7 : s'.nextTicket = s.nextTicket)
    (hres : ∀ t, t ∈ s'.resumed ↔ (t ∈ s.resumed ∨ (t = w.ticket ∧ w.ticket ∈ s'.resumed)))
    (hpick : ∀ t, t ∈ s'.picked ↔ (t ∈ s.picked ∨ (t = w.ticket ∧ w.ticket ∈ s'.picked)))
    (hok : callerOk s' (.waiting w))
    (hmW : s'.worker.holdsMutex = true ↔ s'.mutex = some .child)
    (hmC : ∀ j, s'.mutex ≠ some (.caller j))
    (hnodup : s'.picked.Nodup) : Inv s' :=
  have hm : ∀ j, (s.callers j).holdsMutex = false := by
    intro j
    by_cases hj : j = i
    · subst hj; rw [hpc]; rfl
    · have := inactive_of_invoke h hinv hj
      revert this
      cases s.callers j <;> simp [CallerPc.holdsInvoke, CallerPc.holdsMutex]
  have hlt : w.ticket < s.nextTicket := h.tick i w (by rw [hpc]; rfl)
  { invk := by
      intro j
      rw [hc, hi]
      exact h.invk j
    mtxC := by
      intro j
      rw [hc, hm j]
      simp [hmC j]
    mtxW := hmW
    quiet := by
      intro h0
      rw [hi, hinv] at h0
      cases h0
    ok := ok_worker h hinv hpc hc hres hpick hok
    uniq := by rw [hc]; exact h.uniq
    tick := by rw [hc, h7]; exact h.tick
    resumedLt := by
      intro t ht
      rw [h7]
      rcases (hres t).1 ht with h1 | h1
      · exact h.resumedLt t h1
      · rw [h1.1]; exact hlt
    pickedLt := by
      intro t ht
      rw [h7]
      rcases (hpick t).1 ht with h1 | h1
      · exact h.pickedLt t h1
      · rw [h1.1]; exact hlt
    nodup := hnodup }

theorem mem_or_same (l : List Nat) (x t : Nat) : t ∈ l ↔ (t ∈ l ∨ (t = x ∧ x ∈ l)) := by
  constructor
  · exact Or.inl
  · rintro (h | ⟨rfl, h⟩) <;> exact h

theorem mem_cons_or_same (l : List Nat) (x t : Nat) :
    t ∈ x :: l ↔ (t ∈ l ∨ (t = x ∧ x ∈ x :: l)) := by
  constructor
  · intro h
    rcases List.mem_cons.1 h with h | h
    · exact Or.inr ⟨h, List.mem_cons_self _ _⟩
    · exact Or.inl h
  · rintro (h | ⟨rfl, _⟩)
    · exact List.mem_cons_of_mem _ h
    · exact List.mem_cons_self _ _

/-- The phase of the caller whose work the worker has picked up. -/
theorem picked_of_busy {s : Bridge n} {w0 w : Work}
    (hph : Posted s w0 ∨ Picked s w0 ∨ Done s w0)
    (hw : s.worker = .clearReady w ∨ s.worker = .makeResume w ∨ s.worker = .callWork w ∨
      s.worker = .running w ∨ s.worker = .resumeSetFinished w) :
    Picked s w0 ∧ w0 = w ∧ (s.readyToWork = true ↔ s.worker = .clearReady w) := by
  rcases hph with hp | hp | hp
  · exfalso
    rcases hp.2.2.2.2 with hb | hb <;> rcases hw with hw | hw | hw | hw | hw <;>
      rw [hw] at hb <;> cases hb
  · refine ⟨hp, ?_⟩
    rcases hp.2.2.2 with ⟨h1, hr⟩ | ⟨hr, h1 | h1 | h1 | h1⟩ <;>
      rcases hw with hw | hw | hw | hw | hw <;> rw [hw] at h1 <;> cases h1 <;>
      simp [hr, hw]
  · exfalso
    rcases hp.2.2.2 with hb | hb <;> rcases hw with hw | hw | hw | hw | hw <;>
      rw [hw] at hb <;> cases hb

theorem inv_workerStep {s s' : Bridge n} (h : Inv s) (hs : workerStep s = some s') :
    Inv s' := by
  unfold workerStep at hs
  split at hs
  · -- iterStart
    rename_i hw
    have hmW := h.mtxW
    rw [hw] at hmW
    split at hs <;> cases hs
    · exact inv_worker_between h rfl rfl rfl rfl rfl rfl rfl rfl (by rw [hw]; rfl) rfl
        (by simpa [WorkerPc.holdsMutex] using hmW) (fun _ => Iff.rfl)
    · exact inv_worker_between h rfl rfl rfl rfl rfl rfl rfl rfl (by rw [hw]; rfl) rfl
        (by simpa [WorkerPc.holdsMutex] using hmW) (fun _ => Iff.rfl)
  · -- lock
    rename_i hw
    split at hs
    · rename_i hfree
      cases hs
      exact inv_worker_between h rfl rfl rfl rfl rfl rfl rfl rfl (by rw [hw]; rfl) rfl
        (by simp [WorkerPc.holdsMutex]) (fun j => by simp [hfree])
    · cases hs
  · -- waitCheck
    rename_i hw
    have hm : s.mutex = some .child := h.mtxW.1 (by rw [hw]; rfl)
    split at hs
    · rename_i hr
      cases hs
      exact
        { invk := h.invk
          mtxC := h.mtxC
          mtxW := by simp [WorkerPc.holdsMutex, hm]
          quiet := by
            intro h0
            have := (h.quiet h0).1
            rw [hr] at this
            cases this
          ok := by
            intro j
            have := h.ok j
            revert this
            show callerOk s (s.callers j) → callerOk _ (s.callers j)
            cases s.callers j <;>
              simp_all [callerOk, Fresh, Quiet, Posted, Picked, Done, WorkerPc.betweenWork]
          uniq := h.uniq
          tick := h.tick
          resumedLt := h.resumedLt
          pickedLt := h.pickedLt
          nodup := h.nodup }
    · cases hs
      exact inv_worker_between h rfl rfl rfl rfl rfl rfl rfl rfl (by rw [hw]; rfl) rfl
        (by simp [WorkerPc.holdsMutex]) (fun j => by simp [hm])
  · -- waiting
    rename_i hw
    split at hs
    · rename_i hfree
      cases hs
      exact inv_worker_between h rfl rfl rfl rfl rfl rfl rfl rfl (by rw [hw]; rfl) rfl
        (by simp [WorkerPc.holdsMutex]) (fun j => by simp [hfree])
    · cases hs
  · -- copyWork
    rename_i hw
    have hm : s.mutex = some .child := h.mtxW.1 (by rw [hw]; rfl)
    obtain ⟨i, w0, hinv, hpc, hph⟩ := active_waiting h (by rw [hw]; rfl)
    have hposted : Posted s w0 := by
      rcases hph with hp | hp | hp
      · exact hp
      · simp [Picked, hw] at hp
      · simp [Done, hw, WorkerPc.betweenWork] at hp
    split at hs
    · rename_i w hwork
      cases hs
      have hww : w0 = w := by
        have := hposted.1
        rw [hwork] at this
        exact (Option.some.inj this).symm
      subst hww
      refine inv_worker_busy h hinv hpc rfl rfl rfl (mem_or_same _ _) (mem_cons_or_same _ _)
        ?_ ?_ ?_ ?_
      · right; left
        exact ⟨hposted.2.2.1, hposted.2.2.2.1.1, List.mem_cons_self _ _,
          Or.inl ⟨rfl, hposted.2.1⟩⟩
      · simp [WorkerPc.holdsMutex, hm]
      · intro j; simp [hm]
      · exact List.nodup_cons.2 ⟨hposted.2.2.2.1.2, h.nodup⟩
    · cases hs
  · -- clearReady
    rename_i w hw
    have hm : s.mutex = some .child := h.mtxW.1 (by rw [hw]; rfl)
    obtain ⟨i, w0, hinv, hpc, hph⟩ := active_waiting h (by rw [hw]; rfl)
    obtain ⟨hp, rfl, _⟩ := picked_of_busy hph (Or.inl hw)
    cases hs
    refine inv_worker_busy h hinv hpc rfl rfl rfl (mem_or_same _ _) (mem_or_same _ _)
      ?_ ?_ ?_ h.nodup
    · right; left
      exact ⟨hp.1, hp.2.1, hp.2.2.1, Or.inr ⟨rfl, Or.inl rfl⟩⟩
    · simp [WorkerPc.holdsMutex, hm]
    · intro j; simp [hm]
  · -- makeResume
    rename_i w hw
    have hm : s.mutex = some .child := h.mtxW.1 (by rw [hw]; rfl)
    obtain ⟨i, w0, hinv, hpc, hph⟩ := active_waiting h (by rw [hw]; rfl)
    obtain ⟨hp, rfl, hr⟩ := picked_of_busy hph (Or.inr (Or.inl hw))
    have hr : s.readyToWork = false := by simpa [hw] using hr
    cases hs
    refine inv_worker_busy h hinv hpc rfl rfl rfl (mem_or_same _ _) (mem_or_same _ _)
      ?_ ?_ ?_ h.nodup
    · right; left
      exact ⟨hp.1, hp.2.1, hp.2.2.1, Or.inr ⟨hr, Or.inr (Or.inl rfl)⟩⟩
    · simp [WorkerPc.holdsMutex, hm]
    · intro j; simp [hm]
  · -- callWork
    rename_i w hw
    have hm : s.mutex = some .child := h.mtxW.1 (by rw [hw]; rfl)
    obtain ⟨i, w0, hinv, hpc, hph⟩ := active_waiting h (by rw [hw]; rfl)
    obtain ⟨hp, rfl, hr⟩ := picked_of_busy hph (Or.inr (Or.inr (Or.inl hw)))
    have hr : s.readyToWork = false := by simpa [hw] using hr
    cases hs
    refine inv_worker_busy h hinv hpc rfl rfl rfl (mem_or_same _ _) (mem_or_same _ _)
      ?_ ?_ ?_ h.nodup
    · right; left
      exact ⟨hp.1, hp.2.1, hp.2.2.1, Or.inr ⟨hr, Or.inr (Or.inr (Or.inl rfl))⟩⟩
    · simp [WorkerPc.holdsMutex, hm]
    · intro j; simp [hm]
  · -- running
    rename_i w hw
    have hm : s.mutex = some .child := h.mtxW.1 (by rw [hw]; rfl)
    obtain ⟨i, w0, hinv, hpc, hph⟩ := active_waiting h (by rw [hw]; rfl)
    obtain ⟨hp, rfl, hr⟩ := picked_of_busy hph (Or.inr (Or.inr (Or.inr (Or.inl hw))))
    have hr : s.readyToWork = false := by simpa [hw] using hr
    cases hs
    refine inv_worker_busy h hinv hpc rfl rfl rfl (mem_or_same _ _) (mem_or_same _ _)
      ?_ ?_ ?_ h.nodup
    · right; left
      exact ⟨hp.1, hp.2.1, hp.2.2.1, Or.inr ⟨hr, Or.inr (Or.inr (Or.inr rfl))⟩⟩
    · simp [WorkerPc.holdsMutex, hm]
    · intro j; simp [hm]
  · -- resumeSetFinished
    rename_i w hw
    have hm : s.mutex = some .child := h.mtxW.1 (by rw [hw]; rfl)
    obtain ⟨i, w0, hinv, hpc, hph⟩ := active_waiting h (by rw [hw]; rfl)
    obtain ⟨hp, rfl, hr⟩ := picked_of_busy hph (Or.inr (Or.inr (Or.inr (Or.inr hw))))
    have hr : s.readyToWork = false := by simpa [hw] using hr
    cases hs
    refine inv_worker_busy h hinv hpc rfl rfl rfl (mem_cons_or_same _ _) (mem_or_same _ _)
      ?_ ?_ ?_ h.nodup
    · right; right
      exact ⟨rfl, hr, List.mem_cons_self _ _, Or.inl rfl⟩
    · simp [WorkerPc.holdsMutex, hm]
    · intro j; simp [hm]
  · -- resumeUnlock
    rename_i w hw
    obtain ⟨i, w0, hinv, hpc, hph⟩ := active_waiting h (by rw [hw]; rfl)
    have hdone : Done s w0 := by
      rcases hph with hp | hp | hp
      · simp [Posted, hw, WorkerPc.betweenWork] at hp
      · simp [Picked, hw] at hp
      · exact hp
    cases hs
    refine inv_worker_busy h hinv hpc rfl rfl rfl (mem_or_same _ _) (mem_or_same _ _)
      ?_ ?_ ?_ h.nodup
    · right; right
      exact ⟨hdone.1, hdone.2.1, hdone.2.2.1, Or.inr rfl⟩
    · simp [WorkerPc.holdsMutex]
    · intro j; simp
  · -- resumeNotify
    rename_i w hw
    have hmW := h.mtxW
    rw [hw] at hmW
    cases hs
    exact inv_worker_between h rfl rfl rfl rfl rfl rfl rfl rfl (by rw [hw]; rfl) rfl
      (by simpa [WorkerPc.holdsMutex] using hmW) (fun _ => Iff.rfl)
  · -- resumeRearm
    rename_i w hw
    have hmW := h.mtxW
    rw [hw] at hmW
    cases hs
    exact inv_worker_between h rfl rfl rfl rfl rfl rfl rfl rfl (by rw [hw]; rfl) rfl
      (by simpa [WorkerPc.holdsMutex] using hmW) (fun _ => Iff.rfl)
  · cases hs

theorem inv_initial (n : Nat) (f : Bool) : Inv (Bridge.initial n f) :=
  { invk := by intro i; simp [Bridge.initial, CallerPc.holdsInvoke]
    mtxC := by intro i; simp [Bridge.initial, CallerPc.holdsMutex]
    mtxW := by simp [Bridge.initial, WorkerPc.holdsMutex]
    quiet := fun _ => ⟨rfl, rfl⟩
    ok := fun _ => trivial
    uniq := by intro i j w w' h1; simp [Bridge.initial, CallerPc.work?] at h1
    tick := by intro i w h1; simp [Bridge.initial, CallerPc.work?] at h1
    resumedLt := by intro t ht; simp [Bridge.initial] at ht
    pickedLt := by intro t ht; simp [Bridge.initial] at ht
    nodup := List.nodup_nil }

theorem inv_step {s s' : Bridge n} (h : Inv s) (a : Action n) (hs : step a s = some s') :
    Inv s' := by
  cases a with
  | enter i poison => exact inv_enter h i poison hs
  | caller i => exact inv_callerStep h i hs
  | worker => exact inv_workerStep h hs

theorem inv_of_reachable {s : Bridge n} (h : Reachable s) : Inv s := by
  induction h with
  | init f => exact inv_initial n f
  | step a _ hs ih => exact inv_step ih a hs

end WorkerSteps2


section Destruction

variable {n : Nat}

theorem dinv_initial (n : Nat) (f : Bool) : DInv (Bridge.initial n f) :=
  { dstr := by intro i h; simp [Bridge.initial, CallerPc.poisoned] at h
    joined := by intro i h; simp [Bridge.initial] at h
    q := by intro h; simp [Bridge.initial] at h
    exitedQ := by intro h; simp [Bridge.initial] at h }

theorem dinv_enter {s s' : Bridge n} (d : DInv s) (i : Fin n) (poison : Bool)
    (hs : enter i poison s = some s') : DInv s' := by
  unfold enter at hs
  split at hs
  · rename_i hg
    cases hs
    obtain ⟨hidle, hnd, hall⟩ := hg
    have hnp : ∀ k, (s.callers k).poisoned = false := by
      intro k
      by_contra hc
      have := (d.dstr k (by simpa using hc)).1
      rw [hnd] at this
      cases this
    exact
      { dstr := by
          intro k hk
          by_cases hki : k = i
          · subst hki
            simp only [Function.update_same, CallerPc.poisoned] at hk
            refine ⟨hk, fun j hj => ?_⟩
            simp only [Function.update_noteq hj]
            exact hall hk j
          · simp only [Function.update_noteq hki] at hk
            rw [hnp k] at hk
            cases hk
        joined := by
          intro k hk
          by_cases hki : k = i
          · subst hki
            simp only [Function.update_same] at hk
            cases hk
          · simp only [Function.update_noteq hki] at hk
            exact d.joined k hk
        q := by
          intro hq
          have := (d.q hq).1
          rw [hnd] at this
          cases this
        exitedQ := d.exitedQ }
  · cases hs

/-- A caller moves from `pc` to `pc'` within `invoke`, keeping its work. -/
theorem dinv_caller_move {s s' : Bridge n} (d : DInv s) (i : Fin n) (pc' : CallerPc)
    (hc : s'.callers = Function.update s.callers i pc')
    (hnidle : s.callers i ≠ .idle)
    (hp : pc'.poisoned = true → (s.callers i).poisoned = true)
    (hj : pc' = .destroyed → s.worker = .exited)
    (hpast : (s.callers i).pastPosting = true → pc'.pastPosting = true)
    (hr : s'.readyToWork = true → s.readyToWork = true ∨ (s.callers i).pastPosting = false)
    (hd : s'.destroying = s.destroying) (hq : s'.quit = s.quit) (hw : s'.worker = s.worker) :
    DInv s' :=
  { dstr := by
      intro k hk
      rw [hc] at hk
      rw [hd, hc]
      by_cases hki : k = i
      · subst hki
        rw [Function.update_same] at hk
        obtain ⟨h1, h2⟩ := d.dstr k (hp hk)
        refine ⟨h1, fun j hj => ?_⟩
        rw [Function.update_noteq hj]
        exact h2 j hj
      · rw [Function.update_noteq hki] at hk
        obtain ⟨_, h2⟩ := d.dstr k hk
        exact absurd (h2 i (Ne.symm hki)) hnidle
    joined := by
      intro k hk
      rw [hc] at hk
      rw [hw]
      by_cases hki : k = i
      · subst hki
        rw [Function.update_same] at hk
        exact hj hk
      · rw [Function.update_noteq hki] at hk
        exact d.joined k hk
    q := by
      intro hq'
      rw [hq] at hq'
      obtain ⟨h1, h2, h3, h4⟩ := d.q hq'
      refine ⟨by rw [hd]; exact h1, ?_, by rw [hw]; exact h3, ?_⟩
      · by_contra hc'
        rcases hr (by simpa using hc') with h5 | h5
        · rw [h2] at h5; cases h5
        · rw [h4 i] at h5; cases h5
      · intro k
        rw [hc]
        by_cases hki : k = i
        · subst hki
          rw [Function.update_same]
          exact hpast (h4 k)
        · rw [Function.update_noteq hki]
          exact h4 k
    exitedQ := by rw [hw, hq]; exact d.exitedQ }

theorem dinv_callerStep {s s' : Bridge n} (d : DInv s) (i : Fin n)
    (hs : callerStep i s = some s') : DInv s' := by
  unfold callerStep at hs
  split at hs
  · cases hs
  all_goals rename_i hpc
  · split at hs
    · cases hs
      exact dinv_caller_move d i _ rfl (by rw [hpc]; simp) (by rw [hpc]; exact id)
        (by simp) (by rw [hpc]; simp [CallerPc.pastPosting])
        (fun h => Or.inl h) rfl rfl rfl
    · cases hs
  · split at hs
    · cases hs
      exact dinv_caller_move d i _ rfl (by rw [hpc]; simp) (by rw [hpc]; exact id)
        (by simp) (by rw [hpc]; simp [CallerPc.pastPosting])
        (fun h => Or.inl h) rfl rfl rfl
    · cases hs
  · cases hs
    exact dinv_caller_move d i _ rfl (by rw [hpc]; simp) (by rw [hpc]; exact id)
      (by simp) (by rw [hpc]; simp [CallerPc.pastPosting])
      (fun h => Or.inl h) rfl rfl rfl
  · cases hs
    exact dinv_caller_move d i _ rfl (by rw [hpc]; simp) (by rw [hpc]; exact id)
      (by simp) (by rw [hpc]; simp [CallerPc.pastPosting])
      (fun h => Or.inl h) rfl rfl rfl
  · cases hs
    exact dinv_caller_move d i _ rfl (by rw [hpc]; simp) (by rw [hpc]; exact id)
      (by simp) (by rw [hpc]; simp [CallerPc.pastPosting])
      (fun _ => Or.inr (by rw [hpc]; rfl)) rfl rfl rfl
  · cases hs
    exact dinv_caller_move d i _ rfl (by rw [hpc]; simp) (by rw [hpc]; exact id)
      (by simp) (by rw [hpc]; simp [CallerPc.pastPosting])
      (fun h => Or.inl h) rfl rfl rfl
  · split at hs
    · cases hs
      exact dinv_caller_move d i _ rfl (by rw [hpc]; simp) (by rw [hpc]; exact id)
        (by simp) (by rw [hpc]; simp [CallerPc.pastPosting])
        (fun h => Or.inl h) rfl rfl rfl
    · cases hs
      exact dinv_caller_move d i _ rfl (by rw [hpc]; simp) (by rw [hpc]; exact id)
        (by simp) (by rw [hpc]; simp [CallerPc.pastPosting])
        (fun h => Or.inl h) rfl rfl rfl
  · split at hs
    · cases hs
      exact dinv_caller_move d i _ rfl (by rw [hpc]; simp) (by rw [hpc]; exact id)
        (by simp) (by rw [hpc]; simp [CallerPc.pastPosting])
        (fun h => Or.inl h) rfl rfl rfl
    · cases hs
  · cases hs
    exact dinv_caller_move d i _ rfl (by rw [hpc]; simp) (by rw [hpc]; exact id)
      (by simp) (by rw [hpc]; simp [CallerPc.pastPosting])
      (fun h => Or.inl h) rfl rfl rfl
  · cases hs
    exact dinv_caller_move d i _ rfl (by rw [hpc]; simp) (by rw [hpc]; exact id)
      (by simp) (by rw [hpc]; simp [CallerPc.pastPosting])
      (fun h => Or.inl h) rfl rfl rfl
  · split at hs
    · rename_i hpoison
      split at hs
      · rename_i hex
        cases hs
        exact dinv_caller_move d i _ rfl (by rw [hpc]; simp)
          (by rw [hpc]; intro _; exact hpoison)
          (fun _ => hex) (by rw [hpc]; simp [CallerPc.pastPosting])
          (fun h => Or.inl h) rfl rfl rfl
      · cases hs
    · cases hs
      exact dinv_caller_move d i _ rfl (by rw [hpc]; simp)
        (by simp [CallerPc.poisoned])
        (by simp) (by rw [hpc]; simp [CallerPc.pastPosting])
        (fun h => Or.inl h) rfl rfl rfl
  · cases hs

end Destruction


section Destruction2

variable {n : Nat}

/-- A step of the worker that leaves `quit` as it is. -/
theorem dinv_worker_move {s s' : Bridge n} (d : DInv s)
    (hc : s'.callers = s.callers) (hd : s'.destroying = s.destroying)
    (hq : s'.quit = s.quit) (hne : s.worker ≠ .exited)
    (hex : s'.worker = .exited → s.quit = true)
    (haq : s.quit = true → s.worker.afterQuit = true →
      s'.worker.afterQuit = true ∧ s'.readyToWork = s.readyToWork) : DInv s' :=
  { dstr := by rw [hc, hd]; exact d.dstr
    joined := by
      intro k hk
      rw [hc] at hk
      exact absurd (d.joined k hk) hne
    q := by
      intro hq'
      rw [hq] at hq'
      obtain ⟨h1, h2, h3, h4⟩ := d.q hq'
      obtain ⟨h5, h6⟩ := haq hq' h3
      exact ⟨by rw [hd]; exact h1, by rw [h6]; exact h2, h5, by rw [hc]; exact h4⟩
    exitedQ := by
      intro h
      rw [hq]
      exact hex h }

theorem dinv_workerStep {s s' : Bridge n} (h : Inv s) (d : DInv s)
    (hs : workerStep s = some s') : DInv s' := by
  unfold workerStep at hs
  split at hs
  · rename_i hw
    split at hs
    · rename_i hq
      cases hs
      exact dinv_worker_move d rfl rfl rfl (by rw [hw]; simp) (fun _ => hq)
        (fun _ _ => ⟨rfl, rfl⟩)
    · rename_i hq
      cases hs
      exact dinv_worker_move d rfl rfl rfl (by rw [hw]; simp) (by simp)
        (fun hq' _ => absurd hq' hq)
  · rename_i hw
    split at hs
    · cases hs
      exact dinv_worker_move d rfl rfl rfl (by rw [hw]; simp) (by simp)
        (fun _ ha => by rw [hw] at ha; cases ha)
    · cases hs
  · rename_i hw
    split at hs
    · cases hs
      exact dinv_worker_move d rfl rfl rfl (by rw [hw]; simp) (by simp)
        (fun _ ha => by rw [hw] at ha; cases ha)
    · cases hs
      exact dinv_worker_move d rfl rfl rfl (by rw [hw]; simp) (by simp)
        (fun _ ha => by rw [hw] at ha; cases ha)
  · rename_i hw
    split at hs
    · cases hs
      exact dinv_worker_move d rfl rfl rfl (by rw [hw]; simp) (by simp)
        (fun _ ha => by rw [hw] at ha; cases ha)
    · cases hs
  · rename_i hw
    split at hs
    · cases hs
      exact dinv_worker_move d rfl rfl rfl (by rw [hw]; simp) (by simp)
        (fun _ ha => by rw [hw] at ha; cases ha)
    · cases hs
  · rename_i w hw
    cases hs
    exact dinv_worker_move d rfl rfl rfl (by rw [hw]; simp) (by simp)
      (fun _ ha => by rw [hw] at ha; cases ha)
  · rename_i w hw
    cases hs
    exact dinv_worker_move d rfl rfl rfl (by rw [hw]; simp) (by simp)
      (fun _ ha => by rw [hw] at ha; cases ha)
  · rename_i w hw
    cases hs
    exact dinv_worker_move d rfl rfl rfl (by rw [hw]; simp) (by simp)
      (fun _ ha => by rw [hw] at ha; cases ha)
  · -- running: the only step that can set `quit`
    rename_i w hw
    cases hs
    obtain ⟨i, w0, hinv, hpc, hph⟩ := active_waiting h (by rw [hw]; rfl)
    obtain ⟨_, rfl, hr⟩ := picked_of_busy hph (Or.inr (Or.inr (Or.inr (Or.inl hw))))
    have hr : s.readyToWork = false := by simpa [hw] using hr
    exact
      { dstr := d.dstr
        joined := by
          intro k hk
          have := d.joined k hk
          rw [hw] at this
          cases this
        q := by
          intro hq'
          have hq' : (s.quit || w0.poison) = true := hq'
          rcases Bool.or_eq_true_iff.1 hq' with hq | hp
          · have := (d.q hq).2.2.1
            rw [hw] at this
            cases this
          · obtain ⟨h1, h2⟩ := d.dstr i (by rw [hpc]; exact hp)
            refine ⟨h1, hr, rfl, fun k => ?_⟩
            by_cases hk : k = i
            · subst hk
              show (s.callers k).pastPosting = true
              rw [hpc]; rfl
            · show (s.callers k).pastPosting = true
              rw [h2 k hk]; rfl
        exitedQ := by intro h0; cases h0 }
  · rename_i w hw
    cases hs
    exact dinv_worker_move d rfl rfl rfl (by rw [hw]; simp) (by simp)
      (fun _ _ => ⟨rfl, rfl⟩)
  · rename_i w hw
    cases hs
    exact dinv_worker_move d rfl rfl rfl (by rw [hw]; simp) (by simp)
      (fun _ _ => ⟨rfl, rfl⟩)
  · rename_i w hw
    cases hs
    exact dinv_worker_move d rfl rfl rfl (by rw [hw]; simp) (by simp)
      (fun _ _ => ⟨rfl, rfl⟩)
  · rename_i w hw
    cases hs
    exact dinv_worker_move d rfl rfl rfl (by rw [hw]; simp) (by simp)
      (fun _ _ => ⟨rfl, rfl⟩)
  · cases hs

theorem dinv_step {s s' : Bridge n} (h : Inv s) (d : DInv s) (a : Action n)
    (hs : step a s = some s') : DInv s' := by
  cases a with
  | enter i poison => exact dinv_enter d i poison hs
  | caller i => exact dinv_callerStep d i hs
  | worker => exact dinv_workerStep h d hs

theorem dinv_of_reachable {s : Bridge n} (h : Reachable s) : DInv s := by
  induction h with
  | init f => exact dinv_initial n f
  | step a hr hs ih => exact dinv_step (inv_of_reachable hr) ih a hs

theorem reachable_execute {s : Bridge n} (h : Reachable s) :
    ∀ acts : List (Action n), Reachable (execute acts s) := by
  intro acts
  induction acts generalizing s with
  | nil => exact h
  | cons a acts ih =>
    simp only [execute]
    cases hs : step a s with
    | none => exact h
    | some s' => exact ih (Reachable.step a h hs)

end Destruction2


section Claims

variable {n : Nat}

/-- Only the first statement of the resume callback sets `finishedWork`, and
it records the ticket of the work it belongs to. -/
theorem step_resumed {s s' : Bridge n} (a : Action n) (hs : step a s = some s') :
    (s'.resumed = s.resumed ∧ (s.finishedWork = false → s'.finishedWork = false)) ∨
      (a = .worker ∧ ∃ w, s.worker = .resumeSetFinished w ∧
        s'.resumed = w.ticket :: s.resumed ∧ s'.finishedWork = true) := by
  cases a with
  | enter i p =>
    simp only [step, enter] at hs
    split at hs <;> cases hs
    exact Or.inl ⟨rfl, id⟩
  | caller i =>
    simp only [step, callerStep] at hs
    split at hs <;> (try split at hs) <;> (try split at hs) <;>
      first
      | (cases hs; done)
      | (cases hs; exact Or.inl ⟨rfl, id⟩)
      | (cases hs; exact Or.inl ⟨rfl, fun _ => rfl⟩)
  | worker =>
    simp only [step, workerStep] at hs
    split at hs <;> (try split at hs) <;>
      first
      | (cases hs; done)
      | (cases hs; exact Or.inl ⟨rfl, id⟩)
      | (rename_i w hw; cases hs; exact Or.inr ⟨rfl, w, hw, rfl, rfl⟩)

/-- Only the body of the poison pill sets `quit`. -/
theorem step_quit {s s' : Bridge n} (a : Action n) (hs : step a s = some s')
    (hq : s.quit = false) (hq' : s'.quit = true) :
    a = .worker ∧ ∃ w, s.worker = .running w ∧ w.poison = true ∧
      s'.worker = .resumeSetFinished w := by
  cases a with
  | enter i p =>
    simp only [step, enter] at hs
    split at hs <;> cases hs
    exact absurd (show s.quit = true from hq') (by rw [hq]; simp)
  | caller i =>
    simp only [step, callerStep] at hs
    split at hs <;> (try split at hs) <;> (try split at hs) <;>
      first
      | (cases hs; done)
      | (cases hs; exact absurd (show s.quit = true from hq') (by rw [hq]; simp))
  | worker =>
    simp only [step, workerStep] at hs
    split at hs <;> (try split at hs) <;>
      first
      | (cases hs; done)
      | (cases hs; exact absurd (show s.quit = true from hq') (by rw [hq]; simp))
      | (rename_i w hw; cases hs
         exact ⟨rfl, w, hw, by simpa [hq] using hq', rfl⟩)

/-- A step that changes one of the fields `work`, `readyToWork`,
`finishedWork`, `quit` executes a statement that writes one of them. -/
theorem step_writes {s s' : Bridge n} (a : Action n) (hs : step a s = some s')
    (hch : s'.work ≠ s.work ∨ s'.readyToWork ≠ s.readyToWork ∨
      s'.finishedWork ≠ s.finishedWork ∨ s'.quit ≠ s.quit) :
    writesShared a s = true := by
  cases a with
  | enter i p =>
    simp only [step, enter] at hs
    split at hs <;> cases hs
    simp at hch
  | caller i =>
    simp only [step, callerStep] at hs
    split at hs <;> (try split at hs) <;> (try split at hs) <;>
      first
      | (cases hs; done)
      | (cases hs; simp [Bridge.setCaller] at hch; done)
      | (rename_i hpc; cases hs; simp [writesShared, hpc])
  | worker =>
    simp only [step, workerStep] at hs
    split at hs <;> (try split at hs) <;>
      first
      | (cases hs; done)
      | (cases hs; simp [Bridge.setCaller] at hch; done)
      | (rename_i w hw; cases hs; simp [writesShared, hw] at hch ⊢; exact hch.1)
      | (rename_i hw; cases hs; simp [writesShared, hw])

end Claims

/-! ### Progress: the calls in progress complete -/

section MoreInvariants

variable {n : Nat}

/-- No step clears `quit`. -/
theorem step_quit_mono {s s' : Bridge n} (a : Action n) (hs : step a s = some s')
    (hq : s.quit = true) : s'.quit = true := by
  cases a with
  | enter i p =>
    simp only [step, enter] at hs
    split at hs <;> cases hs
    exact hq
  | caller i =>
    simp only [step, callerStep] at hs
    split at hs <;> (try split at hs) <;> (try split at hs) <;>
      first
      | (cases hs; done)
      | (cases hs; exact hq)
  | worker =>
    simp only [step, workerStep] at hs
    split at hs <;> (try split at hs) <;>
      first
      | (cases hs; done)
      | (cases hs; exact hq)
      | (cases hs; simp [hq])

/-- What a step does to the works of the callers, to `resumed` and to the
worker, as far as the invariant `QInv` is concerned. -/
theorem qinv_step {s s' : Bridge n} (h : Inv s) (q : QInv s) (a : Action n)
    (hs : step a s = some s') : QInv s' := by
  have hmono := step_quit_mono a hs
  cases a with
  | enter i p =>
    simp only [step, enter] at hs
    split at hs <;> cases hs
    rename_i hg
    exact
      { busyQ := q.busyQ
        resumedQ := by
          intro j w hw hp hr
          by_cases hj : j = i
          · subst hj
            simp only [Function.update_same, CallerPc.work?, Option.some.injEq] at hw
            rw [← hw] at hr
            exact absurd (h.resumedLt _ hr) (Nat.lt_irrefl _)
          · simp only [Function.update_noteq hj] at hw
            exact q.resumedQ j w hw hp hr }
  | caller i =>
    have key : ∀ pc', s'.callers = Function.update s.callers i pc' →
        (pc'.work? = (s.callers i).work? ∨ pc'.work? = none) →
        s'.resumed = s.resumed → s'.worker = s.worker → QInv s' := by
      intro pc' hc hw hres hwk
      exact
        { busyQ := by
            intro w hw' hp
            rw [hwk] at hw'
            exact hmono (q.busyQ w hw' hp)
          resumedQ := by
            intro j w hjw hp hr
            rw [hc] at hjw
            rw [hres] at hr
            by_cases hj : j = i
            · subst hj
              rw [Function.update_same] at hjw
              rcases hw with hw | hw
              · exact hmono (q.resumedQ j w (by rw [← hw]; exact hjw) hp hr)
              · rw [hw] at hjw; cases hjw
            · rw [Function.update_noteq hj] at hjw
              exact hmono (q.resumedQ j w hjw hp hr) }
    simp only [step, callerStep] at hs
    split at hs <;> (try split at hs) <;> (try split at hs) <;>
      first
      | (cases hs; done)
      | (rename_i hpc; cases hs; exact key _ rfl (Or.inl (by rw [hpc]; rfl)) rfl rfl)
      | (rename_i hpc _; cases hs; exact key _ rfl (Or.inl (by rw [hpc]; rfl)) rfl rfl)
      | (cases hs; exact key _ rfl (Or.inr rfl) rfl rfl)
  | worker =>
    have key : s'.callers = s.callers → s'.resumed = s.resumed →
        (∀ w, s'.worker = .resumeSetFinished w → w.poison = true → s'.quit = true) →
        QInv s' := by
      intro hc hres hb
      exact
        { busyQ := hb
          resumedQ := by
            intro j w hjw hp hr
            rw [hc] at hjw
            rw [hres] at hr
            exact hmono (q.resumedQ j w hjw hp hr) }
    simp only [step, workerStep] at hs
    split at hs <;> (try split at hs) <;>
      first
      | (cases hs; done)
      | (cases hs
         refine key rfl rfl ?_
         intro w hw
         cases hw
         done)
      | (rename_i w hw
         cases hs
         refine key rfl rfl ?_
         intro w' hw' hp
         cases hw'
         simp [hp])
      | (rename_i w hw
         cases hs
         obtain ⟨k, w0, _, hpc, hph⟩ := active_waiting h (by rw [hw]; rfl)
         obtain ⟨_, rfl, _⟩ := picked_of_busy hph (Or.inr (Or.inr (Or.inr (Or.inr hw))))
         exact
           { busyQ := by intro w' hw'; cases hw'
             resumedQ := by
               intro j w hjw hp hr
               rcases List.mem_cons.1 hr with hr | hr
               · have hjk : j = k := h.uniq j k w w0 hjw (by rw [hpc]; rfl) hr
                 subst hjk
                 rw [hpc] at hjw
                 simp only [CallerPc.work?, Option.some.injEq] at hjw
                 subst hjw
                 exact q.busyQ _ hw hp
               · exact q.resumedQ j w hjw hp hr })

theorem qinv_initial (n : Nat) (f : Bool) : QInv (Bridge.initial n f) :=
  { busyQ := by intro w hw; simp [Bridge.initial] at hw
    resumedQ := by intro i w hw; simp [Bridge.initial, CallerPc.work?] at hw }

theorem qinv_of_reachable {s : Bridge n} (h : Reachable s) : QInv s := by
  induction h with
  | init f => exact qinv_initial n f
  | step a hr hs ih => exact qinv_step (inv_of_reachable hr) ih a hs

end MoreInvariants

section Outstanding

variable {n : Nat}

theorem busyWith_inj {pc : WorkerPc} {w w' : Work} (h : pc.busyWith w) (h' : pc.busyWith w') :
    w = w' := by
  rcases h with h | h | h | h | h <;> rcases h' with h' | h' | h' | h' | h' <;>
    rw [h] at h' <;> cases h' <;> rfl

theorem busyWith_not_between {pc : WorkerPc} {w : Work} (h : pc.busyWith w) :
    pc.betweenWork = false := by
  rcases h with h | h | h | h | h <;> rw [h] <;> rfl

/-- The work the worker is busy with has been picked up and has not been
resumed. -/
theorem busy_picked {s : Bridge n} (h : Inv s) {w : Work} (hw : s.worker.busyWith w) :
    w.ticket ∈ s.picked ∧ w.ticket ∉ s.resumed := by
  obtain ⟨k, w0, _, _, hph⟩ := active_waiting h (busyWith_not_between hw)
  obtain ⟨hp, rfl, _⟩ := picked_of_busy hph hw
  exact ⟨hp.2.2.1, hp.2.1⟩

theorem pinv_same {s s' : Bridge n} (p : PInv s) (hp : s'.picked = s.picked)
    (hr : s'.resumed = s.resumed) (hw : ∀ w, s.worker.busyWith w → s'.worker.busyWith w) :
    PInv s' :=
  { sub := by rw [hp, hr]; exact p.sub
    out := by
      rw [hp, hr]
      intro t ht hn
      obtain ⟨w, hw1, hw2⟩ := p.out t ht hn
      exact ⟨w, hw1, hw w hw2⟩ }

theorem pinv_step {s s' : Bridge n} (h : Inv s) (p : PInv s) (a : Action n)
    (hs : step a s = some s') : PInv s' := by
  cases a with
  | enter i b =>
    simp only [step, enter] at hs
    split at hs <;> cases hs
    exact pinv_same p rfl rfl (fun _ hw => hw)
  | caller i =>
    simp only [step, callerStep] at hs
    split at hs <;> (try split at hs) <;> (try split at hs) <;>
      first
      | (cases hs; done)
      | (cases hs; exact pinv_same p rfl rfl (fun _ hw => hw))
  | worker =>
    simp only [step, workerStep] at hs
    split at hs <;> (try split at hs) <;>
      first
      | (cases hs; done)
      | (rename_i w hw
         cases hs
         refine pinv_same p rfl rfl ?_
         intro w' hb
         have hb' : s.worker.busyWith w := by simp [WorkerPc.busyWith, hw]
         have := busyWith_inj hb hb'
         subst this
         first
         | exact Or.inr (Or.inl rfl)
         | exact Or.inr (Or.inr (Or.inl rfl))
         | exact Or.inr (Or.inr (Or.inr (Or.inl rfl)))
         | exact Or.inr (Or.inr (Or.inr (Or.inr rfl))))
      | (rename_i hw
         cases hs
         refine pinv_same p rfl rfl ?_
         intro w hb
         rcases hb with hb | hb | hb | hb | hb <;> rw [hw] at hb <;> cases hb)
      | (rename_i hw _
         cases hs
         refine pinv_same p rfl rfl ?_
         intro w hb
         rcases hb with hb | hb | hb | hb | hb <;> rw [hw] at hb <;> cases hb)
      | (rename_i w hw
         cases hs
         have hb : s.worker.busyWith w := by simp [WorkerPc.busyWith, hw]
         exact
           { sub := by
               intro t ht
               rcases List.mem_cons.1 ht with ht | ht
               · rw [ht]; exact (busy_picked h hb).1
               · exact p.sub t ht
             out := by
               intro t ht hn
               exfalso
               obtain ⟨w', hw1, hw2⟩ := p.out t ht (fun hm => hn (List.mem_cons_of_mem _ hm))
               have := busyWith_inj hw2 hb
               subst this
               exact hn (by rw [← hw1]; exact List.mem_cons_self _ _) })
      | (rename_i hw _ w hwork
         cases hs
         exact
           { sub := fun t ht => List.mem_cons_of_mem _ (p.sub t ht)
             out := by
               intro t ht hn
               rcases List.mem_cons.1 ht with ht | ht
               · exact ⟨w, ht.symm, by simp [WorkerPc.busyWith]⟩
               · exfalso
                 obtain ⟨w', _, hb⟩ := p.out t ht hn
                 rcases hb with hb | hb | hb | hb | hb <;> rw [hw] at hb <;> cases hb })

theorem pinv_initial (n : Nat) (f : Bool) : PInv (Bridge.initial n f) :=
  { sub := by intro t ht; simp [Bridge.initial] at ht
    out := by intro t ht; simp [Bridge.initial] at ht }

theorem pinv_of_reachable {s : Bridge n} (h : Reachable s) : PInv s := by
  induction h with
  | init f => exact pinv_initial n f
  | step a hr hs ih => exact pinv_step (inv_of_reachable hr) ih a hs

end Outstanding

section Progress

variable {n : Nat}

theorem callerWeight_true_le (f : Bool) (pc : CallerPc) :
    callerWeight true pc ≤ callerWeight f pc := by
  cases pc <;> cases f <;> simp [callerWeight]

theorem callerWeight_inactive (f f' : Bool) {pc : CallerPc} (h : pc.holdsInvoke = false) :
    callerWeight f pc = callerWeight f' pc := by
  cases pc <;> first | rfl | cases h

theorem workerWeight_le (s : Bridge n) : workerWeight s ≤ 17 := by
  unfold workerWeight
  split <;> (try split) <;> (try split) <;> omega

theorem workerWeight_congr {s s' : Bridge n} (hw : s'.worker = s.worker)
    (hq : s'.quit = s.quit) (hr : s'.readyToWork = s.readyToWork) :
    workerWeight s' = workerWeight s := by
  unfold workerWeight
  rw [hw, hq, hr]

theorem sum_update_le (g g' : CallerPc → Nat) (c : Fin n → CallerPc) (i : Fin n)
    (pc : CallerPc) (h : ∀ j, j ≠ i → g' (c j) ≤ g (c j)) :
    (∑ j, g' (Function.update c i pc j)) + g (c i) ≤ (∑ j, g (c j)) + g' pc := by
  rw [← Finset.add_sum_erase Finset.univ (fun j => g' (Function.update c i pc j))
      (Finset.mem_univ i),
    ← Finset.add_sum_erase Finset.univ (fun j => g (c j)) (Finset.mem_univ i)]
  simp only [Function.update_same]
  have hle : ∑ j in Finset.univ.erase i, g' (Function.update c i pc j) ≤
      ∑ j in Finset.univ.erase i, g (c j) := by
    apply Finset.sum_le_sum
    intro j hj
    rw [Function.update_noteq (Finset.ne_of_mem_erase hj)]
    exact h j (Finset.ne_of_mem_erase hj)
  omega

/-- A step of caller `i` lowers the potential when it lowers the weight of
the caller by more than it raises the weight of the worker. -/
theorem potential_caller {s s' : Bridge n} (i : Fin n) (pc : CallerPc)
    (hc : s'.callers = Function.update s.callers i pc)
    (ho : ∀ j, j ≠ i → callerWeight s'.finishedWork (s.callers j) ≤
      callerWeight s.finishedWork (s.callers j))
    (hw : workerWeight s' + callerWeight s'.finishedWork pc <
      workerWeight s + callerWeight s.finishedWork (s.callers i)) :
    potential s' < potential s := by
  have := sum_update_le (callerWeight s.finishedWork) (callerWeight s'.finishedWork)
    s.callers i pc ho
  simp only [potential, hc]
  omega

/-- A step of the worker lowers the potential when it lowers the weight of
the worker. -/
theorem potential_worker {s s' : Bridge n} (hc : s'.callers = s.callers)
    (hf : s'.finishedWork = s.finishedWork ∨ s'.finishedWork = true)
    (hw : workerWeight s' < workerWeight s) : potential s' < potential s := by
  have hle : ∑ j, callerWeight s'.finishedWork (s.callers j) ≤
      ∑ j, callerWeight s.finishedWork (s.callers j) := by
    apply Finset.sum_le_sum
    intro j _
    rcases hf with hf | hf
    · rw [hf]
    · rw [hf]; exact callerWeight_true_le _ _
  simp only [potential, hc]
  omega

theorem holdsInvoke_of_holdsMutex {pc : CallerPc} (h : pc.holdsMutex = true) :
    pc.holdsInvoke = true := by
  cases pc <;> first | rfl | cases h

/-- When neither the holder of `invokeMutex` nor the worker holds `mutex`,
`mutex` is free. -/
theorem mutex_free {s : Bridge n} (h : Inv s) {i : Fin n} (hi : s.invokeMutex = some i)
    (hc : (s.callers i).holdsMutex = false) (hw : s.worker.holdsMutex = false) :
    s.mutex = none := by
  cases hm : s.mutex with
  | none => rfl
  | some o =>
    cases o with
    | caller j =>
      have hj := (h.mtxC j).2 hm
      have hji : j = i := by
        by_contra hne
        have := inactive_of_invoke h hi hne
        rw [holdsInvoke_of_holdsMutex hj] at this
        cases this
      subst hji
      rw [hj] at hc
      cases hc
    | child =>
      have := h.mtxW.2 hm
      rw [this] at hw
      cases hw

/-- The worker goes on with the unit of work it is busy with. -/
theorem worker_busy {s : Bridge n} {w : Work} (hb : s.worker.busyWith w) :
    ∃ s', workerStep s = some s' ∧ potential s' < potential s := by
  rcases hb with hw | hw | hw | hw | hw
  · have hstep : workerStep s = some { s with readyToWork := false, worker := .makeResume w } := by
      simp [workerStep, hw]
    exact ⟨_, hstep, potential_worker rfl (Or.inl rfl) (by simp [workerWeight, hw])⟩
  · have hstep : workerStep s = some { s with worker := .callWork w } := by
      simp [workerStep, hw]
    exact ⟨_, hstep, potential_worker rfl (Or.inl rfl) (by simp [workerWeight, hw])⟩
  · have hstep : workerStep s = some { s with worker := .running w } := by
      simp [workerStep, hw]
    exact ⟨_, hstep, potential_worker rfl (Or.inl rfl) (by simp [workerWeight, hw])⟩
  · have hstep : workerStep s =
        some { s with quit := s.quit || w.poison, worker := .resumeSetFinished w } := by
      simp [workerStep, hw]
    exact ⟨_, hstep, potential_worker rfl (Or.inl rfl) (by simp [workerWeight, hw])⟩
  · have hstep : workerStep s =
        some { s with finishedWork := true, resumed := w.ticket :: s.resumed,
                      worker := .resumeUnlock w } := by
      simp [workerStep, hw]
    exact ⟨_, hstep, potential_worker rfl (Or.inr rfl) (by simp [workerWeight, hw])⟩

/-- The worker releases `mutex` at the end of the resume callback. -/
theorem worker_unlock {s : Bridge n} {w : Work} (hw : s.worker = .resumeUnlock w)
    (hr : s.readyToWork = false) :
    ∃ s', workerStep s = some s' ∧ potential s' < potential s := by
  have hstep : workerStep s = some { s with mutex := none, worker := .resumeNotify w } := by
    simp [workerStep, hw]
  refine ⟨_, hstep, potential_worker rfl (Or.inl rfl) ?_⟩
  cases hq : s.quit <;> simp [workerWeight, hw, hr, hq]

/-- The worker finds nothing posted and blocks in `condition.wait`, which
releases `mutex`. -/
theorem worker_release {s : Bridge n} (hw : s.worker = .waitCheck)
    (hr : s.readyToWork = false) :
    ∃ s', workerStep s = some s' ∧ potential s' < potential s := by
  have hstep : workerStep s = some { s with mutex := none, worker := .waiting } := by
    simp [workerStep, hw, hr]
  exact ⟨_, hstep, potential_worker rfl (Or.inl rfl) (by simp [workerWeight, hw, hr])⟩

/-- The worker executes the `condition.notify_one()` of the resume
callback. -/
theorem worker_notify {s : Bridge n} {w : Work} (hw : s.worker = .resumeNotify w) :
    ∃ s', workerStep s = some s' ∧ potential s' < potential s := by
  have hstep : workerStep s = some { s with worker := .resumeRearm w } := by
    simp [workerStep, hw]
  refine ⟨_, hstep, potential_worker rfl (Or.inl rfl) ?_⟩
  cases hq : s.quit <;> cases hr : s.readyToWork <;> simp [workerWeight, hw, hr, hq]

/-- Once `quit` is set, the worker goes on to its exit. -/
theorem worker_quit {s : Bridge n} (hq : s.quit = true) (hb : s.worker.betweenWork = true)
    (ha : s.worker.afterQuit = true) (hne : s.worker ≠ .exited) :
    ∃ s', workerStep s = some s' ∧ potential s' < potential s := by
  cases hw : s.worker with
  | iterStart =>
    have hstep : workerStep s = some { s with worker := .exited } := by
      simp [workerStep, hw, hq]
    exact ⟨_, hstep, potential_worker rfl (Or.inl rfl) (by simp [workerWeight, hw, hq])⟩
  | resumeNotify w =>
    have hstep : workerStep s = some { s with worker := .resumeRearm w } := by
      simp [workerStep, hw]
    exact ⟨_, hstep, potential_worker rfl (Or.inl rfl) (by simp [workerWeight, hw, hq])⟩
  | resumeRearm w =>
    have hstep : workerStep s = some { s with worker := .iterStart } := by
      simp [workerStep, hw]
    exact ⟨_, hstep, potential_worker rfl (Or.inl rfl) (by simp [workerWeight, hw, hq])⟩
  | exited => exact absurd hw hne
  | lock => rw [hw] at ha; cases ha
  | waitCheck => rw [hw] at ha; cases ha
  | waiting => rw [hw] at ha; cases ha
  | copyWork => rw [hw] at hb; cases hb
  | clearReady w => rw [hw] at hb; cases hb
  | makeResume w => rw [hw] at hb; cases hb
  | callWork w => rw [hw] at hb; cases hb
  | running w => rw [hw] at hb; cases hb
  | resumeSetFinished w => rw [hw] at hb; cases hb
  | resumeUnlock w => rw [hw] at hb; cases hb

/-- The worker goes on to pick up the work posted. -/
theorem worker_posted {s : Bridge n} {w : Work} (hr : s.readyToWork = true)
    (hq : s.quit = false) (hb : s.worker.betweenWork = true ∨ s.worker = .copyWork)
    (hne : s.worker ≠ .exited) (hm : s.worker.holdsMutex = false → s.mutex = none)
    (hwork : s.work = some w) :
    ∃ s', workerStep s = some s' ∧ potential s' < potential s := by
  cases hw : s.worker with
  | iterStart =>
    have hstep : workerStep s = some { s with worker := .lock } := by
      simp [workerStep, hw, hq]
    exact ⟨_, hstep, potential_worker rfl (Or.inl rfl) (by simp [workerWeight, hw, hq, hr])⟩
  | lock =>
    have hfree := hm (by rw [hw]; rfl)
    have hstep : workerStep s = some { s with mutex := some .child, worker := .waitCheck } := by
      simp [workerStep, hw, hfree]
    exact ⟨_, hstep, potential_worker rfl (Or.inl rfl) (by simp [workerWeight, hw, hq, hr])⟩
  | waiting =>
    have hfree := hm (by rw [hw]; rfl)
    have hstep : workerStep s = some { s with mutex := some .child, worker := .waitCheck } := by
      simp [workerStep, hw, hfree]
    exact ⟨_, hstep, potential_worker rfl (Or.inl rfl) (by simp [workerWeight, hw, hq, hr])⟩
  | waitCheck =>
    have hstep : workerStep s = some { s with worker := .copyWork } := by
      simp [workerStep, hw, hr]
    exact ⟨_, hstep, potential_worker rfl (Or.inl rfl) (by simp [workerWeight, hw, hq, hr])⟩
  | copyWork =>
    have hstep : workerStep s =
        some { s with worker := .clearReady w, picked := w.ticket :: s.picked } := by
      simp [workerStep, hw, hwork]
    exact ⟨_, hstep, potential_worker rfl (Or.inl rfl) (by simp [workerWeight, hw])⟩
  | resumeNotify w' =>
    have hstep : workerStep s = some { s with worker := .resumeRearm w' } := by
      simp [workerStep, hw]
    exact ⟨_, hstep, potential_worker rfl (Or.inl rfl) (by simp [workerWeight, hw, hq, hr])⟩
  | resumeRearm w' =>
    have hstep : workerStep s = some { s with worker := .iterStart } := by
      simp [workerStep, hw]
    exact ⟨_, hstep, potential_worker rfl (Or.inl rfl) (by simp [workerWeight, hw, hq, hr])⟩
  | exited => exact absurd hw hne
  | clearReady w' => rw [hw] at hb; rcases hb with hb | hb <;> cases hb
  | makeResume w' => rw [hw] at hb; rcases hb with hb | hb <;> cases hb
  | callWork w' => rw [hw] at hb; rcases hb with hb | hb <;> cases hb
  | running w' => rw [hw] at hb; rcases hb with hb | hb <;> cases hb
  | resumeSetFinished w' => rw [hw] at hb; rcases hb with hb | hb <;> cases hb
  | resumeUnlock w' => rw [hw] at hb; rcases hb with hb | hb <;> cases hb

end Progress

section Progress2

variable {n : Nat}

/-- A statement of caller `i` that leaves the shared flags and the worker
alone lowers the potential when the caller's new position weighs less. -/
theorem caller_flag {s s' : Bridge n} (i : Fin n) (pc : CallerPc)
    (hstep : callerStep i s = some s')
    (hg : ∀ w, s.callers i = .waiting w → callerNotified s w)
    (hc : s'.callers = Function.update s.callers i pc)
    (hw : s'.worker = s.worker) (hq : s'.quit = s.quit) (hr : s'.readyToWork = s.readyToWork)
    (ho : ∀ j, j ≠ i → callerWeight s'.finishedWork (s.callers j) ≤
      callerWeight s.finishedWork (s.callers j))
    (hlt : callerWeight s'.finishedWork pc < callerWeight s.finishedWork (s.callers i)) :
    Advances s := by
  refine ⟨s', Or.inl ⟨i, hstep, hg⟩, potential_caller i pc hc ho ?_⟩
  rw [workerWeight_congr hw hq hr]
  omega

/-- A step of the worker that is not a wake-up from `condition.wait`. -/
theorem worker_adv {s : Bridge n}
    (h : ∃ s', workerStep s = some s' ∧ potential s' < potential s)
    (hg : s.worker = .waiting → workerNotified s) : Advances s := by
  obtain ⟨s', hstep, hlt⟩ := h
  exact ⟨s', Or.inr ⟨hstep, hg⟩, hlt⟩

theorem caller_plain {s s' : Bridge n} (i : Fin n) (pc : CallerPc)
    (hstep : callerStep i s = some s')
    (hg : ∀ w, s.callers i = .waiting w → callerNotified s w)
    (hc : s'.callers = Function.update s.callers i pc) (hf : s'.finishedWork = s.finishedWork)
    (hw : s'.worker = s.worker) (hq : s'.quit = s.quit) (hr : s'.readyToWork = s.readyToWork)
    (hlt : callerWeight s.finishedWork pc < callerWeight s.finishedWork (s.callers i)) :
    Advances s := by
  refine caller_flag i pc hstep hg hc hw hq hr ?_ ?_
  · intro j _
    rw [hf]
  · rw [hf]
    exact hlt

/-- While `invokeMutex` is free, a caller that waits for it takes it, and a
caller that has returned leaves; the destructor joins the worker once the
worker has exited, and the worker is on its way to the exit before. -/
theorem advance_free {s : Bridge n} (h : Inv s) (d : DInv s) (q : QInv s)
    (hinv : s.invokeMutex = none) (hf : ¬ Final s) : Advances s := by
  obtain ⟨i, hi⟩ := not_forall.1 hf
  have hno := inactive_of_free h hinv i
  have hok := h.ok i
  cases hpc : s.callers i with
  | idle => exact absurd (Or.inl hpc) hi
  | destroyed => exact absurd (Or.inr hpc) hi
  | lockInvoke w =>
    have hstep : callerStep i s =
        some { s with callers := Function.update s.callers i (.lockMutex w),
                      invokeMutex := some i } := by
      simp [callerStep, hpc, hinv]
    exact caller_plain i _ hstep (by rw [hpc]; intro _ h0; cases h0) rfl rfl rfl rfl rfl (by rw [hpc]; simp [callerWeight])
  | returned w =>
    cases hp : w.poison with
    | false =>
      have hstep : callerStep i s = some (s.setCaller i .idle) := by
        simp [callerStep, hpc, hp]
      exact caller_plain i _ hstep (by rw [hpc]; intro _ h0; cases h0) rfl rfl rfl rfl rfl (by rw [hpc]; simp [callerWeight])
    | true =>
      by_cases hex : s.worker = .exited
      · have hstep : callerStep i s = some (s.setCaller i .destroyed) := by
          simp [callerStep, hpc, hp, hex]
        exact caller_plain i _ hstep (by rw [hpc]; intro _ h0; cases h0) rfl rfl rfl rfl rfl (by rw [hpc]; simp [callerWeight])
      · rw [hpc] at hok
        have hq := q.resumedQ i w (by rw [hpc]; rfl) hp hok
        refine worker_adv (worker_quit hq (h.quiet hinv).2 (d.q hq).2.2.1 hex) ?_
        intro hw
        have := (d.q hq).2.2.1
        rw [hw] at this
        cases this
  | lockMutex w => rw [hpc] at hno; cases hno
  | setWork w => rw [hpc] at hno; cases hno
  | setFinished w => rw [hpc] at hno; cases hno
  | setReady w => rw [hpc] at hno; cases hno
  | notify w => rw [hpc] at hno; cases hno
  | waitCheck w => rw [hpc] at hno; cases hno
  | waiting w => rw [hpc] at hno; cases hno
  | unlockMutex w => rw [hpc] at hno; cases hno
  | unlockInvoke w => rw [hpc] at hno; cases hno

/-- A worker that is between two units of work and holds `mutex` is at the
test of `readyToWork`. -/
theorem waitCheck_of_between {pc : WorkerPc} (hb : pc.betweenWork = true)
    (hm : pc.holdsMutex = true) : pc = .waitCheck := by
  cases pc <;> simp_all [WorkerPc.betweenWork, WorkerPc.holdsMutex]

/-- While caller `i` holds `invokeMutex`, it executes its next statement, or
it is blocked and the worker executes its next statement. -/
theorem advance_held {s : Bridge n} (h : Inv s) (d : DInv s) {i : Fin n}
    (hinv : s.invokeMutex = some i) : Advances s := by
  have hhold := (h.invk i).2 hinv
  have hok := h.ok i
  cases hpc : s.callers i with
  | idle => rw [hpc] at hhold; cases hhold
  | destroyed => rw [hpc] at hhold; cases hhold
  | lockInvoke w => rw [hpc] at hhold; cases hhold
  | returned w => rw [hpc] at hhold; cases hhold
  | lockMutex w =>
    rw [hpc] at hok
    obtain ⟨hr, hb⟩ := hok.2
    cases hm : s.worker.holdsMutex with
    | true =>
      have hw := waitCheck_of_between hb hm
      exact worker_adv (worker_release hw hr) (by rw [hw]; intro h0; cases h0)
    | false =>
      have hfree := mutex_free h hinv (by rw [hpc]; rfl) hm
      have hstep : callerStep i s =
          some { s with callers := Function.update s.callers i (.setWork w),
                        mutex := some (.caller i) } := by
        simp [callerStep, hpc, hfree]
      exact caller_plain i _ hstep (by rw [hpc]; intro _ h0; cases h0) rfl rfl rfl rfl rfl (by rw [hpc]; simp [callerWeight])
  | setWork w =>
    have hstep : callerStep i s =
        some { s with callers := Function.update s.callers i (.setFinished w),
                      work := some w } := by
      simp [callerStep, hpc]
    exact caller_plain i _ hstep (by rw [hpc]; intro _ h0; cases h0) rfl rfl rfl rfl rfl (by rw [hpc]; simp [callerWeight])
  | setFinished w =>
    have hstep : callerStep i s =
        some { s with callers := Function.update s.callers i (.setReady w),
                      finishedWork := false } := by
      simp [callerStep, hpc]
    refine caller_flag i (.setReady w) hstep (by rw [hpc]; intro _ h0; cases h0) rfl rfl rfl rfl ?_ ?_
    · intro j hj
      exact le_of_eq (callerWeight_inactive _ _ (inactive_of_invoke h hinv hj))
    · rw [hpc]
      simp [callerWeight]
  | setReady w =>
    have hstep : callerStep i s =
        some { s with callers := Function.update s.callers i (.notify w),
                      readyToWork := true } := by
      simp [callerStep, hpc]
    refine ⟨_, Or.inl ⟨i, hstep, by rw [hpc]; intro _ h0; cases h0⟩,
      potential_caller i (.notify w) rfl (fun j _ => le_refl _) ?_⟩
    have := workerWeight_le
      { s with callers := Function.update s.callers i (.notify w), readyToWork := true }
    rw [hpc]
    simp only [callerWeight]
    omega
  | notify w =>
    have hstep : callerStep i s = some (s.setCaller i (.waitCheck w)) := by
      simp [callerStep, hpc]
    exact caller_plain i _ hstep (by rw [hpc]; intro _ h0; cases h0) rfl rfl rfl rfl rfl
      (by rw [hpc]; cases s.finishedWork <;> simp [callerWeight])
  | waitCheck w =>
    cases hfw : s.finishedWork with
    | true =>
      have hstep : callerStep i s = some (s.setCaller i (.unlockMutex w)) := by
        simp [callerStep, hpc, hfw]
      exact caller_plain i _ hstep (by rw [hpc]; intro _ h0; cases h0) rfl rfl rfl rfl rfl
        (by rw [hpc, hfw]; simp [callerWeight])
    | false =>
      have hstep : callerStep i s =
          some { s with callers := Function.update s.callers i (.waiting w),
                        mutex := none } := by
        simp [callerStep, hpc, hfw]
      exact caller_plain i _ hstep (by rw [hpc]; intro _ h0; cases h0) rfl rfl rfl rfl rfl
        (by rw [hpc, hfw]; simp [callerWeight])
  | waiting w =>
    rw [hpc] at hok
    have hfree : s.worker.holdsMutex = false → s.mutex = none :=
      mutex_free h hinv (by rw [hpc]; rfl)
    rcases hok with hp | hp | hp
    · obtain ⟨hwork, hr, _, _, hb⟩ := hp
      have hq : s.quit = false := by
        cases hq : s.quit with
        | false => rfl
        | true =>
          have := (d.q hq).2.1
          rw [hr] at this
          cases this
      have hne : s.worker ≠ .exited := by
        intro hex
        rw [d.exitedQ hex] at hq
        cases hq
      refine worker_adv (worker_posted hr hq hb hne hfree hwork) (fun _ => ⟨hr, ?_⟩)
      intro j w' hj
      by_cases hji : j = i
      · subst hji
        rw [hpc] at hj
        cases hj
      · have := inactive_of_invoke h hinv hji
        rw [hj] at this
        cases this
    · have hbusy : s.worker.busyWith w := by
        rcases hp.2.2.2 with ⟨hw, _⟩ | ⟨_, hw⟩
        · exact Or.inl hw
        · exact Or.inr hw
      refine worker_adv (worker_busy hbusy) ?_
      intro hw
      have := busyWith_not_between hbusy
      rw [hw] at this
      cases this
    · obtain ⟨hfw, hr, hres, hw | hb⟩ := hp
      · exact worker_adv (worker_unlock hw hr) (by rw [hw]; intro h0; cases h0)
      · cases hm : s.worker.holdsMutex with
        | true =>
          have hw := waitCheck_of_between hb hm
          exact worker_adv (worker_release hw hr) (by rw [hw]; intro h0; cases h0)
        | false =>
          cases hbn : s.worker.beforeNotify with
          | true =>
            obtain ⟨w', hw⟩ : ∃ w', s.worker = .resumeNotify w' := by
              revert hb hbn
              cases s.worker <;> simp [WorkerPc.betweenWork, WorkerPc.beforeNotify]
            exact worker_adv (worker_notify hw) (by rw [hw]; intro h0; cases h0)
          | false =>
            have hstep : callerStep i s =
                some { s with callers := Function.update s.callers i (.waitCheck w),
                              mutex := some (.caller i) } := by
              simp [callerStep, hpc, hfree hm]
            refine caller_plain i _ hstep ?_ rfl rfl rfl rfl rfl
              (by rw [hpc, hfw]; simp [callerWeight])
            intro w' hw'
            rw [hpc] at hw'
            cases hw'
            exact ⟨hres, hbn⟩
  | unlockMutex w =>
    have hstep : callerStep i s =
        some { s with callers := Function.update s.callers i (.unlockInvoke w),
                      mutex := none } := by
      simp [callerStep, hpc]
    exact caller_plain i _ hstep (by rw [hpc]; intro _ h0; cases h0) rfl rfl rfl rfl rfl (by rw [hpc]; simp [callerWeight])
  | unlockInvoke w =>
    have hstep : callerStep i s =
        some { s with callers := Function.update s.callers i (.returned w),
                      invokeMutex := none } := by
      simp [callerStep, hpc]
    exact caller_plain i _ hstep (by rw [hpc]; intro _ h0; cases h0) rfl rfl rfl rfl rfl (by rw [hpc]; simp [callerWeight])

/-- While a call is in progress, some thread can execute its next statement
and lower the potential: no state the bridge reaches is a deadlock. -/
theorem advance {s : Bridge n} (h : Inv s) (d : DInv s) (q : QInv s) (hf : ¬ Final s) :
    Advances s := by
  cases hinv : s.invokeMutex with
  | none => exact advance_free h d q hinv hf
  | some i => exact advance_held h d hinv

end Progress2

section Completion

variable {n : Nat}

/-- A statement of a caller leaves the ghost state of the entries alone, and
a caller that runs the destructor keeps running it. -/
theorem callerStep_ghost {s s' : Bridge n} {i : Fin n} (hs : callerStep i s = some s') :
    s'.destroying = s.destroying ∧ s'.nextTicket = s.nextTicket ∧
      ∀ j, (s.callers j).poisoned = true → (s'.callers j).poisoned = true := by
  have key : ∀ pc, (s.callers i).poisoned = true → pc.poisoned = true →
      ∀ j, (s.callers j).poisoned = true →
        (Function.update s.callers i pc j).poisoned = true := by
    intro pc _ hpc j hj
    by_cases hji : j = i
    · subst hji
      rw [Function.update_same]
      exact hpc
    · rw [Function.update_noteq hji]
      exact hj
  have key' : ∀ pc, (s.callers i).poisoned = false →
      ∀ j, (s.callers j).poisoned = true →
        (Function.update s.callers i pc j).poisoned = true := by
    intro pc hi j hj
    by_cases hji : j = i
    · subst hji
      rw [hi] at hj
      cases hj
    · rw [Function.update_noteq hji]
      exact hj
  simp only [callerStep] at hs
  split at hs <;> (try split at hs) <;> (try split at hs) <;>
    first
    | (cases hs; done)
    | (rename_i w hpc
       cases hs
       refine ⟨rfl, rfl, ?_⟩
       cases hp : w.poison
       · exact key' _ (by rw [hpc]; exact hp)
       · exact key _ (by rw [hpc]; exact hp) hp)
    | (rename_i w hpc _
       cases hs
       refine ⟨rfl, rfl, ?_⟩
       cases hp : w.poison
       · exact key' _ (by rw [hpc]; exact hp)
       · exact key _ (by rw [hpc]; exact hp) hp)
    | (rename_i w hpc hp _
       cases hs
       exact ⟨rfl, rfl, key _ (by rw [hpc]; exact hp) rfl⟩)
    | (rename_i w hpc hp
       cases hs
       refine ⟨rfl, rfl, key' _ (by rw [hpc]; simpa using hp)⟩)

/-- A statement of the worker leaves the callers and the ghost state of the
entries alone. -/
theorem workerStep_ghost {s s' : Bridge n} (hs : workerStep s = some s') :
    s'.destroying = s.destroying ∧ s'.nextTicket = s.nextTicket ∧ s'.callers = s.callers := by
  simp only [workerStep] at hs
  split at hs <;> (try split at hs) <;>
    first
    | (cases hs; done)
    | (cases hs; exact ⟨rfl, rfl, rfl⟩)

/-- A statement of a caller that leaves `readyToWork`, `quit` and the worker
alone lowers the potential when the caller's new position weighs less. -/
theorem potential_caller_plain {s s' : Bridge n} (i : Fin n) (pc : CallerPc)
    (hc : s'.callers = Function.update s.callers i pc)
    (hw : s'.worker = s.worker) (hq : s'.quit = s.quit) (hr : s'.readyToWork = s.readyToWork)
    (ho : ∀ j, j ≠ i → callerWeight s'.finishedWork (s.callers j) ≤
      callerWeight s.finishedWork (s.callers j))
    (hlt : callerWeight s'.finishedWork pc < callerWeight s.finishedWork (s.callers i)) :
    potential s' < potential s := by
  refine potential_caller i pc hc ho ?_
  rw [workerWeight_congr hw hq hr]
  omega

/-- Every statement of a caller lowers the potential, the wake-up from
`condition.wait` when the caller has been notified. -/
theorem caller_decrease {s s' : Bridge n} (h : Inv s) {i : Fin n}
    (hs : callerStep i s = some s')
    (hg : ∀ w, s.callers i = .waiting w → callerNotified s w) :
    potential s' < potential s := by
  cases hpc : s.callers i with
  | idle => simp [callerStep, hpc] at hs
  | destroyed => simp [callerStep, hpc] at hs
  | lockInvoke w =>
    simp only [callerStep, hpc] at hs
    split at hs
    · cases hs
      exact potential_caller_plain i _ rfl rfl rfl rfl (fun _ _ => le_refl _)
        (by rw [hpc]; simp [callerWeight])
    · cases hs
  | lockMutex w =>
    simp only [callerStep, hpc] at hs
    split at hs
    · cases hs
      exact potential_caller_plain i _ rfl rfl rfl rfl (fun _ _ => le_refl _)
        (by rw [hpc]; simp [callerWeight])
    · cases hs
  | setWork w =>
    simp only [callerStep, hpc] at hs
    cases hs
    exact potential_caller_plain i _ rfl rfl rfl rfl (fun _ _ => le_refl _)
      (by rw [hpc]; simp [callerWeight])
  | setFinished w =>
    have hinv := (h.invk i).1 (by rw [hpc]; rfl)
    simp only [callerStep, hpc] at hs
    cases hs
    refine potential_caller_plain i _ rfl rfl rfl rfl ?_ (by rw [hpc]; simp [callerWeight])
    intro j hj
    exact le_of_eq (callerWeight_inactive _ _ (inactive_of_invoke h hinv hj))
  | setReady w =>
    simp only [callerStep, hpc] at hs
    cases hs
    refine potential_caller i (.notify w) rfl (fun j _ => le_refl _) ?_
    have := workerWeight_le
      { s with callers := Function.update s.callers i (.notify w), readyToWork := true }
    rw [hpc]
    simp only [callerWeight]
    omega
  | notify w =>
    simp only [callerStep, hpc] at hs
    cases hs
    exact potential_caller_plain i _ rfl rfl rfl rfl (fun _ _ => le_refl _)
      (by rw [hpc]; show callerWeight s.finishedWork _ < _
          cases s.finishedWork <;> simp [callerWeight])
  | waitCheck w =>
    simp only [callerStep, hpc] at hs
    split at hs
    · rename_i hfw
      cases hs
      exact potential_caller_plain i _ rfl rfl rfl rfl (fun _ _ => le_refl _)
        (by rw [hpc]; show callerWeight s.finishedWork _ < _
            rw [hfw]; simp [callerWeight])
    · rename_i hfw
      cases hs
      exact potential_caller_plain i _ rfl rfl rfl rfl (fun _ _ => le_refl _)
        (by rw [hpc]; show callerWeight s.finishedWork _ < _
            rw [Bool.not_eq_true] at hfw
            rw [hfw]; simp [callerWeight])
  | waiting w =>
    have hres := (hg w hpc).1
    have hfw : s.finishedWork = true := by
      have hok := h.ok i
      rw [hpc] at hok
      rcases hok with hp | hp | hp
      · exact absurd hres hp.2.2.2.1.1
      · exact absurd hres hp.2.1
      · exact hp.1
    simp only [callerStep, hpc] at hs
    split at hs
    · cases hs
      exact potential_caller_plain i _ rfl rfl rfl rfl (fun _ _ => le_refl _)
        (by rw [hpc]; show callerWeight s.finishedWork _ < _
            rw [hfw]; simp [callerWeight])
    · cases hs
  | unlockMutex w =>
    simp only [callerStep, hpc] at hs
    cases hs
    exact potential_caller_plain i _ rfl rfl rfl rfl (fun _ _ => le_refl _)
      (by rw [hpc]; simp [callerWeight])
  | unlockInvoke w =>
    simp only [callerStep, hpc] at hs
    cases hs
    exact potential_caller_plain i _ rfl rfl rfl rfl (fun _ _ => le_refl _)
      (by rw [hpc]; simp [callerWeight])
  | returned w =>
    simp only [callerStep, hpc] at hs
    split at hs
    · split at hs
      · cases hs
        exact potential_caller_plain i _ rfl rfl rfl rfl (fun _ _ => le_refl _)
          (by rw [hpc]; simp [callerWeight])
      · cases hs
    · cases hs
      exact potential_caller_plain i _ rfl rfl rfl rfl (fun _ _ => le_refl _)
        (by rw [hpc]; simp [callerWeight])

/-- While the resume callback is about to unlock, nothing is posted. -/
theorem not_ready_of_resumeUnlock {s : Bridge n} (h : Inv s) {w : Work}
    (hw : s.worker = .resumeUnlock w) : s.readyToWork = false := by
  obtain ⟨i, w0, _, _, hph⟩ := active_waiting h (by rw [hw]; rfl)
  rcases hph with hp | hp | hp
  · simp [Posted, hw, WorkerPc.betweenWork] at hp
  · simp [Picked, hw] at hp
  · exact hp.2.1

/-- Every statement of the worker lowers the potential, the wake-up from
`condition.wait` when the worker has been notified. -/
theorem worker_decrease {s s' : Bridge n} (h : Inv s) (hs : workerStep s = some s')
    (hg : s.worker = .waiting → workerNotified s) : potential s' < potential s := by
  cases hw : s.worker with
  | exited => simp [workerStep, hw] at hs
  | iterStart =>
    simp only [workerStep, hw] at hs
    split at hs
    · rename_i hq
      cases hs
      exact potential_worker rfl (Or.inl rfl) (by simp [workerWeight, hw, hq])
    · rename_i hq
      cases hs
      rw [Bool.not_eq_true] at hq
      exact potential_worker rfl (Or.inl rfl)
        (by cases hr : s.readyToWork <;> simp [workerWeight, hw, hq, hr])
  | lock =>
    simp only [workerStep, hw] at hs
    split at hs
    · cases hs
      exact potential_worker rfl (Or.inl rfl)
        (by cases hr : s.readyToWork <;> simp [workerWeight, hw, hr])
    · cases hs
  | waitCheck =>
    simp only [workerStep, hw] at hs
    split at hs
    · rename_i hr
      cases hs
      exact potential_worker rfl (Or.inl rfl) (by simp [workerWeight, hw, hr])
    · rename_i hr
      cases hs
      rw [Bool.not_eq_true] at hr
      exact potential_worker rfl (Or.inl rfl) (by simp [workerWeight, hw, hr])
  | waiting =>
    have hr := (hg hw).1
    simp only [workerStep, hw] at hs
    split at hs
    · cases hs
      exact potential_worker rfl (Or.inl rfl) (by simp [workerWeight, hw, hr])
    · cases hs
  | copyWork =>
    simp only [workerStep, hw] at hs
    split at hs
    · cases hs
      exact potential_worker rfl (Or.inl rfl) (by simp [workerWeight, hw])
    · cases hs
  | clearReady w =>
    simp only [workerStep, hw] at hs
    cases hs
    exact potential_worker rfl (Or.inl rfl) (by simp [workerWeight, hw])
  | makeResume w =>
    simp only [workerStep, hw] at hs
    cases hs
    exact potential_worker rfl (Or.inl rfl) (by simp [workerWeight, hw])
  | callWork w =>
    simp only [workerStep, hw] at hs
    cases hs
    exact potential_worker rfl (Or.inl rfl) (by simp [workerWeight, hw])
  | running w =>
    simp only [workerStep, hw] at hs
    cases hs
    exact potential_worker rfl (Or.inl rfl) (by simp [workerWeight, hw])
  | resumeSetFinished w =>
    simp only [workerStep, hw] at hs
    cases hs
    exact potential_worker rfl (Or.inr rfl) (by simp [workerWeight, hw])
  | resumeUnlock w =>
    have hr := not_ready_of_resumeUnlock h hw
    simp only [workerStep, hw] at hs
    cases hs
    exact potential_worker rfl (Or.inl rfl)
      (by cases hq : s.quit <;> simp [workerWeight, hw, hr, hq])
  | resumeNotify w =>
    simp only [workerStep, hw] at hs
    cases hs
    exact potential_worker rfl (Or.inl rfl)
      (by cases hq : s.quit <;> cases hr : s.readyToWork <;> simp [workerWeight, hw, hr, hq])
  | resumeRearm w =>
    simp only [workerStep, hw] at hs
    cases hs
    exact potential_worker rfl (Or.inl rfl)
      (by cases hq : s.quit <;> cases hr : s.readyToWork <;> simp [workerWeight, hw, hr, hq])

/-- Every move lowers the potential: the threads at work can make only
boundedly many moves. -/
theorem moves_decrease {s s' : Bridge n} (h : Inv s) (hm : Moves s s') :
    potential s' < potential s := by
  rcases hm with ⟨i, hs, hg⟩ | ⟨hs, hg⟩
  · exact caller_decrease h hs hg
  · exact worker_decrease h hs hg

theorem moves_reachable {s s' : Bridge n} (hr : Reachable s) (hm : Moves s s') :
    Reachable s' := by
  rcases hm with ⟨i, hs, _⟩ | ⟨hs, _⟩
  · exact Reachable.step (.caller i) hr hs
  · exact Reachable.step .worker hr hs

/-- A move leaves the ghost state of the entries alone, and a caller that runs
the destructor keeps running it. -/
theorem moves_ghost {s s' : Bridge n} (hm : Moves s s') :
    s'.destroying = s.destroying ∧ s'.nextTicket = s.nextTicket ∧
      ∀ j, (s.callers j).poisoned = true → (s'.callers j).poisoned = true := by
  rcases hm with ⟨i, hs, _⟩ | ⟨hs, _⟩
  · exact callerStep_ghost hs
  · obtain ⟨gd, gt, gc⟩ := workerStep_ghost hs
    exact ⟨gd, gt, fun j hj => by rw [gc]; exact hj⟩

/-- The calls in progress can all complete: from every reachable state the
threads at work can move on to a state in which no call is in progress. -/
theorem reaches_final {s : Bridge n} (hr : Reachable s) :
    ∃ s', Reaches s s' ∧ Reachable s' ∧ Final s' ∧ s'.destroying = s.destroying ∧
      s'.nextTicket = s.nextTicket ∧
      ∀ j, (s.callers j).poisoned = true → (s'.callers j).poisoned = true := by
  generalize hk : potential s = k
  induction k using Nat.strong_induction_on generalizing s with
  | _ k ih =>
    by_cases hf : Final s
    · exact ⟨s, Reaches.refl s, hr, hf, rfl, rfl, fun _ hj => hj⟩
    · obtain ⟨s1, hm, hlt⟩ :=
        advance (inv_of_reachable hr) (dinv_of_reachable hr) (qinv_of_reachable hr) hf
      obtain ⟨s', hre, hr', hf', hd, ht, hp⟩ :=
        ih (potential s1) (by rw [← hk]; exact hlt) (moves_reachable hr hm) rfl
      obtain ⟨gd, gt, gp⟩ := moves_ghost hm
      exact ⟨s', Reaches.step hm hre, hr', hf', hd.trans gd, ht.trans gt,
        fun j hj => hp j (gp j hj)⟩

/-- The calls in progress all complete, whatever the scheduler does: every
run of the threads at work reaches, within as many moves as the potential
allows, a state in which no call is in progress. -/
theorem run_final {s : Bridge n} (hr : Reachable s) (r : Nat → Bridge n) (h0 : r 0 = s)
    (hrun : Run r) :
    ∃ k, k ≤ potential s ∧ Reachable (r k) ∧ Final (r k) ∧
      (r k).destroying = s.destroying ∧ (r k).nextTicket = s.nextTicket ∧
      ∀ j, (s.callers j).poisoned = true → ((r k).callers j).poisoned = true := by
  generalize hk : potential s = m
  induction m using Nat.strong_induction_on generalizing s r with
  | _ m ih =>
    by_cases hf : Final s
    · exact ⟨0, Nat.zero_le _, by rw [h0]; exact hr, by rw [h0]; exact hf, by rw [h0],
        by rw [h0], fun j hj => by rw [h0]; exact hj⟩
    · obtain ⟨s1, hm1, _⟩ :=
        advance (inv_of_reachable hr) (dinv_of_reachable hr) (qinv_of_reachable hr) hf
      rcases hrun 0 with hm | ⟨_, hstuck⟩
      · rw [h0] at hm
        have hlt := moves_decrease (inv_of_reachable hr) hm
        obtain ⟨k, hle, hr', hf', hd, ht, hp⟩ :=
          ih (potential (r (0 + 1))) (by rw [← hk]; exact hlt) (moves_reachable hr hm)
            (fun k => r (k + 1)) rfl (fun k => hrun (k + 1)) rfl
        obtain ⟨gd, gt, gp⟩ := moves_ghost hm
        refine ⟨k + 1, ?_, hr', hf', hd.trans gd, ht.trans gt, fun j hj => hp j (gp j hj)⟩
        rw [← hk]
        omega
      · rw [h0] at hstuck
        exact absurd hm1 (hstuck s1)

/-- Every call that has been made is in progress or has had its work
resumed. -/
theorem ticket_accounted {s : Bridge n} (hr : Reachable s) :
    ∀ t, t < s.nextTicket →
      t ∈ s.resumed ∨ ∃ i w, (s.callers i).work? = some w ∧ w.ticket = t := by
  induction hr with
  | init f =>
    intro t ht
    simp [Bridge.initial] at ht
  | @step s s' a hr hs ih =>
    have h := inv_of_reachable hr
    have keep : ∀ (i : Fin n) (pc : CallerPc), s'.nextTicket = s.nextTicket →
        s'.resumed = s.resumed → s'.callers = Function.update s.callers i pc →
        (pc.work? = (s.callers i).work? ∨
          ∃ w, (s.callers i).work? = some w ∧ w.ticket ∈ s.resumed) →
        ∀ t, t < s'.nextTicket →
          t ∈ s'.resumed ∨ ∃ j w, (s'.callers j).work? = some w ∧ w.ticket = t := by
      intro i pc hn hres hc hw t ht
      rw [hn] at ht
      rw [hres, hc]
      rcases ih t ht with hin | ⟨j, w, hj, hjt⟩
      · exact Or.inl hin
      · by_cases hji : j = i
        · subst hji
          rcases hw with hw | ⟨w', hw', hin⟩
          · exact Or.inr ⟨j, w, by rw [Function.update_same, hw]; exact hj, hjt⟩
          · rw [hj] at hw'
            cases hw'
            exact Or.inl (hjt ▸ hin)
        · exact Or.inr ⟨j, w, by rw [Function.update_noteq hji]; exact hj, hjt⟩
    cases a with
    | enter i p =>
      simp only [step, enter] at hs
      split at hs <;> cases hs
      intro t ht
      rcases Nat.lt_succ_iff_lt_or_eq.1 ht with hlt | heq
      · rcases ih t hlt with hin | ⟨j, w, hj, hjt⟩
        · exact Or.inl hin
        · refine Or.inr ⟨j, w, ?_, hjt⟩
          have hji : j ≠ i := by
            intro hji
            subst hji
            rename_i hg
            rw [hg.1] at hj
            cases hj
          show (Function.update s.callers i _ j).work? = some w
          rw [Function.update_noteq hji]
          exact hj
      · refine Or.inr ⟨i, ⟨s.nextTicket, p⟩, ?_, heq.symm⟩
        show (Function.update s.callers i _ i).work? = some _
        rw [Function.update_same]
        rfl
    | caller i =>
      simp only [step, callerStep] at hs
      split at hs <;> (try split at hs) <;> (try split at hs) <;>
        first
        | (cases hs; done)
        | (rename_i w hpc
           cases hs
           exact keep i _ rfl rfl rfl (Or.inl (by rw [hpc]; rfl)))
        | (rename_i w hpc _
           cases hs
           exact keep i _ rfl rfl rfl (Or.inl (by rw [hpc]; rfl)))
        | (rename_i w hpc _
           cases hs
           have hok := h.ok i
           rw [hpc] at hok
           exact keep i _ rfl rfl rfl (Or.inr ⟨w, by rw [hpc]; rfl, hok⟩))
        | (rename_i w hpc _ _
           cases hs
           have hok := h.ok i
           rw [hpc] at hok
           exact keep i _ rfl rfl rfl (Or.inr ⟨w, by rw [hpc]; rfl, hok⟩))
    | worker =>
      obtain ⟨_, gt, gc⟩ := workerStep_ghost hs
      have hsub : ∀ t, t ∈ s.resumed → t ∈ s'.resumed := by
        intro t ht
        rcases step_resumed .worker hs with ⟨h1, _⟩ | ⟨_, w, _, h1, _⟩
        · rw [h1]; exact ht
        · rw [h1]; exact List.mem_cons_of_mem _ ht
      intro t ht
      rw [gt] at ht
      rw [gc]
      rcases ih t ht with hin | hex
      · exact Or.inl (hsub t hin)
      · exact Or.inr hex

end Completion

section Completion2

variable {n : Nat}

/-- Once no call is in progress, the work of every call made has been
resumed, and a caller that ran the destructor has joined the worker. -/
theorem final_facts {s s' : Bridge n} (hr' : Reachable s') (hf : Final s')
    (ht : s'.nextTicket = s.nextTicket)
    (hp : ∀ j, (s.callers j).poisoned = true → (s'.callers j).poisoned = true) :
    (∀ t, t < s.nextTicket → t ∈ s'.resumed) ∧
      ∀ j, (s.callers j).poisoned = true → s'.callers j = .destroyed := by
  constructor
  · intro t hlt
    rcases ticket_accounted hr' t (by rw [ht]; exact hlt) with hin | ⟨i, w, hw, _⟩
    · exact hin
    · rcases hf i with hi | hi <;> rw [hi] at hw <;> cases hw
  · intro j hj
    have := hp j hj
    rcases hf j with hi | hi
    · rw [hi] at this
      cases this
    · exact hi

/-- From every reachable state the calls in progress can all complete, each
with its work run: the threads at work can move on to a state in which no
call is in progress and the work of every call made has been resumed. -/
theorem completes {s : Bridge n} (hr : Reachable s) :
    ∃ s', Reaches s s' ∧ Reachable s' ∧ Final s' ∧ s'.destroying = s.destroying ∧
      (∀ t, t < s.nextTicket → t ∈ s'.resumed) ∧
      ∀ j, (s.callers j).poisoned = true → s'.callers j = .destroyed := by
  obtain ⟨s', hre, hr', hf, hd, ht, hp⟩ := reaches_final hr
  obtain ⟨h1, h2⟩ := final_facts hr' hf ht hp
  exact ⟨s', hre, hr', hf, hd, h1, h2⟩

/-- From every reachable state the calls in progress all complete, each with
its work run, whatever the scheduler does: every run of the threads at work
reaches a state in which no call is in progress and the work of every call
made has been resumed. -/
theorem run_completes {s : Bridge n} (hr : Reachable s) (r : Nat → Bridge n)
    (h0 : r 0 = s) (hrun : Run r) :
    ∃ k, k ≤ potential s ∧ Reachable (r k) ∧ Final (r k) ∧
      (r k).destroying = s.destroying ∧ (∀ t, t < s.nextTicket → t ∈ (r k).resumed) ∧
      ∀ j, (s.callers j).poisoned = true → (r k).callers j = .destroyed := by
  obtain ⟨k, hle, hr', hf, hd, ht, hp⟩ := run_final hr r h0 hrun
  obtain ⟨h1, h2⟩ := final_facts hr' hf ht hp
  exact ⟨k, hle, hr', hf, hd, h1, h2⟩

/-- Every state starts a run: the scheduler lets some thread move as long as
one can. -/
theorem run_exists (s : Bridge n) : ∃ r : Nat → Bridge n, r 0 = s ∧ Run r := by
  classical
  let next : Bridge n → Bridge n := fun x =>
    if h : ∃ s', Moves x s' then Classical.choose h else x
  refine ⟨fun k => next^[k] s, rfl, ?_⟩
  intro k
  show Moves (next^[k] s) (next^[k + 1] s) ∨
    (next^[k + 1] s = next^[k] s ∧ ∀ s', ¬ Moves (next^[k] s) s')
  rw [Function.iterate_succ_apply']
  by_cases h : ∃ s', Moves (next^[k] s) s'
  · left
    have : next (next^[k] s) = Classical.choose h := dif_pos h
    rw [this]
    exact Classical.choose_spec h
  · right
    have : next (next^[k] s) = next^[k] s := dif_neg h
    exact ⟨this, fun s' hm => h ⟨s', hm⟩⟩

end Completion2


section Claims2

variable {n : Nat}

/-- C13: `invoke` does not return before the resume callback handed to its
work function has been invoked.  In every reachable state of the bridge: a
call that has returned has had `finishedWork` set by the resume callback of
the work it posted (its ticket is in `resumed`); until it waits, its work has
not been resumed; when its wait sees `finishedWork` set, that was done by its
own work's resume callback; tickets identify calls; and a step sets
`finishedWork` or records a resume only by executing the first statement of
the resume callback.  Hence a call whose work function never calls the resume
callback has not returned in any reachable state. -/
theorem invoke_returns_after_resume (s : Bridge n) (hs : Reachable s) :
    (∀ i w, s.callers i = .returned w → w.ticket ∈ s.resumed) ∧
      (∀ i w, (s.callers i = .lockInvoke w ∨ s.callers i = .lockMutex w ∨
          s.callers i = .setWork w ∨ s.callers i = .setFinished w ∨
          s.callers i = .setReady w ∨ s.callers i = .notify w) → w.ticket ∉ s.resumed) ∧
      (∀ i w, s.callers i = .notify w → s.finishedWork = false) ∧
      (∀ i w, s.callers i = .waitCheck w → s.finishedWork = true → w.ticket ∈ s.resumed) ∧
      (∀ i j w w', (s.callers i).work? = some w → (s.callers j).work? = some w' →
        w.ticket = w'.ticket → i = j) ∧
      (∀ w, s.worker = .resumeSetFinished w → ∃ i, s.callers i = .waiting w) ∧
      (∀ a s', step a s = some s' →
        (s'.resumed = s.resumed ∧ (s.finishedWork = false → s'.finishedWork = false)) ∨
          (a = .worker ∧ ∃ w, s.worker = .resumeSetFinished w ∧
            s'.resumed = w.ticket :: s.resumed ∧ s'.finishedWork = true)) ∧
      (∀ i w, (s.callers i).work? = some w → w.ticket ∉ s.resumed →
        s.callers i ≠ .returned w) := by
  have h := inv_of_reachable hs
  have hret : ∀ i w, s.callers i = .returned w → w.ticket ∈ s.resumed := by
    intro i w hpc
    have := h.ok i
    rw [hpc] at this
    exact this
  refine ⟨hret, ?_, ?_, ?_, h.uniq, ?_, fun a s' hst => step_resumed a hst, ?_⟩
  · intro i w hpc
    have hok := h.ok i
    rcases hpc with hpc | hpc | hpc | hpc | hpc | hpc <;> rw [hpc] at hok
    · exact hok.1
    · exact hok.1.1
    · exact hok.1.1
    · exact hok.1.1
    · exact hok.1.1
    · exact hok.2.2.2.1.1
  · intro i w hpc
    have hok := h.ok i
    rw [hpc] at hok
    exact hok.2.2.1
  · intro i w hpc hf
    have hok := h.ok i
    rw [hpc] at hok
    rcases hok with hp | hd
    · rw [hp.2.2.1] at hf; cases hf
    · exact hd.2.2.1
  · intro w hw
    obtain ⟨i, w0, _, hpc, hph⟩ := active_waiting h (by rw [hw]; rfl)
    obtain ⟨_, rfl, _⟩ := picked_of_busy hph (Or.inr (Or.inr (Or.inr (Or.inr hw))))
    exact ⟨i, hpc⟩
  · intro i w _ hnr hpc
    exact hnr (hret i w hpc)

/-- Instance of C13: in the sample run caller `0` has returned from `invoke`
and the ticket of its work has been resumed. -/
theorem invoke_returns_after_resume_witness :
    Reachable (execute sampleInvoke (Bridge.initial 2 true)) ∧
      (execute sampleInvoke (Bridge.initial 2 true)).callers 0 = .returned ⟨0, false⟩ ∧
      (0 : Nat) ∈ (execute sampleInvoke (Bridge.initial 2 true)).resumed :=
  ⟨reachable_execute (Reachable.init true) sampleInvoke, by decide,
    (invoke_returns_after_resume _ (reachable_execute (Reachable.init true) sampleInvoke)).1
      0 ⟨0, false⟩ (by decide)⟩

/-- C15: destruction.  In every reachable state of the bridge: at most one
caller runs the destructor, and no other caller is inside `invoke` while it
does (one poison pill is posted); `quit` is set only by the body of the poison
pill, which then calls the resume callback; once `quit` is set no work is
posted and the worker is in the rest of that resume callback, at the start of
`threadIter` or has exited, so it neither waits nor runs further work, and at
the start of `threadIter` it exits; the worker exits only when `quit` is set;
the destructor has returned only when the worker has exited; a step enters
the state `Quit` of the specification's state machine only from `Idle`; and
while a caller runs the destructor, every run of the threads at work, in
which no wake-up is spurious, reaches whatever the scheduler does the state
in which the worker has exited and the destructor has joined it and returned,
and such a continuation exists. -/
theorem destruction (s : Bridge n) (hs : Reachable s) :
    (∀ i, (s.callers i).poisoned = true → ∀ j, j ≠ i → s.callers j = .idle) ∧
      (∀ a s', step a s = some s' → s.quit = false → s'.quit = true →
        a = .worker ∧ ∃ w, s.worker = .running w ∧ w.poison = true ∧
          s'.worker = .resumeSetFinished w) ∧
      (s.quit = true → s.readyToWork = false ∧ s.worker.afterQuit = true) ∧
      (s.quit = true → s.worker = .iterStart →
        workerStep s = some { s with worker := .exited }) ∧
      (s.worker = .exited → s.quit = true) ∧
      (∀ i, s.callers i = .destroyed → s.worker = .exited) ∧
      (∀ a s', step a s = some s' → phase s' = .quit → phase s ≠ .quit →
        phase s = .idle ∧ a = .worker ∧ s.worker = .iterStart) ∧
      (∀ i, (s.callers i).poisoned = true →
        (∀ r : Nat → Bridge n, r 0 = s → Run r →
          ∃ k, (r k).callers i = .destroyed ∧ (r k).worker = .exited) ∧
        ∃ s', Reaches s s' ∧ s'.callers i = .destroyed ∧ s'.worker = .exited) := by
  have d := dinv_of_reachable hs
  refine ⟨fun i hi => (d.dstr i hi).2, fun a s' hst => step_quit a hst,
    fun hq => ⟨(d.q hq).2.1, (d.q hq).2.2.1⟩, ?_, d.exitedQ, d.joined, ?_, ?_⟩
  · intro hq hw
    simp [workerStep, hw, hq]
  · intro a s' hst hq' hq
    have hw' : s'.worker = .exited := by
      revert hq'
      unfold phase
      split <;> first | (intro _; assumption) | (intro h0; cases h0) | skip
      split <;> intro h0 <;> cases h0
    have hw : s.worker ≠ .exited := by
      intro h0
      apply hq
      simp [phase, h0]
    cases a with
    | enter i p =>
      simp only [step, enter] at hst
      split at hst <;> cases hst
      exact absurd hw' hw
    | caller i =>
      simp only [step, callerStep] at hst
      split at hst <;> (try split at hst) <;>
        first
        | (cases hst; done)
        | (cases hst; exact absurd hw' hw)
    | worker =>
      simp only [step, workerStep] at hst
      split at hst <;> (try split at hst) <;>
        first
        | (cases hst; done)
        | (cases hst; cases hw'; done)
        | (rename_i hws hqt
           cases hst
           have hr := (d.q hqt).2.1
           exact ⟨by simp [phase, hws, hr], rfl, hws⟩)
  · intro i hi
    constructor
    · intro r h0 hrun
      obtain ⟨k, _, hr', _, _, _, hp⟩ := run_completes hs r h0 hrun
      exact ⟨k, hp i hi, (dinv_of_reachable hr').joined i (hp i hi)⟩
    · obtain ⟨s', hre, hr', _, _, _, hp⟩ := completes hs
      exact ⟨s', hre, hp i hi, (dinv_of_reachable hr').joined i (hp i hi)⟩

/-- Instance of C15: in the sample run the destructor has returned and the
worker has exited. -/
theorem destruction_witness :
    Reachable (execute sampleDestroy (Bridge.initial 2 true)) ∧
      (execute sampleDestroy (Bridge.initial 2 true)).callers 0 = .destroyed ∧
      (execute sampleDestroy (Bridge.initial 2 true)).worker = .exited :=
  ⟨reachable_execute (Reachable.init true) sampleDestroy, by decide,
    (destruction _ (reachable_execute (Reachable.init true) sampleDestroy)).2.2.2.2.2.1
      0 (by decide)⟩

/-- C17: in every reachable state of the bridge, a step that executes a
statement writing `work`, `readyToWork`, `finishedWork` or `quit` is taken
while `mutex` is held by its actor, the calling thread inside `invoke` or the
worker through `childLock` (and every step that changes one of these fields
executes such a statement).  In particular `readyToWork` is clear when the
worker calls the work function and while it runs, the worker picks up a
posted unit of work at most once, and `finishedWork` is set when the resume
callback unlocks. -/
theorem writes_hold_mutex (s : Bridge n) (hs : Reachable s) :
    (∀ a s', step a s = some s' → writesShared a s = true → s.mutex = some a.owner) ∧
      (∀ a s', step a s = some s' →
        (s'.work ≠ s.work ∨ s'.readyToWork ≠ s.readyToWork ∨
          s'.finishedWork ≠ s.finishedWork ∨ s'.quit ≠ s.quit) →
        writesShared a s = true) ∧
      (∀ w, (s.worker = .callWork w ∨ s.worker = .running w) → s.readyToWork = false) ∧
      s.picked.Nodup ∧
      (∀ w, s.worker = .resumeUnlock w → s.finishedWork = true ∧ s.mutex = some .child) := by
  have h := inv_of_reachable hs
  refine ⟨?_, fun a s' hst hch => step_writes a hst hch, ?_, h.nodup, ?_⟩
  · intro a s' _ hwr
    cases a with
    | enter i p => simp [writesShared] at hwr
    | caller i =>
      refine (h.mtxC i).1 ?_
      revert hwr
      simp only [writesShared]
      cases s.callers i <;> simp [CallerPc.holdsMutex]
    | worker =>
      refine h.mtxW.1 ?_
      revert hwr
      simp only [writesShared]
      cases s.worker <;> simp [WorkerPc.holdsMutex]
  · intro w hw
    have hb : s.worker.betweenWork = false := by
      rcases hw with hw | hw <;> rw [hw] <;> rfl
    obtain ⟨i, w0, _, _, hph⟩ := active_waiting h hb
    have hbusy : s.worker = .clearReady w ∨ s.worker = .makeResume w ∨ s.worker = .callWork w ∨
        s.worker = .running w ∨ s.worker = .resumeSetFinished w := by
      rcases hw with hw | hw
      · exact Or.inr (Or.inr (Or.inl hw))
      · exact Or.inr (Or.inr (Or.inr (Or.inl hw)))
    obtain ⟨_, _, hr⟩ := picked_of_busy hph hbusy
    rcases hw with hw | hw <;> simpa [hw] using hr
  · intro w hw
    obtain ⟨i, w0, _, _, hph⟩ := active_waiting h (by rw [hw]; rfl)
    refine ⟨?_, h.mtxW.1 (by rw [hw]; rfl)⟩
    rcases hph with hp | hp | hp
    · simp [Posted, hw, WorkerPc.betweenWork] at hp
    · simp [Picked, hw] at hp
    · exact hp.1

/-- Instance of C17: the sample run is reachable, and the worker has picked
up one unit of work. -/
theorem writes_hold_mutex_witness :
    Reachable (execute sampleInvoke (Bridge.initial 2 true)) ∧
      (execute sampleInvoke (Bridge.initial 2 true)).picked.Nodup :=
  ⟨reachable_execute (Reachable.init true) sampleInvoke,
    (writes_hold_mutex _ (reachable_execute (Reachable.init true) sampleInvoke)).2.2.2.1⟩

end Claims2

section Claims3

variable {n : Nat}

/-- C14: callers that share one instance, with work functions that call the
resume callback at once (the step the worker takes from `running`).  In every
reachable state of the bridge: every call completes, that is, every run of
the threads at work, in which no further call is made and no wake-up is
spurious, reaches whatever the scheduler does, within as many moves as the
potential allows, a state in which every caller has left `invoke` and the
work of every call made has been run and resumed, and such runs and such a
continuation exist; a unit of work that has been picked up and
not yet resumed is the one the worker is busy with, so at most one is
outstanding; while the worker is busy with a unit, the caller that posted it
holds `invokeMutex` and is blocked in `condition.wait`, and no other caller
is between taking and releasing `invokeMutex`; a caller that has returned has
had its own work picked up and resumed; when a caller executes
`condition.notify_one()` no caller is blocked on `condition`, and when the
resume callback executes it the only caller blocked on `condition` is the
holder of `invokeMutex`, so the notification goes to the thread it is meant
for; and once no call is in progress and the instance is not being
destroyed, every caller can call `invoke` again, and that call completes
with its work run. -/
theorem concurrent_invokes (s : Bridge n) (hs : Reachable s) :
    (∀ r : Nat → Bridge n, r 0 = s → Run r →
        ∃ k, k ≤ potential s ∧ Final (r k) ∧ (r k).destroying = s.destroying ∧
          ∀ t, t < s.nextTicket → t ∈ (r k).resumed) ∧
      (∃ r : Nat → Bridge n, r 0 = s ∧ Run r) ∧
      (∃ s', Reaches s s' ∧ Final s' ∧ s'.destroying = s.destroying ∧
        ∀ t, t < s.nextTicket → t ∈ s'.resumed) ∧
      (∀ t, t ∈ s.picked → t ∉ s.resumed → ∃ w, w.ticket = t ∧ s.worker.busyWith w) ∧
      (∀ t t', t ∈ s.picked → t ∉ s.resumed → t' ∈ s.picked → t' ∉ s.resumed → t = t') ∧
      (∀ w, s.worker.busyWith w → ∃ i, s.invokeMutex = some i ∧ s.callers i = .waiting w ∧
        ∀ j, j ≠ i → (s.callers j).holdsInvoke = false) ∧
      (∀ i w, s.callers i = .returned w → w.ticket ∈ s.picked ∧ w.ticket ∈ s.resumed) ∧
      (∀ i w, s.callers i = .notify w → ∀ j w', s.callers j ≠ .waiting w') ∧
      (∀ w, s.worker = .resumeNotify w → ∀ j w', s.callers j = .waiting w' →
        s.invokeMutex = some j) ∧
      (Final s → s.destroying = false → ∀ i, ∃ s1, step (.enter i false) s = some s1 ∧
        (∃ s2, Reaches s1 s2 ∧ Final s2 ∧ s.nextTicket ∈ s2.resumed) ∧
        ∀ r : Nat → Bridge n, r 0 = s1 → Run r →
          ∃ k, Final (r k) ∧ s.nextTicket ∈ (r k).resumed) := by
  have h := inv_of_reachable hs
  have p := pinv_of_reachable hs
  refine ⟨?_, run_exists s, ?_, p.out, ?_, ?_, ?_, ?_, ?_, ?_⟩
  · intro r h0 hrun
    obtain ⟨k, hle, _, hf, hd, ht, _⟩ := run_completes hs r h0 hrun
    exact ⟨k, hle, hf, hd, ht⟩
  · obtain ⟨s', hre, _, hf, hd, ht, _⟩ := completes hs
    exact ⟨s', hre, hf, hd, ht⟩
  · intro t t' ht hn ht' hn'
    obtain ⟨w, hw, hb⟩ := p.out t ht hn
    obtain ⟨w', hw', hb'⟩ := p.out t' ht' hn'
    rw [← hw, ← hw', busyWith_inj hb hb']
  · intro w hb
    obtain ⟨i, w0, hinv, hpc, hph⟩ := active_waiting h (busyWith_not_between hb)
    obtain ⟨_, rfl, _⟩ := picked_of_busy hph hb
    exact ⟨i, hinv, hpc, fun j hj => inactive_of_invoke h hinv hj⟩
  · intro i w hpc
    have hok := h.ok i
    rw [hpc] at hok
    exact ⟨p.sub _ hok, hok⟩
  · intro i w hpc j w' hj
    have hinv := (h.invk i).1 (by rw [hpc]; rfl)
    by_cases hji : j = i
    · subst hji
      rw [hpc] at hj
      cases hj
    · have := inactive_of_invoke h hinv hji
      rw [hj] at this
      cases this
  · intro w _ j w' hj
    exact (h.invk j).1 (by rw [hj]; rfl)
  · intro hf hd i
    have hidle : ∀ j, s.callers j = .idle := by
      intro j
      rcases hf j with hj | hj
      · exact hj
      · have := ((dinv_of_reachable hs).dstr j (by rw [hj]; rfl)).1
        rw [hd] at this
        cases this
    have hstep : step (.enter i false) s =
        some { s with callers := Function.update s.callers i (.lockInvoke ⟨s.nextTicket, false⟩),
                      nextTicket := s.nextTicket + 1, destroying := false } := by
      simp [step, enter, hidle, hd]
    have hr1 := Reachable.step _ hs hstep
    refine ⟨_, hstep, ?_, ?_⟩
    · obtain ⟨s2, hre, _, hf2, _, ht, _⟩ := completes hr1
      exact ⟨s2, hre, hf2, ht s.nextTicket (Nat.lt_succ_self _)⟩
    · intro r h0 hrun
      obtain ⟨k, _, _, hf2, _, ht, _⟩ := run_completes hr1 r h0 hrun
      exact ⟨k, hf2, ht s.nextTicket (Nat.lt_succ_self _)⟩

/-- Instance of C14: in the sample run the worker is running the work of
caller `0` while caller `1` waits for `invokeMutex`, and both calls can
complete with their work run. -/
theorem concurrent_invokes_witness :
    Reachable (execute sampleTwoCalls (Bridge.initial 2 true)) ∧
      (execute sampleTwoCalls (Bridge.initial 2 true)).worker = .running ⟨0, false⟩ ∧
      (execute sampleTwoCalls (Bridge.initial 2 true)).callers 1 = .lockInvoke ⟨1, false⟩ ∧
      ∃ s', Reaches (execute sampleTwoCalls (Bridge.initial 2 true)) s' ∧ Final s' ∧
        s'.destroying = (execute sampleTwoCalls (Bridge.initial 2 true)).destroying ∧
        ∀ t, t < (execute sampleTwoCalls (Bridge.initial 2 true)).nextTicket → t ∈ s'.resumed :=
  ⟨reachable_execute (Reachable.init true) sampleTwoCalls, by decide, by decide,
    (concurrent_invokes _ (reachable_execute (Reachable.init true) sampleTwoCalls)).2.2.1⟩

end Claims3

end SyncToAsync

end wasmfs
